import Mathlib

/-!
# A verification development for the `ls` clone (revision `lsv1.6.0.c`)

The C program is embedded shallowly.

* A C string is a `List Char`; every `Char` stands for one byte and is
  compared through its code, as `strcmp` compares `unsigned char`s.
* `mode_t` values are natural numbers, tested with `&&&` against the
  `<sys/stat.h>` masks (the Linux values).
* `int` variables are integers; the quotient of two `int`s is the truncating
  `Int.tdiv`, and a zero divisor is reported as `none`.  In `do_ls` and the
  layouts it calls the integers are not wrapped: with at most 4096 names, names
  shorter than `PATH_MAX` and a terminal width below 65536, no value of the
  layouts leaves the range of `int`.
* `print_horizontal` takes any `maxlen`, and for `maxlen >= 2 ^ 30 - 2` its sums
  `maxlen + 2` and `current_width + col_width` leave the range of `int`.  The
  function is therefore embedded twice: `print_horizontal` with exact sums, and
  `print_horizontal_int` with every sum reduced to 32 bits (`wrap_int`), which
  is the loop for every `int` argument.  The two agree whenever the sums stay
  within `INT_MAX` (`print_horizontal_int_eq`); statements about arbitrary
  `maxlen` that depend on where the lines break are made of
  `print_horizontal_int`.
* A pair `char **names, int n` is a list, `n` being its length.
* Everything written by `printf` and `perror` is recorded as a trace of
  `Ev` events, one event per call, together with a byte rendering of the
  events written to standard output.
* The environment (directory streams, `lstat`, `readlink`, the user and group
  databases, the terminal size) is a record of functions, `Env`; it does not
  change while the program runs.
* `do_ls` is recursive on the directory tree, so it carries a recursion budget:
  a run returns its trace and whether it came back within the budget.
-/

namespace Ls

/-- A C string: the bytes before the terminating NUL. -/
abbrev CStr := List Char

/-! ## `<sys/stat.h>` -/

/-- Mask of the file-type bits of a mode. -/
def S_IFMT : Nat := 0o170000
/-- File type: socket. -/
def S_IFSOCK : Nat := 0o140000
/-- File type: symbolic link. -/
def S_IFLNK : Nat := 0o120000
/-- File type: regular file. -/
def S_IFREG : Nat := 0o100000
/-- File type: block device. -/
def S_IFBLK : Nat := 0o060000
/-- File type: directory. -/
def S_IFDIR : Nat := 0o040000
/-- File type: character device. -/
def S_IFCHR : Nat := 0o020000
/-- File type: fifo. -/
def S_IFIFO : Nat := 0o010000

/-- Set-user-id bit. -/
def S_ISUID : Nat := 0o4000
/-- Set-group-id bit. -/
def S_ISGID : Nat := 0o2000
/-- Sticky bit. -/
def S_ISVTX : Nat := 0o1000
/-- Owner read. -/
def S_IRUSR : Nat := 0o400
/-- Owner write. -/
def S_IWUSR : Nat := 0o200
/-- Owner execute. -/
def S_IXUSR : Nat := 0o100
/-- Group read. -/
def S_IRGRP : Nat := 0o040
/-- Group write. -/
def S_IWGRP : Nat := 0o020
/-- Group execute. -/
def S_IXGRP : Nat := 0o010
/-- Other read. -/
def S_IROTH : Nat := 0o004
/-- Other write. -/
def S_IWOTH : Nat := 0o002
/-- Other execute. -/
def S_IXOTH : Nat := 0o001

/-- The macro `S_ISDIR(m)`. -/
def S_ISDIR (m : Nat) : Bool := m &&& S_IFMT == S_IFDIR
/-- The macro `S_ISLNK(m)`. -/
def S_ISLNK (m : Nat) : Bool := m &&& S_IFMT == S_IFLNK
/-- The macro `S_ISCHR(m)`. -/
def S_ISCHR (m : Nat) : Bool := m &&& S_IFMT == S_IFCHR
/-- The macro `S_ISBLK(m)`. -/
def S_ISBLK (m : Nat) : Bool := m &&& S_IFMT == S_IFBLK
/-- The macro `S_ISFIFO(m)`. -/
def S_ISFIFO (m : Nat) : Bool := m &&& S_IFMT == S_IFIFO
/-- The macro `S_ISSOCK(m)`. -/
def S_ISSOCK (m : Nat) : Bool := m &&& S_IFMT == S_IFSOCK
/-- The macro `S_ISREG(m)`. -/
def S_ISREG (m : Nat) : Bool := m &&& S_IFMT == S_IFREG

/-- A C condition `m & mask`: true when the conjunction is non-zero. -/
def tst (m mask : Nat) : Bool := m &&& mask != 0

/-! ## `permissions_str` -/

/-- The function `permissions_str(m, out)`: the contents of `out` (without the
terminating NUL) after the call.  The buffer is first filled with ten dashes
and then overwritten slot by slot, as in the source. -/
def permissions_str (m : Nat) : CStr :=
  let out : CStr := "----------".toList
  let out :=
    if S_ISDIR m then out.set 0 'd'
    else if S_ISLNK m then out.set 0 'l'
    else if S_ISCHR m then out.set 0 'c'
    else if S_ISBLK m then out.set 0 'b'
    else if S_ISFIFO m then out.set 0 'p'
    else if S_ISSOCK m then out.set 0 's'
    else out
  let out := out.set 1 (if tst m S_IRUSR then 'r' else '-')
  let out := out.set 2 (if tst m S_IWUSR then 'w' else '-')
  let out :=
    if tst m S_ISUID then out.set 3 (if tst m S_IXUSR then 's' else 'S')
    else out.set 3 (if tst m S_IXUSR then 'x' else '-')
  let out := out.set 4 (if tst m S_IRGRP then 'r' else '-')
  let out := out.set 5 (if tst m S_IWGRP then 'w' else '-')
  let out :=
    if tst m S_ISGID then out.set 6 (if tst m S_IXGRP then 's' else 'S')
    else out.set 6 (if tst m S_IXGRP then 'x' else '-')
  let out := out.set 7 (if tst m S_IROTH then 'r' else '-')
  let out := out.set 8 (if tst m S_IWOTH then 'w' else '-')
  let out :=
    if tst m S_ISVTX then out.set 9 (if tst m S_IXOTH then 't' else 'T')
    else out.set 9 (if tst m S_IXOTH then 'x' else '-')
  out

/-- Value of a read or write slot: `1` when the slot shows the letter `c`. -/
def decFlag (c x : Char) : Nat := if x = c then 1 else 0

/-- Execute bit shown by an execute slot whose special letters are
`lo` (special bit and execute) and `up` (special bit only). -/
def decExec (lo _up x : Char) : Nat := if x = 'x' ∨ x = lo then 1 else 0

/-- Special bit (setuid, setgid or sticky) shown by an execute slot. -/
def decSpecial (lo up x : Char) : Nat := if x = lo ∨ x = up then 1 else 0

/-- Decoder of a rendered permission string: the twelve permission bits read
back from positions 1 to 9 (position 0, the file kind, is ignored). -/
def decodePerm : CStr → Nat
  | [_, ur, uw, ux, gr, gw, gx, or, ow, ox] =>
      decSpecial 's' 'S' ux * S_ISUID + decSpecial 's' 'S' gx * S_ISGID
        + decSpecial 't' 'T' ox * S_ISVTX
        + decFlag 'r' ur * S_IRUSR + decFlag 'w' uw * S_IWUSR + decExec 's' 'S' ux * S_IXUSR
        + decFlag 'r' gr * S_IRGRP + decFlag 'w' gw * S_IWGRP + decExec 's' 'S' gx * S_IXGRP
        + decFlag 'r' or * S_IROTH + decFlag 'w' ow * S_IWOTH + decExec 't' 'T' ox * S_IXOTH
  | _ => 0

/-- Character shown at position 0 for the mode `m`. -/
def kindChar (m : Nat) : Char :=
  if S_ISDIR m then 'd'
  else if S_ISLNK m then 'l'
  else if S_ISCHR m then 'c'
  else if S_ISBLK m then 'b'
  else if S_ISFIFO m then 'p'
  else if S_ISSOCK m then 's'
  else '-'

/-- Character of a read or write slot. -/
def flagChar (c : Char) (b : Bool) : Char := if b then c else '-'

/-- Character of an execute slot with special letters `lo` and `up`. -/
def execChar (lo up : Char) (special x : Bool) : Char :=
  if special then (if x then lo else up) else (if x then 'x' else '-')

/-! ## `<string.h>`, `<strings.h>`, `<stdlib.h>`, `<limits.h>` -/

/-- The constant `PATH_MAX` of `<limits.h>`. -/
def PATH_MAX : Nat := 4096

/-- The library function `strcmp`: bytes are compared as unsigned values; the
result is negative, zero or positive. -/
def strcmp : CStr → CStr → Int
  | [], [] => 0
  | [], _ :: _ => -1
  | _ :: _, [] => 1
  | a :: as, b :: bs => if a = b then strcmp as bs else (a.toNat : Int) - (b.toNat : Int)

/-- The library function `tolower` in the C locale. -/
def tolower (c : Char) : Char :=
  if 'A'.toNat ≤ c.toNat ∧ c.toNat ≤ 'Z'.toNat then Char.ofNat (c.toNat + 32) else c

/-- The library function `strncasecmp`: at most `n` bytes are compared, after
ASCII case folding. -/
def strncasecmp : CStr → CStr → Nat → Int
  | _, _, 0 => 0
  | [], [], _ + 1 => 0
  | [], _ :: _, _ + 1 => -1
  | _ :: _, [], _ + 1 => 1
  | a :: as, b :: bs, n + 1 =>
      if tolower a = tolower b then strncasecmp as bs n
      else ((tolower a).toNat : Int) - ((tolower b).toNat : Int)

/-- The library routine `qsort`, by its contract: the array is rearranged into
non-decreasing order of the comparison function.  Insertion sort stands for it. -/
def qsort (cmp : CStr → CStr → Int) (names : List CStr) : List CStr :=
  names.insertionSort (fun a b => cmp a b ≤ 0)

/-- The result of `snprintf(buf, size, ...)` for the text `s`: at most
`size - 1` bytes are stored. -/
def snprintf (size : Nat) (s : CStr) : CStr := s.take (size - 1)

/-! ## The environment -/

/-- The fields of `struct stat` the program reads. -/
structure Stat where
  /-- File type and permission bits. -/
  st_mode : Nat
  /-- Number of hard links. -/
  st_nlink : Nat
  /-- Owner id. -/
  st_uid : Nat
  /-- Group id. -/
  st_gid : Nat
  /-- Size in bytes. -/
  st_size : Int
  /-- Modification time. -/
  st_mtime : Int
deriving DecidableEq

/-- The system calls and library look-ups the program consumes. -/
structure Env where
  /-- The names `readdir` yields after `opendir(path)`, in read order;
  `none` when `opendir` fails. -/
  opendir : CStr → Option (List CStr)
  /-- The call `lstat(path, &st)`; `none` when it fails. -/
  lstat : CStr → Option Stat
  /-- The raw link value `readlink` reports; `none` when it fails. -/
  readlink : CStr → Option CStr
  /-- The field `pw_name` of `getpwuid(uid)`; `none` for an unknown id. -/
  getpwuid : Nat → Option CStr
  /-- The field `gr_name` of `getgrgid(gid)`; `none` for an unknown id. -/
  getgrgid : Nat → Option CStr
  /-- The text `strftime` writes for `"%b %e %H:%M"` from `localtime(&t)`;
  `none` when `localtime` fails. -/
  strftime : Int → Option CStr
  /-- The field `ws_col` after `ioctl(STDOUT_FILENO, TIOCGWINSZ, &ws)`;
  `none` when the call fails. -/
  ws_col : Option Nat

/-! ## Output -/

/-- Reset escape sequence. -/
def COLOR_RESET : CStr := "\x1b[0m".toList
/-- Blue. -/
def COLOR_BLUE : CStr := "\x1b[0;34m".toList
/-- Green. -/
def COLOR_GREEN : CStr := "\x1b[0;32m".toList
/-- Red. -/
def COLOR_RED : CStr := "\x1b[0;31m".toList
/-- Magenta. -/
def COLOR_MAGENTA : CStr := "\x1b[0;35m".toList
/-- Reverse video. -/
def COLOR_REVERSE : CStr := "\x1b[7m".toList

/-- One output call of the program, with its arguments. -/
inductive Ev where
  /-- The call `printf("%s:\n", path)`. -/
  | header (path : CStr)
  /-- The call `printf("%s%-*s%s", col, pad_width, name, COLOR_RESET)`. -/
  | cell (col : CStr) (name : CStr) (pad_width : Int)
  /-- The call `printf("\n")`. -/
  | newline
  /-- The call `printf("%s %3lu %-8s %-8s %8lld %s ", ...)` of `print_long`. -/
  | fields (perm : CStr) (nlink : Nat) (owner group : CStr) (size : Int) (time : CStr)
  /-- The call `printf("%s%s%s", col, name, COLOR_RESET)` of `print_long`. -/
  | name (col : CStr) (name : CStr)
  /-- The call `printf(" -> %s", target)`. -/
  | arrow (target : CStr)
  /-- The call `perror(s)`, which writes to the error stream. -/
  | perror (s : CStr)
deriving DecidableEq

/-- Left-justified text in a field of `width` columns (`%-*s`). -/
def padRight (s : CStr) (width : Nat) : CStr := s ++ List.replicate (width - s.length) ' '

/-- Right-justified text in a field of `width` columns (`%*s`). -/
def padLeft (s : CStr) (width : Nat) : CStr := List.replicate (width - s.length) ' ' ++ s

/-- The bytes an output call writes to standard output. -/
def Ev.render : Ev → CStr
  | .header path => path ++ ":\n".toList
  | .cell col nm pad_width => col ++ padRight nm pad_width.natAbs ++ COLOR_RESET
  | .newline => ['\n']
  | .fields perm nlink owner group size time =>
      perm ++ [' '] ++ padLeft (Nat.repr nlink).toList 3 ++ [' '] ++ padRight owner 8 ++ [' ']
        ++ padRight group 8 ++ [' '] ++ padLeft (toString size).toList 8 ++ [' '] ++ time ++ [' ']
  | .name col nm => col ++ nm ++ COLOR_RESET
  | .arrow target => " -> ".toList ++ target
  | .perror _ => []

/-- The bytes a trace writes to standard output. -/
def stdout (out : List Ev) : CStr := (out.map Ev.render).flatten

/-- The entry name an output call shows, if it shows one. -/
def Ev.shown : Ev → Option CStr
  | .cell _ nm _ => some nm
  | .name _ nm => some nm
  | _ => none

/-- The entry names of a trace, in the order in which they are written. -/
def shownNames (out : List Ev) : List CStr := out.filterMap Ev.shown

/-- Whether an output call ends the current output line. -/
def Ev.endsLine : Ev → Bool
  | .newline => true
  | .header _ => true
  | _ => false

/-- The output lines of a trace: the calls of each line in order, the bare
`newline` call that closes a line left out. -/
def lines : List Ev → List (List Ev)
  | [] => []
  | e :: es =>
      if e.endsLine then (if e = Ev.newline then [] else [e]) :: lines es
      else
        match lines es with
        | [] => [[e]]
        | l :: ls => (e :: l) :: ls

/-- The grid cells of one output line with their starting offsets: the offset
of a cell is the total width of the cells placed before it on the line,
starting from `s`. -/
def offsetsFrom : Int → List Ev → List (CStr × Int)
  | _, [] => []
  | s, Ev.cell _ nm pad_width :: es => (nm, s) :: offsetsFrom (s + pad_width) es
  | s, _ :: es => offsetsFrom s es

/-- The placements of a trace: for every output line, its cells with their
starting offsets. -/
def placements (out : List Ev) : List (List (CStr × Int)) :=
  (lines out).map (offsetsFrom 0)

/-- The names of a grid read down each column, the columns taken from left to
right; `k` bounds the number of columns. -/
def columnMajor : Nat → List (List CStr) → List CStr
  | 0, _ => []
  | k + 1, rows => rows.filterMap List.head? ++ columnMajor k (rows.map List.tail)

/-! ## The program -/

/-- The helper `has_suffix(name, suf)`: case-insensitive suffix check. -/
def has_suffix (name suf : CStr) : Bool :=
  let n := name.length
  let m := suf.length
  if n < m then false
  else strncasecmp (name.drop (n - m)) suf m == 0

/-- The function `color_for_file(fullpath, name)`: the escape sequence chosen
from the file type and the extension. -/
def color_for_file (env : Env) (fullpath name : CStr) : CStr :=
  match env.lstat fullpath with
  | none => COLOR_RESET
  | some st =>
      if S_ISLNK st.st_mode then COLOR_MAGENTA
      else if S_ISDIR st.st_mode then COLOR_BLUE
      else if S_ISCHR st.st_mode || S_ISBLK st.st_mode ||
          S_ISSOCK st.st_mode || S_ISFIFO st.st_mode then COLOR_REVERSE
      else if has_suffix name ".tar".toList || has_suffix name ".tar.gz".toList ||
          has_suffix name ".tgz".toList || has_suffix name ".gz".toList ||
          has_suffix name ".zip".toList || has_suffix name ".bz2".toList ||
          has_suffix name ".xz".toList then COLOR_RED
      else if tst st.st_mode (S_IXUSR ||| S_IXGRP ||| S_IXOTH) then COLOR_GREEN
      else COLOR_RESET

/-- The path built in `char full[PATH_MAX]` from a directory and a name: the
name alone when the directory is `"."`, else `"<path>/<name>"`, cut by
`snprintf` to the buffer. -/
def full_path (path name : CStr) : CStr :=
  if strcmp path ".".toList == 0 then snprintf PATH_MAX name
  else snprintf PATH_MAX (path ++ "/".toList ++ name)

/-- The function `print_colored_padded(basepath, name, pad_width)`. -/
def print_colored_padded (env : Env) (basepath name : CStr) (pad_width : Int) : List Ev :=
  let full := full_path basepath name
  let col := color_for_file env full name
  [Ev.cell col name pad_width]

/-- The function `print_long(fullpath, name)`. -/
def print_long (env : Env) (fullpath name : CStr) : List Ev :=
  match env.lstat fullpath with
  | none => [Ev.perror fullpath]
  | some st =>
      let perm := permissions_str st.st_mode
      let pw := env.getpwuid st.st_uid
      let gr := env.getgrgid st.st_gid
      let timebuf :=
        match env.strftime st.st_mtime with
        | some t => t
        | none => "??? ?? ????".toList
      let col := color_for_file env fullpath name
      [Ev.fields perm st.st_nlink (pw.getD "unknown".toList) (gr.getD "unknown".toList)
          st.st_size timebuf,
        Ev.name col name]
        ++ (if S_ISLNK st.st_mode then
              match env.readlink fullpath with
              | some target => [Ev.arrow (target.take (PATH_MAX - 1))]
              | none => []
            else [])
        ++ [Ev.newline]

/-- The terminal width both layouts use: `ws.ws_col` when the `ioctl` succeeds
with a positive column count, else 80. -/
def term_width (env : Env) : Int :=
  match env.ws_col with
  | some c => if c > 0 then (c : Int) else 80
  | none => 80

/-- The quotient `a / b` of two `int`s: undefined for a zero divisor,
truncated toward zero otherwise. -/
def c_div (a b : Int) : Option Int :=
  if b = 0 then none else some (Int.tdiv a b)

/-- The traces of `count` iterations of a counting loop whose counter starts
at `i` and is incremented after every iteration. -/
def loopFrom (body : Nat → List Ev) : Nat → Nat → List Ev
  | 0, _ => []
  | count + 1, i => body i ++ loopFrom body count (i + 1)

/-- The loop `for (int i = 0; i < hi; ++i) body(i)`. -/
def forLoop (hi : Int) (body : Nat → List Ev) : List Ev :=
  loopFrom body hi.toNat 0

/-- The function `print_default(names, n, maxlen, basepath)`, where `n` is the
length of `names`; `none` when the column count divides by zero. -/
def print_default (env : Env) (names : List CStr) (maxlen : Int) (basepath : CStr) :
    Option (List Ev) := do
  let n : Int := names.length
  let term_width := term_width env
  let col_width := maxlen + 2
  let cols ← c_div term_width col_width
  let cols := if cols < 1 then 1 else cols
  let rows ← c_div (n + cols - 1) cols
  pure <| forLoop rows fun r =>
    (forLoop cols fun c =>
      let i : Int := c * rows + r
      if i < n then print_colored_padded env basepath (names.getD i.toNat []) col_width
      else [])
    ++ [Ev.newline]

/-- The loop of `print_horizontal` over the names still to be placed, with
the running `current_width`.  The sums are exact: this is the loop as long as
`current_width + col_width` stays within `INT_MAX`; `horizontal_loop_int`
below is the loop for every `int`. -/
def horizontal_loop (env : Env) (basepath : CStr) (col_width term_width : Int) :
    List CStr → Int → List Ev
  | [], _ => []
  | nm :: rest, current_width =>
      if current_width + col_width > term_width then
        Ev.newline :: (print_colored_padded env basepath nm col_width
          ++ horizontal_loop env basepath col_width term_width rest (0 + col_width))
      else
        print_colored_padded env basepath nm col_width
          ++ horizontal_loop env basepath col_width term_width rest (current_width + col_width)

/-- The function `print_horizontal(names, n, maxlen, basepath)`, where `n` is
the length of `names`, with exact sums (see `print_horizontal_int` for the
sums in 32 bits). -/
def print_horizontal (env : Env) (names : List CStr) (maxlen : Int) (basepath : CStr) :
    List Ev :=
  let term_width := term_width env
  let col_width := maxlen + 2
  horizontal_loop env basepath col_width term_width names 0 ++ [Ev.newline]

/-- The largest `int` (32 bits, as on the Linux targets of the program). -/
def INT_MAX : Int := 2147483647

/-- The smallest `int`. -/
def INT_MIN : Int := -2147483648

/-- The `int` a sum of `int`s leaves in its 32-bit variable: the sum itself
when it lies between `INT_MIN` and `INT_MAX`, and otherwise the sum taken
modulo `2 ^ 32` back into that range, as the compiled program computes it. -/
def wrap_int (x : Int) : Int := (x + 2 ^ 31) % 2 ^ 32 - 2 ^ 31

/-- The loop of `print_horizontal` with its sums kept in `int` variables: the
test `current_width + col_width > term_width` and the update
`current_width += col_width` are taken in 32 bits. -/
def horizontal_loop_int (env : Env) (basepath : CStr) (col_width term_width : Int) :
    List CStr → Int → List Ev
  | [], _ => []
  | nm :: rest, current_width =>
      if wrap_int (current_width + col_width) > term_width then
        Ev.newline :: (print_colored_padded env basepath nm col_width
          ++ horizontal_loop_int env basepath col_width term_width rest
              (wrap_int (0 + col_width)))
      else
        print_colored_padded env basepath nm col_width
          ++ horizontal_loop_int env basepath col_width term_width rest
              (wrap_int (current_width + col_width))

/-- The function `print_horizontal(names, n, maxlen, basepath)` with its `int`
variables `col_width` and `current_width` kept in 32 bits; `n` is the length
of `names`. -/
def print_horizontal_int (env : Env) (names : List CStr) (maxlen : Int) (basepath : CStr) :
    List Ev :=
  let term_width := term_width env
  let col_width := wrap_int (maxlen + 2)
  horizontal_loop_int env basepath col_width term_width names 0 ++ [Ev.newline]

/-- The comparison function `compare_names` handed to `qsort`. -/
def compare_names (s1 s2 : CStr) : Int := strcmp s1 s2

/-- Capacity of the array `char *names[4096]` of `do_ls`. -/
def NAMES_CAP : Nat := 4096

/-- The collecting loop of `do_ls` over the entries `readdir` still yields:
`names` holds the `n` names stored so far (`n` is its length) and `maxlen` the
longest length seen.  `strdup` is taken to succeed. -/
def collect : List CStr → List CStr → Int → List CStr × Int
  | [], names, maxlen => (names, maxlen)
  | d_name :: rest, names, maxlen =>
      if d_name.head? = some '.' then collect rest names maxlen
      else if names.length ≥ NAMES_CAP then (names, maxlen)
      else
        let len : Int := d_name.length
        collect rest (names ++ [d_name]) (if len > maxlen then len else maxlen)

/-- The sorting step of `do_ls`: `qsort` is called when `n > 1`. -/
def sort_names (names : List CStr) : List CStr :=
  if names.length > 1 then qsort compare_names names else names

/-- The loop of `do_ls` for `display_mode == 1`: one `print_long` per name. -/
def long_loop (env : Env) (path : CStr) : List CStr → List Ev
  | [] => []
  | nm :: rest => print_long env (full_path path nm) nm ++ long_loop env path rest

/-- The display step of `do_ls`: the listing of the sorted names in the chosen
mode; `none` when the layout divides by zero. -/
def display (env : Env) (path : CStr) (display_mode : Int) (names : List CStr) (maxlen : Int) :
    Option (List Ev) :=
  if display_mode = 1 then some (long_loop env path names)
  else if display_mode = 2 then some (print_horizontal env names maxlen path)
  else print_default env names maxlen path

/-- The result of running a part of the program: the trace written, and
whether the part returned (it does not when the recursion budget is used up
or a division by zero stops the program). -/
structure Run where
  /-- The output calls made, in order. -/
  out : List Ev
  /-- Whether control came back. -/
  done : Bool
deriving DecidableEq

/-- The recursive loop of `do_ls` over the sorted names; `walk` is the
recursive call `do_ls(full, display_mode, recursive_flag)`. -/
def walk_loop (env : Env) (path : CStr) (walk : CStr → Run) : List CStr → Run
  | [] => ⟨[], true⟩
  | nm :: rest =>
      let full := full_path path nm
      match env.lstat full with
      | none => walk_loop env path walk rest
      | some st =>
          if S_ISDIR st.st_mode then
            if strcmp nm ".".toList == 0 || strcmp nm "..".toList == 0 then
              walk_loop env path walk rest
            else
              let sub := walk full
              if sub.done then
                let more := walk_loop env path walk rest
                ⟨Ev.newline :: (sub.out ++ more.out), more.done⟩
              else ⟨Ev.newline :: sub.out, false⟩
          else walk_loop env path walk rest

/-- The function `do_ls(path, display_mode, recursive_flag)`.  The first
argument bounds the depth of the recursion: with budget `0` nothing has run
yet. -/
def do_ls : Nat → Env → CStr → Int → Bool → Run
  | 0, _, _, _, _ => ⟨[], false⟩
  | fuel + 1, env, path, display_mode, recursive_flag =>
      match env.opendir path with
      | none => ⟨[Ev.perror path], true⟩
      | some stream =>
          let collected := collect stream [] 0
          let names := sort_names collected.1
          match display env path display_mode names collected.2 with
          | none => ⟨[Ev.header path], false⟩
          | some listing =>
              if recursive_flag then
                let sub := walk_loop env path
                  (fun full => do_ls fuel env full display_mode recursive_flag) names
                ⟨Ev.header path :: (listing ++ sub.out), sub.done⟩
              else ⟨Ev.header path :: listing, true⟩

/-! ## Definitions that follow the specification's wording -/

/-- The character of a read or write slot, in the specification's words: the
letter when the bit is set, `-` when it is unset. -/
def slotFlag (letter : Char) (bit : Bool) : Char := if bit then letter else '-'

/-- The character of an execute slot, in the specification's words: `lo` when
the special bit and the execute bit are both set, `up` when the special bit is
set and the execute bit is not, and otherwise `x` or `-` for the execute bit. -/
def slotExec (lo up : Char) (special exec : Bool) : Char :=
  if special ∧ exec then lo
  else if special ∧ ¬ exec then up
  else if exec then 'x'
  else '-'

/-- The character of position 0, in the specification's words, from the
file-type field of the mode. -/
def kindOf (m : Nat) : Char :=
  match m &&& 0o170000 with
  | 0o040000 => 'd'
  | 0o120000 => 'l'
  | 0o020000 => 'c'
  | 0o060000 => 'b'
  | 0o010000 => 'p'
  | 0o140000 => 's'
  | _ => '-'


/-- The display categories of the specification. -/
inductive ColorCategory where
  | Directory
  | Symlink
  | SpecialFile
  | Archive
  | Executable
  | Plain
deriving DecidableEq

/-- The escape sequence of a category: magenta, blue, reverse video, red,
green, and the reset sequence for a plain entry. -/
def ColorCategory.code : ColorCategory → CStr
  | .Symlink => "\x1b[0;35m".toList
  | .Directory => "\x1b[0;34m".toList
  | .SpecialFile => "\x1b[7m".toList
  | .Archive => "\x1b[0;31m".toList
  | .Executable => "\x1b[0;32m".toList
  | .Plain => "\x1b[0m".toList

/-- The fixed archive-suffix set of the specification. -/
def archiveSuffixes : List CStr :=
  [".tar".toList, ".tar.gz".toList, ".tgz".toList, ".gz".toList, ".zip".toList,
    ".bz2".toList, ".xz".toList]

/-- ASCII case folding of a string. -/
def foldCase (s : CStr) : CStr := s.map tolower

/-- The name ends with the suffix when both are compared after case folding. -/
def endsWithNoCase (name suf : CStr) : Prop := foldCase suf <:+ foldCase name

instance (name suf : CStr) : Decidable (endsWithNoCase name suf) := by
  unfold endsWithNoCase; infer_instance

/-- The classifier of the specification: the category of the first matching
rule, from the mode of the entry and its name. -/
def classify (m : Nat) (name : CStr) : ColorCategory :=
  if m &&& 0o170000 = 0o120000 then .Symlink
  else if m &&& 0o170000 = 0o040000 then .Directory
  else if m &&& 0o170000 = 0o020000 ∨ m &&& 0o170000 = 0o060000
      ∨ m &&& 0o170000 = 0o140000 ∨ m &&& 0o170000 = 0o010000 then .SpecialFile
  else if ∃ suf ∈ archiveSuffixes, endsWithNoCase name suf then .Archive
  else if m &&& 0o100 ≠ 0 ∨ m &&& 0o010 ≠ 0 ∨ m &&& 0o001 ≠ 0 then .Executable
  else .Plain

/-! ## Parts of the program, named -/

/-- The first output call of `print_long` for an entry with metadata `st`:
permission string, link count, owner and group names (or `unknown`), size and
time (or the fallback text). -/
def long_fields (env : Env) (st : Stat) : Ev :=
  Ev.fields (permissions_str st.st_mode) st.st_nlink
    ((env.getpwuid st.st_uid).getD "unknown".toList)
    ((env.getgrgid st.st_gid).getD "unknown".toList)
    st.st_size
    (match env.strftime st.st_mtime with
      | some t => t
      | none => "??? ?? ????".toList)

/-- The column computation of `print_default`: `cols = term_width / col_width`,
raised to 1 when it is smaller; `none` when the division is by zero. -/
def column_count (env : Env) (maxlen : Int) : Option Int := do
  let col_width := maxlen + 2
  let cols ← c_div (term_width env) col_width
  pure (if cols < 1 then 1 else cols)

/-- The path of the entry `name` of the directory `path` as the program means
it: the name alone when the directory is `"."`, else `"<path>/<name>"`. -/
def entry_path (path name : CStr) : CStr :=
  if path = ".".toList then name else path ++ "/".toList ++ name

/-- Whether the non-following stat of `p` succeeds and reports a directory. -/
def is_directory (env : Env) (p : CStr) : Bool :=
  match env.lstat p with
  | some st => S_ISDIR st.st_mode
  | none => false

/-- The function `color_for_file` with the test `has_suffix(name, ".tar.gz")`
taken out of its archive condition. -/
def color_for_file_without_tar_gz (env : Env) (fullpath name : CStr) : CStr :=
  match env.lstat fullpath with
  | none => COLOR_RESET
  | some st =>
      if S_ISLNK st.st_mode then COLOR_MAGENTA
      else if S_ISDIR st.st_mode then COLOR_BLUE
      else if S_ISCHR st.st_mode || S_ISBLK st.st_mode ||
          S_ISSOCK st.st_mode || S_ISFIFO st.st_mode then COLOR_REVERSE
      else if has_suffix name ".tar".toList ||
          has_suffix name ".tgz".toList || has_suffix name ".gz".toList ||
          has_suffix name ".zip".toList || has_suffix name ".bz2".toList ||
          has_suffix name ".xz".toList then COLOR_RED
      else if tst st.st_mode (S_IXUSR ||| S_IXGRP ||| S_IXOTH) then COLOR_GREEN
      else COLOR_RESET

/-! ## The layouts and the order, in the specification's wording -/

/-- The cell `print_colored_padded` writes for the name `nm` of the directory
`basepath`, in a column of width `cw`. -/
def gridCell (env : Env) (basepath : CStr) (cw : Int) (nm : CStr) : Ev :=
  Ev.cell (color_for_file env (full_path basepath nm) nm) nm cw

/-- Column width of the specification: the longest name plus a gutter of two. -/
def columnWidth (maxlen : Int) : Int := maxlen + 2

/-- Column count of the specification: `max(1, terminalWidth / columnWidth)`. -/
def columnCount (w cw : Int) : Nat := (max 1 (w / cw)).toNat

/-- Row count of the specification: `ceil(entryCount / columnCount)`. -/
def rowCount (n k : Nat) : Nat := ⌈(n : ℚ) / (k : ℚ)⌉₊

/-- Row `row` of the down-then-across grid of the specification, for `k`
columns and `r` rows: from left to right, for every column `col`, the cell of
`names[col * r + row]` when that index is valid and nothing otherwise. -/
def gridRow (env : Env) (basepath : CStr) (names : List CStr) (cw : Int) (k r row : Nat) :
    List Ev :=
  (List.range k).filterMap fun col => (names[col * r + row]?).map (gridCell env basepath cw)

/-- The placements of a trace whose first line already holds cells of total
width `s`. -/
def placementsFrom (s : Int) (out : List Ev) : List (List (CStr × Int)) :=
  match lines out with
  | [] => []
  | l :: ls => offsetsFrom s l :: ls.map (offsetsFrom 0)

/-- The order `qsort` sorts by: `a` comes no later than `b` when
`compare_names a b <= 0`, the byte-wise order of `strcmp`. -/
def nameLe (a b : CStr) : Prop := compare_names a b ≤ 0

instance (a b : CStr) : Decidable (nameLe a b) := by
  unfold nameLe; infer_instance

/-- The names of a grid of rows read down each column, the columns taken from
left to right. -/
def readDown (rows : List (List CStr)) : List CStr :=
  columnMajor (rows.map List.length).sum rows

/-- The names of row `row` of the down-then-across grid with `k` columns and
`r` rows. -/
def nameRow (names : List CStr) (k r row : Nat) : List CStr :=
  (List.range k).filterMap fun col => names[col * r + row]?

/-- Whether an output call is anything but the bare `printf("\n")`. -/
def notNewline (e : Ev) : Bool := decide (e ≠ Ev.newline)

/-- The number of characters an output call puts on its line, the colour
escape sequences and the line end not counted. -/
def Ev.visible : Ev → Nat
  | .header path => path.length + 1
  | .cell _ nm pad_width => (padRight nm pad_width.natAbs).length
  | .newline => 0
  | .fields perm nlink owner group size time =>
      (Ev.render (.fields perm nlink owner group size time)).length
  | .name _ nm => nm.length
  | .arrow target => 4 + target.length
  | .perror _ => 0

/-- The visible width of an output line. -/
def visibleWidth (line : List Ev) : Nat := (line.map Ev.visible).sum

/-- The names written on one output line, each with the column it starts at:
the number of visible characters written before it on the line, counted from
`s`. -/
def startsFrom : Nat → List Ev → List (CStr × Nat)
  | _, [] => []
  | s, Ev.cell col nm pad_width :: es =>
      (nm, s) :: startsFrom (s + (Ev.cell col nm pad_width).visible) es
  | s, e :: es => startsFrom (s + e.visible) es

/-- The starting columns of a trace: for every output line, the names on it
with the columns they start at. -/
def starts (out : List Ev) : List (List (CStr × Nat)) :=
  (lines out).map (startsFrom 0)

/-- The number of columns of the down-then-across grid on the terminal of
`env`, for the longest name `maxlen`. -/
def gridColumns (env : Env) (maxlen : Int) : Nat :=
  columnCount (term_width env) (columnWidth maxlen)

/-- The number of rows of the down-then-across grid of `n` names. -/
def gridRows (env : Env) (n : Nat) (maxlen : Int) : Nat :=
  rowCount n (gridColumns env maxlen)

/-- The number of entries on each output line of a trace. -/
def lineCounts (out : List Ev) : List Nat :=
  (lines out).map fun l => (shownNames l).length

/-- The shape of the line counts of the horizontal layout with `k` columns,
when `j` entries are already on the current line: the current line is filled
up to at most `k` entries, exactly `k` when another line follows; every later
line but the last holds `k` entries, and the last between 1 and `k`. -/
def filledLines (k j : Nat) (counts : List Nat) : Prop :=
  ∃ c0 rest, counts = c0 :: rest ∧ c0 + j ≤ k ∧ (rest ≠ [] → c0 + j = k)
    ∧ (∀ c ∈ rest.dropLast, c = k) ∧ (∀ c ∈ rest, 1 ≤ c ∧ c ≤ k)

/-! ## Sample environments -/

/-- Metadata of a regular file with permission bits 0644. -/
def sample_file : Stat := ⟨S_IFREG ||| 0o644, 1, 1000, 1000, 12, 0⟩

/-- Metadata of a directory with permission bits 0755. -/
def sample_dir : Stat := ⟨S_IFDIR ||| 0o755, 2, 1000, 1000, 4096, 0⟩

/-- Metadata of a symbolic link. -/
def sample_link : Stat := ⟨S_IFLNK ||| 0o777, 1, 1000, 1000, 2, 0⟩

/-- The tree of the specification's scenario: the directory `d` holds the
files `b.txt` and `a.txt`, the hidden file `.cfg` and the empty subdirectory
`sub`; standard output is not a terminal. -/
def scenario : Env where
  opendir := fun p =>
    if p = "d".toList then
      some [".".toList, "b.txt".toList, "..".toList, "a.txt".toList, ".cfg".toList,
        "sub".toList]
    else if p = "d/sub".toList then some [".".toList, "..".toList]
    else none
  lstat := fun p =>
    if p = "d".toList ∨ p = "d/sub".toList then some sample_dir
    else if p = "d/a.txt".toList ∨ p = "d/b.txt".toList ∨ p = "d/.cfg".toList then
      some sample_file
    else none
  readlink := fun _ => none
  getpwuid := fun uid => if uid = 1000 then some "user".toList else none
  getgrgid := fun gid => if gid = 1000 then some "users".toList else none
  strftime := fun _ => some "Jan  1 00:00".toList
  ws_col := none

/-- The scenario's tree listed on a terminal that is `c` columns wide. -/
def scenario_on (c : Nat) : Env := { scenario with ws_col := some c }

/-- A directory `d` of twelve files `a.txt` to `l.txt`, as `readdir` might
yield them; standard output is not a terminal. -/
def dozen : Env where
  opendir := fun p =>
    if p = "d".toList then
      some [".".toList, "..".toList, "g.txt".toList, "a.txt".toList, "k.txt".toList,
        "c.txt".toList, "l.txt".toList, "b.txt".toList, "e.txt".toList, "i.txt".toList,
        "d.txt".toList, "h.txt".toList, "f.txt".toList, "j.txt".toList]
    else none
  lstat := fun p => if p = "d".toList then some sample_dir else some sample_file
  readlink := fun _ => none
  getpwuid := fun _ => none
  getgrgid := fun _ => none
  strftime := fun _ => some "Jan  1 00:00".toList
  ws_col := none

/-- The current directory holding one empty subdirectory `sub`; standard
output is not a terminal. -/
def here : Env where
  opendir := fun p =>
    if p = ".".toList then some [".".toList, "..".toList, "sub".toList]
    else if p = "sub".toList ∨ p = "./sub".toList then some [".".toList, "..".toList]
    else none
  lstat := fun p =>
    if p = ".".toList ∨ p = "sub".toList ∨ p = "./sub".toList then some sample_dir else none
  readlink := fun _ => none
  getpwuid := fun _ => none
  getgrgid := fun _ => none
  strftime := fun _ => some "Jan  1 00:00".toList
  ws_col := none

/-- A directory `d` holding the file `a.txt` and the symbolic link `up` whose
value is `..`, the directory that holds `d`: opening `d/up` follows the link
and yields the parent, in which `d` is found again. -/
def looped : Env where
  opendir := fun p =>
    if p = "d".toList then some [".".toList, "..".toList, "up".toList, "a.txt".toList]
    else if p = "d/up".toList then some [".".toList, "..".toList, "d".toList]
    else if p = "d/up/d".toList then
      some [".".toList, "..".toList, "up".toList, "a.txt".toList]
    else none
  lstat := fun p =>
    if p = "d".toList ∨ p = "d/up/d".toList then some sample_dir
    else if p = "d/up".toList then some sample_link
    else if p = "d/a.txt".toList then some sample_file
    else none
  readlink := fun p => if p = "d/up".toList then some "..".toList else none
  getpwuid := fun uid => if uid = 1000 then some "user".toList else none
  getgrgid := fun gid => if gid = 1000 then some "users".toList else none
  strftime := fun _ => some "Jan  1 00:00".toList
  ws_col := none

/-- A path of `PATH_MAX - 1` bytes: the chain `a/a/.../a` of 2048 nested
directories. -/
def deep_path : CStr := 'a' :: (List.replicate 2047 ['/', 'a']).flatten

/-- A finite tree in which the directory `deep_path` exists and holds one
file, `x`. -/
def deep : Env where
  opendir := fun p => if p = deep_path then some [".".toList, "..".toList, "x".toList] else none
  lstat := fun p => if p = deep_path then some sample_dir else none
  readlink := fun _ => none
  getpwuid := fun _ => none
  getgrgid := fun _ => none
  strftime := fun _ => some "Jan  1 00:00".toList
  ws_col := none

/-! # Theorems -/

/-! ## Permission string -/

theorem set_ite (b : Bool) (l : CStr) (i : Nat) (x y : Char) :
    (if b then l.set i x else l.set i y) = l.set i (if b then x else y) := by
  cases b <;> rfl

theorem permissions_str_eq (m : Nat) :
    permissions_str m =
      [kindChar m,
        flagChar 'r' (tst m S_IRUSR), flagChar 'w' (tst m S_IWUSR),
        execChar 's' 'S' (tst m S_ISUID) (tst m S_IXUSR),
        flagChar 'r' (tst m S_IRGRP), flagChar 'w' (tst m S_IWGRP),
        execChar 's' 'S' (tst m S_ISGID) (tst m S_IXGRP),
        flagChar 'r' (tst m S_IROTH), flagChar 'w' (tst m S_IWOTH),
        execChar 't' 'T' (tst m S_ISVTX) (tst m S_IXOTH)] := by
  have h : "----------".toList = ['-','-','-','-','-','-','-','-','-','-'] := rfl
  have hk : (if S_ISDIR m then (['-','-','-','-','-','-','-','-','-','-'] : CStr).set 0 'd'
    else if S_ISLNK m then (['-','-','-','-','-','-','-','-','-','-'] : CStr).set 0 'l'
    else if S_ISCHR m then (['-','-','-','-','-','-','-','-','-','-'] : CStr).set 0 'c'
    else if S_ISBLK m then (['-','-','-','-','-','-','-','-','-','-'] : CStr).set 0 'b'
    else if S_ISFIFO m then (['-','-','-','-','-','-','-','-','-','-'] : CStr).set 0 'p'
    else if S_ISSOCK m then (['-','-','-','-','-','-','-','-','-','-'] : CStr).set 0 's'
    else ['-','-','-','-','-','-','-','-','-','-'])
      = kindChar m :: ['-','-','-','-','-','-','-','-','-'] := by
    unfold kindChar; split_ifs <;> rfl
  simp only [permissions_str, h, set_ite]
  rw [hk]
  simp only [List.set_cons_zero, List.set_cons_succ, flagChar, execChar]

theorem tst_bit (m k : Nat) : tst m (2 ^ k) = m.testBit k := by
  unfold tst
  rw [Nat.and_two_pow]
  cases m.testBit k <;> simp

theorem mod_bits (m : Nat) :
    m % 4096 = m / 2048 % 2 * 2048 + m / 1024 % 2 * 1024 + m / 512 % 2 * 512
      + m / 256 % 2 * 256 + m / 128 % 2 * 128 + m / 64 % 2 * 64
      + m / 32 % 2 * 32 + m / 16 % 2 * 16 + m / 8 % 2 * 8
      + m / 4 % 2 * 4 + m / 2 % 2 * 2 + m % 2 := by
  have h (k : Nat) : m % 2 ^ (k + 1) = m % 2 ^ k + 2 ^ k * (m / 2 ^ k % 2) := Nat.mod_pow_succ
  have h11 := h 11
  have h10 := h 10
  have h9 := h 9
  have h8 := h 8
  have h7 := h 7
  have h6 := h 6
  have h5 := h 5
  have h4 := h 4
  have h3 := h 3
  have h2 := h 2
  have h1 := h 1
  norm_num at h11 h10 h9 h8 h7 h6 h5 h4 h3 h2 h1
  rw [h11, h10, h9, h8, h7, h6, h5, h4, h3, h2, h1]
  ring

theorem and_perm_bits (m : Nat) :
    m &&& 0o7777 =
      (m.testBit 11).toNat * S_ISUID + (m.testBit 10).toNat * S_ISGID
        + (m.testBit 9).toNat * S_ISVTX
        + (m.testBit 8).toNat * S_IRUSR + (m.testBit 7).toNat * S_IWUSR
        + (m.testBit 6).toNat * S_IXUSR
        + (m.testBit 5).toNat * S_IRGRP + (m.testBit 4).toNat * S_IWGRP
        + (m.testBit 3).toNat * S_IXGRP
        + (m.testBit 2).toNat * S_IROTH + (m.testBit 1).toNat * S_IWOTH
        + (m.testBit 0).toNat * S_IXOTH := by
  have h : m &&& 4095 = m % 4096 := by
    simpa using Nat.and_pow_two_sub_one_eq_mod m 12
  have e : (0o7777 : Nat) = 4095 := by decide
  rw [e, h, mod_bits]
  simp only [Nat.toNat_testBit, S_ISUID, S_ISGID, S_ISVTX, S_IRUSR, S_IWUSR, S_IXUSR,
    S_IRGRP, S_IWGRP, S_IXGRP, S_IROTH, S_IWOTH, S_IXOTH]
  norm_num

theorem dec_flag (c : Char) (b : Bool) (hc : c ≠ '-') : decFlag c (flagChar c b) = b.toNat := by
  cases b <;> simp [decFlag, flagChar, hc.symm]

theorem dec_exec_s (s x : Bool) : decExec 's' 'S' (execChar 's' 'S' s x) = x.toNat := by
  cases s <;> cases x <;> decide
theorem dec_exec_t (s x : Bool) : decExec 't' 'T' (execChar 't' 'T' s x) = x.toNat := by
  cases s <;> cases x <;> decide
theorem dec_special_s (s x : Bool) : decSpecial 's' 'S' (execChar 's' 'S' s x) = s.toNat := by
  cases s <;> cases x <;> decide
theorem dec_special_t (s x : Bool) : decSpecial 't' 'T' (execChar 't' 'T' s x) = s.toNat := by
  cases s <;> cases x <;> decide

/-- C1: the rendered permission string determines the twelve permission bits:
the decoder `decodePerm` gives back `m & 07777` from `permissions_str m`, for
every mode `m`. -/
theorem permissions_str_roundtrip (m : Nat) :
    decodePerm (permissions_str m) = m &&& 0o7777 := by
  have b11 : tst m S_ISUID = m.testBit 11 := tst_bit m 11
  have b10 : tst m S_ISGID = m.testBit 10 := tst_bit m 10
  have b9 : tst m S_ISVTX = m.testBit 9 := tst_bit m 9
  have b8 : tst m S_IRUSR = m.testBit 8 := tst_bit m 8
  have b7 : tst m S_IWUSR = m.testBit 7 := tst_bit m 7
  have b6 : tst m S_IXUSR = m.testBit 6 := tst_bit m 6
  have b5 : tst m S_IRGRP = m.testBit 5 := tst_bit m 5
  have b4 : tst m S_IWGRP = m.testBit 4 := tst_bit m 4
  have b3 : tst m S_IXGRP = m.testBit 3 := tst_bit m 3
  have b2 : tst m S_IROTH = m.testBit 2 := tst_bit m 2
  have b1 : tst m S_IWOTH = m.testBit 1 := tst_bit m 1
  have b0 : tst m S_IXOTH = m.testBit 0 := tst_bit m 0
  rw [permissions_str_eq, and_perm_bits, b11, b10, b9, b8, b7, b6, b5, b4, b3, b2, b1, b0]
  simp only [decodePerm, dec_flag _ _ (by decide : 'r' ≠ '-'), dec_flag _ _ (by decide : 'w' ≠ '-'),
    dec_exec_s, dec_exec_t, dec_special_s, dec_special_t]

theorem slotFlag_eq (c : Char) (b : Bool) : flagChar c b = slotFlag c b := rfl

theorem slotExec_eq (lo up : Char) (s x : Bool) : execChar lo up s x = slotExec lo up s x := by
  cases s <;> cases x <;> simp [execChar, slotExec]

/-- C2: positions 1 to 9 of `permissions_str m` are the owner, group and other
read, write and execute slots in that order, `-` for an unset bit, the execute
slots showing `s`/`S` for setuid (slot 3) and setgid (slot 6) and `t`/`T` for
sticky (slot 9); a regular file with bits 0644 renders `-rw-r--r--`. -/
theorem permissions_str_slots :
    (∀ m : Nat, (permissions_str m).drop 1 =
      [slotFlag 'r' (tst m 0o400), slotFlag 'w' (tst m 0o200),
        slotExec 's' 'S' (tst m 0o4000) (tst m 0o100),
        slotFlag 'r' (tst m 0o040), slotFlag 'w' (tst m 0o020),
        slotExec 's' 'S' (tst m 0o2000) (tst m 0o010),
        slotFlag 'r' (tst m 0o004), slotFlag 'w' (tst m 0o002),
        slotExec 't' 'T' (tst m 0o1000) (tst m 0o001)])
    ∧ permissions_str (S_IFREG ||| 0o644) = "-rw-r--r--".toList := by
  refine ⟨fun m => ?_, by decide⟩
  rw [permissions_str_eq]
  simp only [slotFlag_eq, slotExec_eq, List.drop_succ_cons, List.drop_zero]
  rfl

theorem kindChar_eq_kindOf (m : Nat) : kindChar m = kindOf m := by
  unfold kindChar kindOf S_ISDIR S_ISLNK S_ISCHR S_ISBLK S_ISFIFO S_ISSOCK
    S_IFMT S_IFDIR S_IFLNK S_IFCHR S_IFBLK S_IFIFO S_IFSOCK
  simp only [beq_iff_eq]
  generalize m &&& 0o170000 = v
  split_ifs with h1 h2 h3 h4 h5 h6
  · subst h1; rfl
  · subst h2; rfl
  · subst h3; rfl
  · subst h4; rfl
  · subst h5; rfl
  · subst h6; rfl
  · split <;> first | rfl | (exfalso; simp_all)

/-- C3: `permissions_str m` is defined for every mode, has exactly ten
characters, and its position 0 is `d`, `l`, `c`, `b`, `p` or `s` for a
directory, symlink, character device, block device, fifo or socket, and `-`
for a regular file and for every other file-type value. -/
theorem permissions_str_kind (m : Nat) :
    (permissions_str m).length = 10 ∧ (permissions_str m).head? = some (kindOf m) := by
  rw [permissions_str_eq, kindChar_eq_kindOf]
  exact ⟨rfl, rfl⟩

/-! ## Classification -/

theorem tolower_toNat_sub (a b : Char) (h : tolower a ≠ tolower b) :
    ((tolower a).toNat : Int) - ((tolower b).toNat : Int) ≠ 0 := by
  intro h0
  apply h
  have : (tolower a).toNat = (tolower b).toNat := by omega
  exact Char.ext (UInt32.ext (by simpa [Char.toNat, UInt32.toNat] using this))

theorem strncasecmp_eq_zero (a b : CStr) (k : Nat) :
    strncasecmp a b k = 0 ↔ foldCase (a.take k) = foldCase (b.take k) := by
  induction k generalizing a b with
  | zero => simp [strncasecmp, foldCase]
  | succ k ih =>
    cases a with
    | nil => cases b <;> simp [strncasecmp, foldCase]
    | cons x xs =>
      cases b with
      | nil => simp [strncasecmp, foldCase]
      | cons y ys =>
        by_cases hxy : tolower x = tolower y
        · simp [strncasecmp, hxy, ih, foldCase]
        · simp [strncasecmp, hxy, foldCase, tolower_toNat_sub x y hxy]

theorem has_suffix_iff (name suf : CStr) :
    has_suffix name suf = true ↔ endsWithNoCase name suf := by
  unfold has_suffix endsWithNoCase
  by_cases hlt : name.length < suf.length
  · simp only [hlt, if_true]
    constructor
    · intro h; cases h
    · intro h
      have := h.length_le
      simp [foldCase] at this
      omega
  · simp only [hlt, if_false, beq_iff_eq, strncasecmp_eq_zero]
    have h1 : (List.drop (name.length - suf.length) name).take suf.length
        = List.drop (name.length - suf.length) name := by
      apply List.take_of_length_le
      simp; omega
    rw [h1, List.take_of_length_le (le_refl _)]
    rw [List.suffix_iff_eq_drop]
    simp [foldCase, List.map_drop, eq_comm]




theorem lor_eq_zero (x y : Nat) : x ||| y = 0 ↔ x = 0 ∧ y = 0 := by
  constructor
  · intro h
    constructor <;>
    · apply Nat.eq_of_testBit_eq
      intro i
      have := congrArg (fun z => z.testBit i) h
      simp at this ⊢
      simp [this]
  · rintro ⟨rfl, rfl⟩; rfl

theorem tst_or (m a b : Nat) : tst m (a ||| b) = (tst m a || tst m b) := by
  unfold tst
  rw [Nat.and_or_distrib_left]
  rw [Bool.eq_iff_iff]
  simp only [bne_iff_ne, ne_eq, lor_eq_zero, Bool.or_eq_true]
  tauto

theorem archive_test_iff (name : CStr) :
    (has_suffix name ".tar".toList || has_suffix name ".tar.gz".toList ||
      has_suffix name ".tgz".toList || has_suffix name ".gz".toList ||
      has_suffix name ".zip".toList || has_suffix name ".bz2".toList ||
      has_suffix name ".xz".toList) = true ↔ ∃ suf ∈ archiveSuffixes, endsWithNoCase name suf := by
  simp only [Bool.or_eq_true, has_suffix_iff, archiveSuffixes, List.mem_cons, List.mem_singleton,
    exists_eq_or_imp, exists_eq_left, List.not_mem_nil, false_and, exists_false, or_false, or_assoc]

theorem color_for_file_classify (env : Env) (fullpath name : CStr) (st : Stat)
    (h : env.lstat fullpath = some st) :
    color_for_file env fullpath name = (classify st.st_mode name).code := by
  unfold color_for_file classify
  simp only [h, S_ISLNK, S_ISDIR, S_ISCHR, S_ISBLK, S_ISSOCK, S_ISFIFO, beq_iff_eq,
    Bool.or_eq_true, S_IFMT, S_IFLNK, S_IFDIR, S_IFCHR, S_IFBLK, S_IFSOCK, S_IFIFO,
    ← archive_test_iff, tst_or, S_IXUSR, S_IXGRP, S_IXOTH, or_assoc]
  simp only [tst, bne_iff_ne]
  split_ifs <;> rfl



theorem code_injective : Function.Injective ColorCategory.code := by
  intro a b h
  cases a <;> cases b <;> first | rfl | (exfalso; revert h; decide)

/-- C4: when the metadata of the entry is available, `color_for_file` returns
the colour of the first matching rule in the order symlink, directory, special
file, archive suffix (compared without case), execute bit, plain; so a symlink
or a directory is never coloured as an archive, whatever its name, and an
archive name wins over the execute bits. -/
theorem color_for_file_first_match (env : Env) (fullpath name : CStr) (st : Stat)
    (h : env.lstat fullpath = some st) :
    color_for_file env fullpath name = (classify st.st_mode name).code
    ∧ (S_ISLNK st.st_mode = true → color_for_file env fullpath name = COLOR_MAGENTA)
    ∧ (S_ISDIR st.st_mode = true → color_for_file env fullpath name = COLOR_BLUE)
    ∧ (S_ISREG st.st_mode = true → (∃ suf ∈ archiveSuffixes, endsWithNoCase name suf) →
        color_for_file env fullpath name = COLOR_RED) := by
  refine ⟨color_for_file_classify env fullpath name st h, ?_, ?_, ?_⟩
  · intro hl
    simp [color_for_file, h, hl]
  · intro hd
    have hl : S_ISLNK st.st_mode = false := by
      simp only [S_ISDIR, S_ISLNK, beq_iff_eq, beq_eq_false_iff_ne] at hd ⊢
      rw [hd]; decide
    simp [color_for_file, h, hl, hd]
  · intro hr ha
    have hk : S_ISLNK st.st_mode = false ∧ S_ISDIR st.st_mode = false
        ∧ S_ISCHR st.st_mode = false ∧ S_ISBLK st.st_mode = false
        ∧ S_ISSOCK st.st_mode = false ∧ S_ISFIFO st.st_mode = false := by
      simp only [S_ISREG, S_ISDIR, S_ISLNK, S_ISCHR, S_ISBLK, S_ISSOCK, S_ISFIFO, beq_iff_eq,
        beq_eq_false_iff_ne] at hr ⊢
      rw [hr]; decide
    obtain ⟨h1, h2, h3, h4, h5, h6⟩ := hk
    have ha2 := (archive_test_iff name).2 ha
    simp only [color_for_file, h, h1, h2, h3, h4, h5, h6]
    simp only [ha2]
    rfl

theorem color_for_file_first_match_witness :
    color_for_file scenario "d/sub".toList "sub".toList
        = (classify sample_dir.st_mode "sub".toList).code
    ∧ (S_ISLNK sample_dir.st_mode = true →
        color_for_file scenario "d/sub".toList "sub".toList = COLOR_MAGENTA)
    ∧ (S_ISDIR sample_dir.st_mode = true →
        color_for_file scenario "d/sub".toList "sub".toList = COLOR_BLUE)
    ∧ (S_ISREG sample_dir.st_mode = true →
        (∃ suf ∈ archiveSuffixes, endsWithNoCase "sub".toList suf) →
        color_for_file scenario "d/sub".toList "sub".toList = COLOR_RED) :=
  color_for_file_first_match scenario "d/sub".toList "sub".toList sample_dir (by decide)

/-! ## Down-then-across layout -/

theorem term_width_pos (env : Env) : 1 ≤ term_width env := by
  unfold term_width
  split
  · split_ifs with h
    · omega
    · decide
  · decide

theorem loopFrom_eq (body : Nat → List Ev) (count i : Nat) :
    loopFrom body count i = (List.range count).flatMap fun j => body (i + j) := by
  induction count generalizing i with
  | zero => rfl
  | succ c ih =>
    rw [loopFrom, ih, List.range_succ_eq_map, List.flatMap_cons, List.flatMap_map]
    simp only [Nat.add_zero, Nat.succ_eq_add_one]
    congr 2
    funext j
    congr 1
    omega

theorem forLoop_eq (hi : Int) (body : Nat → List Ev) :
    forLoop hi body = (List.range hi.toNat).flatMap body := by
  simp [forLoop, loopFrom_eq]

theorem rowCount_eq (n k : Nat) (hk : 1 ≤ k) : rowCount n k = (n + k - 1) / k := by
  unfold rowCount
  have hkq : (0 : ℚ) < (k : ℚ) := by exact_mod_cast hk
  apply le_antisymm
  · rw [Nat.ceil_le, div_le_iff₀ hkq]
    have h : n ≤ (n + k - 1) / k * k := by
      have h1 := Nat.div_add_mod (n + k - 1) k
      have h2 := Nat.mod_lt (n + k - 1) hk
      rw [Nat.mul_comm]
      generalize k * ((n + k - 1) / k) = p at h1 ⊢
      omega
    exact_mod_cast h
  · rw [← Nat.lt_add_one_iff, Nat.div_lt_iff_lt_mul hk]
    have h : (n : ℚ) ≤ (⌈(n : ℚ) / (k : ℚ)⌉₊ : ℚ) * k := by
      rw [← div_le_iff₀ hkq]
      exact Nat.le_ceil _
    have h2 : n ≤ ⌈(n : ℚ) / (k : ℚ)⌉₊ * k := by exact_mod_cast h
    rw [Nat.add_mul]
    generalize ⌈(n : ℚ) / (k : ℚ)⌉₊ * k = p at h2 ⊢
    omega

theorem lines_row_append (row rest : List Ev) (h : ∀ e ∈ row, e.endsLine = false) :
    lines (row ++ Ev.newline :: rest) = row :: lines rest := by
  induction row with
  | nil => simp [lines, Ev.endsLine]
  | cons e es ih =>
    have he : e.endsLine = false := h e (List.mem_cons_self _ _)
    have hes : ∀ x ∈ es, x.endsLine = false := fun x hx => h x (List.mem_cons_of_mem _ hx)
    simp [lines, he, ih hes]

theorem lines_rows (rows : List (List Ev)) (h : ∀ row ∈ rows, ∀ e ∈ row, e.endsLine = false) :
    lines (rows.flatMap fun row => row ++ [Ev.newline]) = rows := by
  induction rows with
  | nil => rfl
  | cons row rest ih =>
    rw [List.flatMap_cons, List.append_assoc, List.singleton_append, lines_row_append _ _
      (h row (List.mem_cons_self _ _)), ih fun r hr => h r (List.mem_cons_of_mem _ hr)]

theorem count_newline_rows (rows : List (List Ev))
    (h : ∀ row ∈ rows, ∀ e ∈ row, e.endsLine = false) :
    (rows.flatMap fun row => row ++ [Ev.newline]).count Ev.newline = rows.length := by
  induction rows with
  | nil => rfl
  | cons row rest ih =>
    have h0 : row.count Ev.newline = 0 := by
      rw [List.count_eq_zero]
      intro hmem
      have := h row (List.mem_cons_self _ _) _ hmem
      simp [Ev.endsLine] at this
    rw [List.flatMap_cons, List.count_append, List.count_append, h0,
      ih fun r hr => h r (List.mem_cons_of_mem _ hr)]
    simp
    omega

theorem gridRow_endsLine (env : Env) (basepath : CStr) (names : List CStr) (cw : Int)
    (k r row : Nat) : ∀ e ∈ gridRow env basepath names cw k r row, e.endsLine = false := by
  intro e he
  simp only [gridRow, List.mem_filterMap, Option.map_eq_some'] at he
  obtain ⟨_, _, nm, _, rfl⟩ := he
  rfl

theorem print_default_eq (env : Env) (names : List CStr) (maxlen : Int) (basepath : CStr)
    (hm : 0 ≤ maxlen) :
    print_default env names maxlen basepath
      = some (((List.range (rowCount names.length (columnCount (term_width env) (maxlen + 2)))).map
          (gridRow env basepath names (maxlen + 2)
            (columnCount (term_width env) (maxlen + 2))
            (rowCount names.length (columnCount (term_width env) (maxlen + 2))))).flatMap
          fun row => row ++ [Ev.newline]) := by
  have hw := term_width_pos env
  set w := term_width env with hwdef
  set k := columnCount w (maxlen + 2) with hk
  have hcw : maxlen + 2 ≠ 0 := by omega
  have hdiv : w.tdiv (maxlen + 2) = w / (maxlen + 2) := Int.tdiv_eq_ediv (by omega) (by omega)
  have hq : 0 ≤ w / (maxlen + 2) := Int.ediv_nonneg (by omega) (by omega)
  have hcols : (if w / (maxlen + 2) < 1 then 1 else w / (maxlen + 2)) = (k : Int) := by
    rw [hk, columnCount]
    split_ifs with h
    · rw [max_eq_left (by omega)]; rfl
    · rw [max_eq_right (by omega), Int.toNat_of_nonneg hq]
  have hk1 : 1 ≤ k := by
    have : (1 : Int) ≤ (k : Int) := by rw [← hcols]; split_ifs <;> omega
    exact_mod_cast this
  set r := rowCount names.length k with hr
  have hrows : ((names.length : Int) + (k : Int) - 1).tdiv (k : Int) = (r : Int) := by
    rw [Int.tdiv_eq_ediv (by omega) (by omega), hr, rowCount_eq _ _ hk1]
    have : ((names.length : Int) + (k : Int) - 1) = ((names.length + k - 1 : Nat) : Int) := by
      omega
    rw [this, Int.natCast_div]
  have hkne : (k : Int) ≠ 0 := by omega
  simp only [print_default, c_div, ← hwdef, hcw, if_false, hdiv, Option.bind_eq_bind,
    Option.some_bind, hcols, hkne, hrows, Option.pure_def, forLoop_eq, Int.toNat_ofNat]
  rw [List.flatMap_map]
  congr 2
  funext row
  congr 1
  rw [gridRow, List.filterMap_eq_flatMap_toList]
  congr 1
  funext col
  have hcast : ((col : Int) * (r : Int) + (row : Int)) = ((col * r + row : Nat) : Int) := by
    push_cast; ring
  rw [hcast, Int.toNat_ofNat]
  by_cases hi : col * r + row < names.length
  · have : ((col * r + row : Nat) : Int) < (names.length : Int) := by exact_mod_cast hi
    rw [if_pos this, List.getElem?_eq_getElem hi, List.getD_eq_getElem?_getD,
      List.getElem?_eq_getElem hi]
    rfl
  · have : ¬ ((col * r + row : Nat) : Int) < (names.length : Int) := by
      intro h; exact hi (by exact_mod_cast h)
    rw [if_neg this, List.getElem?_eq_none (by omega)]
    rfl


/-- C5: down-then-across layout.  With `columnWidth = maxlen + 2`,
`k = max(1, w / columnWidth)` columns and `r = ceil(n / k)` rows, `print_default`
returns normally, writes exactly `r` newlines, and its output lines are the `r`
rows of the grid: line `row` holds, for the columns `col = 0 .. k-1` from left
to right, the cell of `names[col * r + row]` when that index is below `n` and
nothing otherwise. -/
theorem print_default_layout (env : Env) (names : List CStr) (maxlen : Int) (basepath : CStr)
    (hm : 0 ≤ maxlen) :
    ∃ out, print_default env names maxlen basepath = some out
      ∧ out.count Ev.newline
          = rowCount names.length (columnCount (term_width env) (columnWidth maxlen))
      ∧ lines out
          = (List.range (rowCount names.length
                (columnCount (term_width env) (columnWidth maxlen)))).map
              (gridRow env basepath names (columnWidth maxlen)
                (columnCount (term_width env) (columnWidth maxlen))
                (rowCount names.length (columnCount (term_width env) (columnWidth maxlen)))) := by
  refine ⟨_, print_default_eq env names maxlen basepath hm, ?_, ?_⟩
  · rw [count_newline_rows, List.length_map, List.length_range]
    · rfl
    · intro row hrow
      obtain ⟨i, _, rfl⟩ := List.mem_map.1 hrow
      exact gridRow_endsLine _ _ _ _ _ _ _
  · rw [lines_rows]
    · rfl
    · intro row hrow
      obtain ⟨i, _, rfl⟩ := List.mem_map.1 hrow
      exact gridRow_endsLine _ _ _ _ _ _ _

theorem print_default_layout_witness :
    ∃ out, print_default scenario ["a.txt".toList, "b.txt".toList, "sub".toList] 5 "d".toList
        = some out
      ∧ out.count Ev.newline = rowCount 3 (columnCount (term_width scenario) (columnWidth 5))
      ∧ lines out
          = (List.range (rowCount 3 (columnCount (term_width scenario) (columnWidth 5)))).map
              (gridRow scenario "d".toList ["a.txt".toList, "b.txt".toList, "sub".toList]
                (columnWidth 5) (columnCount (term_width scenario) (columnWidth 5))
                (rowCount 3 (columnCount (term_width scenario) (columnWidth 5)))) :=
  print_default_layout scenario ["a.txt".toList, "b.txt".toList, "sub".toList] 5 "d".toList
    (by decide)

/-! ## Horizontal layout -/

theorem placements_eq (out : List Ev) : placements out = placementsFrom 0 out := by
  unfold placements placementsFrom
  cases lines out <;> rfl

theorem lines_cons_newline (t : List Ev) : lines (Ev.newline :: t) = [] :: lines t := by
  simp [lines, Ev.endsLine]

theorem lines_cons_of_lines_cons (e : Ev) (h : e.endsLine = false) (t : List Ev)
    (l : List Ev) (ls : List (List Ev)) (hl : lines t = l :: ls) :
    lines (e :: t) = (e :: l) :: ls := by
  rw [lines, if_neg (by simp [h]), hl]

theorem lines_ne_nil (e : Ev) (es : List Ev) : lines (e :: es) ≠ [] := by
  unfold lines
  split_ifs
  · simp
  · simp
  · cases lines es <;> simp

theorem placementsFrom_newline (s : Int) (t : List Ev) :
    placementsFrom s (Ev.newline :: t) = [] :: placements t := by
  simp [placementsFrom, placements, lines_cons_newline, offsetsFrom]

theorem placementsFrom_cell (s : Int) (col nm : CStr) (pad : Int) (t : List Ev)
    (ht : t ≠ []) :
    ∃ l ls, placementsFrom (s + pad) t = l :: ls
      ∧ placementsFrom s (Ev.cell col nm pad :: t) = ((nm, s) :: l) :: ls := by
  obtain ⟨e, es, rfl⟩ := List.exists_cons_of_ne_nil ht
  have hne := lines_ne_nil e es
  obtain ⟨l, ls, hl⟩ := List.exists_cons_of_ne_nil hne
  refine ⟨offsetsFrom (s + pad) l, ls.map (offsetsFrom 0), ?_, ?_⟩
  · simp [placementsFrom, hl]
  · simp [placementsFrom, lines_cons_of_lines_cons (Ev.cell col nm pad) rfl _ _ _ hl, offsetsFrom]

theorem flat_newline (s : Int) (t : List Ev) :
    (placementsFrom s (Ev.newline :: t)).flatten = (placementsFrom 0 t).flatten := by
  rw [placementsFrom_newline, placements_eq]
  rfl

theorem flat_cell (s : Int) (col nm : CStr) (pad : Int) (t : List Ev) (ht : t ≠ []) :
    (placementsFrom s (Ev.cell col nm pad :: t)).flatten
      = (nm, s) :: (placementsFrom (s + pad) t).flatten := by
  obtain ⟨l, ls, h1, h2⟩ := placementsFrom_cell s col nm pad t ht
  rw [h1, h2]
  rfl

theorem horizontal_loop_cons (env : Env) (basepath : CStr) (cw w : Int) (nm : CStr)
    (rest : List CStr) (cur : Int) :
    horizontal_loop env basepath cw w (nm :: rest) cur
      = if cur + cw > w then
          Ev.newline :: gridCell env basepath cw nm
            :: horizontal_loop env basepath cw w rest (0 + cw)
        else
          gridCell env basepath cw nm :: horizontal_loop env basepath cw w rest (cur + cw) := by
  rw [horizontal_loop]
  rfl

theorem horizontal_names (env : Env) (basepath : CStr) (cw w : Int) (names : List CStr)
    (cur : Int) :
    (placementsFrom cur
        (horizontal_loop env basepath cw w names cur ++ [Ev.newline])).flatten.map Prod.fst
      = names := by
  induction names generalizing cur with
  | nil => simp [horizontal_loop, placementsFrom_newline, placements, lines]
  | cons nm rest ih =>
    rw [horizontal_loop_cons]
    split_ifs with h
    · rw [List.cons_append, List.cons_append, flat_newline, gridCell,
        flat_cell _ _ _ _ _ (by simp), List.map_cons, ih]
    · rw [List.cons_append, gridCell, flat_cell _ _ _ _ _ (by simp), List.map_cons, ih]

theorem horizontal_bound (env : Env) (basepath : CStr) (cw w : Int) (hcw : cw ≤ w)
    (names : List CStr) (cur : Int) :
    ∀ p ∈ (placementsFrom cur
        (horizontal_loop env basepath cw w names cur ++ [Ev.newline])).flatten,
      p.2 + cw ≤ w := by
  induction names generalizing cur with
  | nil => simp [horizontal_loop, placementsFrom_newline, placements, lines]
  | cons nm rest ih =>
    rw [horizontal_loop_cons]
    split_ifs with h
    · rw [List.cons_append, List.cons_append, flat_newline, gridCell,
        flat_cell _ _ _ _ _ (by simp)]
      intro p hp
      rcases List.mem_cons.1 hp with rfl | hp
      · simpa using hcw
      · exact ih _ p hp
    · rw [List.cons_append, gridCell, flat_cell _ _ _ _ _ (by simp)]
      intro p hp
      rcases List.mem_cons.1 hp with rfl | hp
      · simp only; omega
      · exact ih _ p hp

theorem horizontal_narrow (env : Env) (basepath : CStr) (cw w : Int) (hw : 0 ≤ w) (hcw : w < cw)
    (names : List CStr) (cur : Int) (hcur : 0 ≤ cur) :
    placementsFrom cur (horizontal_loop env basepath cw w names cur ++ [Ev.newline])
      = [] :: names.map fun nm => [(nm, 0)] := by
  induction names generalizing cur with
  | nil => simp [horizontal_loop, placementsFrom_newline, placements, lines]
  | cons nm rest ih =>
    rw [horizontal_loop_cons, if_pos (by omega), List.cons_append, List.cons_append,
      placementsFrom_newline, placements_eq, gridCell]
    obtain ⟨l, ls, h1, h2⟩ := placementsFrom_cell 0 (color_for_file env (full_path basepath nm) nm)
      nm cw (horizontal_loop env basepath cw w rest (0 + cw) ++ [Ev.newline]) (by simp)
    rw [ih (0 + cw) (by omega)] at h1
    injection h1 with h1 h1'
    rw [h2, ← h1, ← h1', List.map_cons]

/-! ## Order of the listing -/

theorem char_eq_of_toNat_eq {a b : Char} (h : a.toNat = b.toNat) : a = b :=
  Char.ext (UInt32.ext (by simpa [Char.toNat, UInt32.toNat] using h))

theorem strcmp_self (a : CStr) : strcmp a a = 0 := by
  induction a with
  | nil => rfl
  | cons x xs ih => simp [strcmp, ih]

theorem strcmp_eq_zero {a b : CStr} : strcmp a b = 0 ↔ a = b := by
  constructor
  · intro h
    induction a generalizing b with
    | nil => cases b <;> simp_all [strcmp]
    | cons x xs ih =>
      cases b with
      | nil => simp [strcmp] at h
      | cons y ys =>
        by_cases hxy : x = y
        · subst hxy
          simp only [strcmp, if_true] at h
          rw [ih h]
        · simp only [strcmp, hxy, if_false] at h
          exact absurd (char_eq_of_toNat_eq (by omega)) hxy
  · rintro rfl
    exact strcmp_self a

theorem nameLe_total (a b : CStr) : nameLe a b ∨ nameLe b a := by
  unfold nameLe compare_names
  induction a generalizing b with
  | nil => cases b <;> simp [strcmp]
  | cons x xs ih =>
    cases b with
    | nil => simp [strcmp]
    | cons y ys =>
      by_cases hxy : x = y
      · subst hxy
        simpa [strcmp] using ih ys
      · have hyx : ¬ y = x := fun h => hxy h.symm
        simp only [strcmp, hxy, hyx, if_false]
        omega

theorem nameLe_trans {a b c : CStr} (hab : nameLe a b) (hbc : nameLe b c) : nameLe a c := by
  unfold nameLe compare_names at *
  induction a generalizing b c with
  | nil => cases c <;> simp [strcmp]
  | cons x xs ih =>
    cases b with
    | nil => simp [strcmp] at hab
    | cons y ys =>
      cases c with
      | nil => simp [strcmp] at hbc
      | cons z zs =>
        by_cases hxy : x = y
        · subst hxy
          by_cases hxz : x = z
          · subst hxz
            simp only [strcmp, if_true] at hab hbc ⊢
            exact ih hab hbc
          · simp only [strcmp, hxz, if_true, if_false] at hab hbc ⊢
            exact hbc
        · by_cases hyz : y = z
          · subst hyz
            simp only [strcmp, hxy, if_false] at hab ⊢
            exact hab
          · by_cases hxz : x = z
            · subst hxz
              have hyx : ¬ y = x := fun h => hxy h.symm
              simp only [strcmp, hxy, hyx, if_false] at hab hbc
              have : x.toNat = y.toNat := by omega
              exact absurd (char_eq_of_toNat_eq this) hxy
            · simp only [strcmp, hxy, hyz, hxz, if_false] at hab hbc ⊢
              omega

theorem nameLe_antisymm {a b : CStr} (hab : nameLe a b) (hba : nameLe b a) : a = b := by
  unfold nameLe compare_names at *
  induction a generalizing b with
  | nil => cases b <;> simp_all [strcmp]
  | cons x xs ih =>
    cases b with
    | nil => simp [strcmp] at hab
    | cons y ys =>
      by_cases hxy : x = y
      · subst hxy
        simp only [strcmp, if_true] at hab hba
        rw [ih hab hba]
      · have hyx : ¬ y = x := fun h => hxy h.symm
        simp only [strcmp, hxy, hyx, if_false] at hab hba
        exact absurd (char_eq_of_toNat_eq (by omega)) hxy

instance : IsTotal CStr nameLe := ⟨nameLe_total⟩
instance : IsTrans CStr nameLe := ⟨fun _ _ _ => nameLe_trans⟩
instance : IsAntisymm CStr nameLe := ⟨fun _ _ => nameLe_antisymm⟩

theorem qsort_sorted (names : List CStr) : (qsort compare_names names).Sorted nameLe :=
  List.sorted_insertionSort nameLe names

theorem qsort_perm (names : List CStr) : (qsort compare_names names).Perm names :=
  List.perm_insertionSort nameLe names

theorem sort_names_sorted (names : List CStr) : (sort_names names).Sorted nameLe := by
  unfold sort_names
  split_ifs with h
  · exact qsort_sorted names
  · match names, h with
    | [], _ => exact List.sorted_nil
    | [a], _ => exact List.sorted_singleton a
    | _ :: _ :: _, h => simp at h

theorem sort_names_perm (names : List CStr) : (sort_names names).Perm names := by
  unfold sort_names
  split_ifs
  · exact qsort_perm names
  · exact List.Perm.refl _

theorem shownNames_append (a b : List Ev) : shownNames (a ++ b) = shownNames a ++ shownNames b := by
  simp [shownNames]

theorem shownNames_print_long (env : Env) (fullpath nm : CStr) :
    shownNames (print_long env fullpath nm) = if (env.lstat fullpath).isSome then [nm] else [] := by
  unfold print_long
  cases h : env.lstat fullpath with
  | none => simp [shownNames, Ev.shown]
  | some st =>
    simp only [Option.isSome_some, if_true]
    by_cases hl : S_ISLNK st.st_mode = true
    · cases hr : env.readlink fullpath <;> simp [shownNames, Ev.shown, hl, hr]
    · simp [shownNames, Ev.shown, hl]

theorem shownNames_long_loop (env : Env) (path : CStr) (names : List CStr) :
    shownNames (long_loop env path names)
      = names.filter fun nm => (env.lstat (full_path path nm)).isSome := by
  induction names with
  | nil => rfl
  | cons nm rest ih =>
    rw [long_loop, shownNames_append, shownNames_print_long, ih, List.filter_cons]
    split_ifs <;> rfl

theorem shownNames_horizontal_loop (env : Env) (basepath : CStr) (cw w : Int)
    (names : List CStr) (cur : Int) :
    shownNames (horizontal_loop env basepath cw w names cur) = names := by
  induction names generalizing cur with
  | nil => rfl
  | cons nm rest ih =>
    rw [horizontal_loop_cons]
    split_ifs <;> simp [shownNames, Ev.shown, gridCell] <;> exact ih _

theorem shownNames_print_horizontal (env : Env) (names : List CStr) (maxlen : Int)
    (basepath : CStr) : shownNames (print_horizontal env names maxlen basepath) = names := by
  rw [print_horizontal, shownNames_append, shownNames_horizontal_loop]
  simp [shownNames, Ev.shown]

theorem shownNames_gridRow (env : Env) (basepath : CStr) (names : List CStr) (cw : Int)
    (k r row : Nat) : shownNames (gridRow env basepath names cw k r row) = nameRow names k r row := by
  unfold shownNames gridRow nameRow
  rw [List.filterMap_filterMap]
  congr 1
  funext col
  cases names[col * r + row]? <;> rfl

theorem columnMajor_empty_rows (f : Nat) (rows : List (List CStr)) (h : ∀ row ∈ rows, row = []) :
    columnMajor f rows = [] := by
  induction f generalizing rows with
  | zero => rfl
  | succ f ih =>
    have h1 : rows.filterMap List.head? = [] := by
      rw [List.filterMap_eq_nil_iff]
      intro row hrow
      rw [h row hrow]; rfl
    have h2 : ∀ row ∈ rows.map List.tail, row = [] := by
      intro row hrow
      obtain ⟨x, hx, rfl⟩ := List.mem_map.1 hrow
      rw [h x hx]; rfl
    rw [columnMajor, h1, ih _ h2]; rfl

theorem columnMajor_stable (f j : Nat) (rows : List (List CStr))
    (h : ∀ row ∈ rows, row.length ≤ f) : columnMajor (f + j) rows = columnMajor f rows := by
  induction f generalizing rows with
  | zero =>
    rw [columnMajor_empty_rows _ rows fun row hrow => List.length_eq_zero.1 (by
      have := h row hrow; omega)]
    rfl
  | succ f ih =>
    have h2 : ∀ row ∈ rows.map List.tail, row.length ≤ f := by
      intro row hrow
      obtain ⟨x, hx, rfl⟩ := List.mem_map.1 hrow
      have := h x hx
      simp only [List.length_tail]; omega
    rw [show f + 1 + j = (f + j) + 1 by omega, columnMajor, columnMajor, ih _ h2]

theorem columnMajor_cons_nil (f : Nat) (rows : List (List CStr)) :
    columnMajor f ([] :: rows) = columnMajor f rows := by
  induction f generalizing rows with
  | zero => rfl
  | succ f ih => simp [columnMajor, ih]

theorem filterMap_range_getElem (names : List CStr) (r : Nat) :
    (List.range r).filterMap (fun i => names[i]?) = names.take r := by
  induction r with
  | zero => rfl
  | succ r ih =>
    rw [List.range_succ, List.filterMap_append, ih, List.take_succ]
    cases h : names[r]? <;> simp [List.filterMap_cons, h]

theorem nameRow_none (names : List CStr) (k r row : Nat) (h : names.length ≤ row) :
    nameRow names k r row = [] := by
  unfold nameRow
  rw [List.filterMap_eq_nil_iff]
  intro col _
  exact List.getElem?_eq_none (by
    have : row ≤ col * r + row := Nat.le_add_left _ _
    omega)

theorem nameRow_succ (names : List CStr) (k r row : Nat) :
    nameRow names (k + 1) r row = (names[row]?).toList ++ nameRow (names.drop r) k r row := by
  unfold nameRow
  rw [List.range_succ_eq_map, List.filterMap_cons, List.filterMap_map]
  have h0 : names[0 * r + row]? = names[row]? := by simp
  have ht : (List.range k).filterMap ((fun col => names[col * r + row]?) ∘ Nat.succ)
      = (List.range k).filterMap fun col => (names.drop r)[col * r + row]? := by
    congr 1
    funext col
    simp only [Function.comp, Nat.succ_eq_add_one, List.getElem?_drop]
    congr 1
    ring
  rw [h0, ht]
  cases names[row]? <;> rfl

theorem nameRow_head (names : List CStr) (k r row : Nat) :
    (nameRow names (k + 1) r row).head? = names[row]? := by
  rw [nameRow_succ]
  cases h : names[row]? with
  | some x => rfl
  | none =>
    rw [List.getElem?_eq_none_iff] at h
    have := nameRow_none (names.drop r) k r row (by simp; omega)
    rw [this]; rfl

theorem nameRow_tail (names : List CStr) (k r row : Nat) :
    (nameRow names (k + 1) r row).tail = nameRow (names.drop r) k r row := by
  rw [nameRow_succ]
  cases h : names[row]? with
  | some x => rfl
  | none =>
    rw [List.getElem?_eq_none_iff] at h
    have := nameRow_none (names.drop r) k r row (by simp; omega)
    rw [this]; rfl

theorem columnMajor_grid (names : List CStr) (k r : Nat) :
    columnMajor k ((List.range r).map (nameRow names k r)) = names.take (k * r) := by
  induction k generalizing names with
  | zero => simp [columnMajor]
  | succ k ih =>
    have hh : ((List.range r).map (nameRow names (k + 1) r)).filterMap List.head?
        = names.take r := by
      rw [List.filterMap_map, ← filterMap_range_getElem]
      congr 1
      funext row
      exact nameRow_head names k r row
    have ht : ((List.range r).map (nameRow names (k + 1) r)).map List.tail
        = (List.range r).map (nameRow (names.drop r) k r) := by
      rw [List.map_map]
      congr 1
      funext row
      exact nameRow_tail names k r row
    rw [columnMajor, hh, ht, ih, show (k + 1) * r = r + k * r by ring, List.take_add]

theorem length_nameRow_le (names : List CStr) (k r row : Nat) :
    (nameRow names k r row).length ≤ k := by
  unfold nameRow
  calc _ ≤ (List.range k).length := List.length_filterMap_le _ _
    _ = k := List.length_range k

theorem length_le_sum (rows : List (List CStr)) :
    ∀ row ∈ rows, row.length ≤ (rows.map List.length).sum := by
  intro row hrow
  exact List.single_le_sum (by simp) _ (List.mem_map_of_mem _ hrow)

theorem readDown_grid (names : List CStr) (k r : Nat) (h : names.length ≤ k * r) :
    readDown ((List.range r).map (nameRow names k r)) = names := by
  unfold readDown
  set rows := (List.range r).map (nameRow names k r) with hrows
  set f := (rows.map List.length).sum
  have h1 : columnMajor (f + k) rows = columnMajor f rows :=
    columnMajor_stable f k rows (length_le_sum rows)
  have h2 : columnMajor (k + f) rows = columnMajor k rows :=
    columnMajor_stable k f rows (by
      intro row hrow
      obtain ⟨i, _, rfl⟩ := List.mem_map.1 hrow
      exact length_nameRow_le names k r i)
  rw [← h1, Nat.add_comm, h2, hrows, columnMajor_grid, List.take_of_length_le h]

theorem collect_maxlen_nonneg (stream names : List CStr) (maxlen : Int) (h : 0 ≤ maxlen) :
    0 ≤ (collect stream names maxlen).2 := by
  induction stream generalizing names maxlen with
  | nil => exact h
  | cons d rest ih =>
    rw [collect]
    split_ifs
    · exact ih _ _ h
    · exact h
    · apply ih; split_ifs <;> omega

theorem one_le_columnCount (w cw : Int) : 1 ≤ columnCount w cw := by
  unfold columnCount
  have : (1 : Int) ≤ max 1 (w / cw) := le_max_left _ _
  omega

theorem le_mul_rowCount (n k : Nat) (hk : 1 ≤ k) : n ≤ k * rowCount n k := by
  rw [rowCount_eq n k hk]
  have h1 := Nat.div_add_mod (n + k - 1) k
  have h2 := Nat.mod_lt (n + k - 1) hk
  generalize k * ((n + k - 1) / k) = p at h1 ⊢
  omega

theorem do_ls_flat (env : Env) (path : CStr) (stream : List CStr) (display_mode : Int)
    (fuel : Nat) (h : env.opendir path = some stream) (listing : List Ev)
    (hl : display env path display_mode (sort_names (collect stream [] 0).1)
      (collect stream [] 0).2 = some listing) :
    do_ls (fuel + 1) env path display_mode false = ⟨Ev.header path :: listing, true⟩ := by
  simp [do_ls, h, hl]

theorem do_ls_recursive (env : Env) (path : CStr) (stream : List CStr) (display_mode : Int)
    (fuel : Nat) (h : env.opendir path = some stream) (listing : List Ev)
    (hl : display env path display_mode (sort_names (collect stream [] 0).1)
      (collect stream [] 0).2 = some listing) :
    do_ls (fuel + 1) env path display_mode true
      = ⟨Ev.header path :: (listing ++ (walk_loop env path
            (fun full => do_ls fuel env full display_mode true)
            (sort_names (collect stream [] 0).1)).out),
          (walk_loop env path (fun full => do_ls fuel env full display_mode true)
            (sort_names (collect stream [] 0).1)).done⟩ := by
  simp [do_ls, h, hl]

theorem display_isSome (env : Env) (path : CStr) (display_mode : Int) (names : List CStr)
    (maxlen : Int) (hm : 0 ≤ maxlen) :
    ∃ listing, display env path display_mode names maxlen = some listing := by
  unfold display
  split_ifs
  · exact ⟨_, rfl⟩
  · exact ⟨_, rfl⟩
  · exact ⟨_, print_default_eq env names maxlen path hm⟩

theorem lines_header (path : CStr) (t : List Ev) :
    lines (Ev.header path :: t) = [Ev.header path] :: lines t := by
  simp [lines, Ev.endsLine]

theorem readDown_cons_nil (rows : List (List CStr)) : readDown ([] :: rows) = readDown rows := by
  simp [readDown, columnMajor_cons_nil]

theorem readDown_print_default (env : Env) (names : List CStr) (maxlen : Int) (basepath : CStr)
    (hm : 0 ≤ maxlen) (listing : List Ev)
    (h : print_default env names maxlen basepath = some listing) :
    readDown ((lines listing).map shownNames) = names := by
  rw [print_default_eq env names maxlen basepath hm] at h
  injection h with h
  subst h
  rw [lines_rows, List.map_map]
  · have : (shownNames ∘ gridRow env basepath names (maxlen + 2)
        (columnCount (term_width env) (maxlen + 2))
        (rowCount names.length (columnCount (term_width env) (maxlen + 2))))
        = nameRow names (columnCount (term_width env) (maxlen + 2))
            (rowCount names.length (columnCount (term_width env) (maxlen + 2))) := by
      funext row
      exact shownNames_gridRow _ _ _ _ _ _ _
    rw [this]
    exact readDown_grid _ _ _ (le_mul_rowCount _ _ (one_le_columnCount _ _))
  · intro row hrow
    obtain ⟨i, _, rfl⟩ := List.mem_map.1 hrow
    exact gridRow_endsLine _ _ _ _ _ _ _

/-- C7, as amended: in Long and Horizontal mode the names of a directory's
listing, read in output order, are in non-decreasing `strcmp` order; in Default
mode they are in non-decreasing order when read down each column, the columns
taken from left to right.  The listing is the output without the recursive
flag, and with the flag the output starts with it. -/
theorem do_ls_names_order (env : Env) (path : CStr) (stream : List CStr) (display_mode : Int)
    (fuel : Nat) (h : env.opendir path = some stream) :
    (display_mode = 1 ∨ display_mode = 2 →
      (shownNames (do_ls (fuel + 1) env path display_mode false).out).Sorted nameLe)
    ∧ (display_mode ≠ 1 ∧ display_mode ≠ 2 →
      (readDown ((lines (do_ls (fuel + 1) env path display_mode false).out).map
        shownNames)).Sorted nameLe)
    ∧ (do_ls (fuel + 1) env path display_mode false).out
        <+: (do_ls (fuel + 1) env path display_mode true).out := by
  have hm := collect_maxlen_nonneg stream [] 0 (le_refl 0)
  obtain ⟨listing, hl⟩ := display_isSome env path display_mode
    (sort_names (collect stream [] 0).1) _ hm
  have hs := sort_names_sorted (collect stream [] 0).1
  rw [do_ls_flat env path stream display_mode fuel h listing hl,
    do_ls_recursive env path stream display_mode fuel h listing hl]
  refine ⟨?_, ?_, ⟨_, by rw [List.cons_append]⟩⟩
  · rintro (h1 | h2)
    · subst h1
      simp only [display, if_true, Option.some.injEq] at hl
      subst hl
      have : shownNames (Ev.header path :: long_loop env path (sort_names (collect stream [] 0).1))
          = shownNames (long_loop env path (sort_names (collect stream [] 0).1)) := rfl
      rw [this, shownNames_long_loop]
      exact hs.filter _
    · subst h2
      simp only [display, show ¬ ((2 : Int) = 1) by decide, if_false, if_true,
        Option.some.injEq] at hl
      subst hl
      have : shownNames (Ev.header path ::
          print_horizontal env (sort_names (collect stream [] 0).1) (collect stream [] 0).2 path)
          = shownNames (print_horizontal env (sort_names (collect stream [] 0).1)
              (collect stream [] 0).2 path) := rfl
      rw [this, shownNames_print_horizontal]
      exact hs
  · rintro ⟨h1, h2⟩
    simp only [display, h1, h2, if_false] at hl
    rw [lines_header, List.map_cons]
    have : shownNames [Ev.header path] = [] := rfl
    rw [this, readDown_cons_nil, readDown_print_default env _ _ path hm listing hl]
    exact hs

theorem do_ls_names_order_witness :
    (shownNames (do_ls 1 dozen "d".toList 2 false).out).Sorted nameLe
    ∧ (readDown ((lines (do_ls 1 dozen "d".toList 0 false).out).map shownNames)).Sorted nameLe :=
  ⟨(do_ls_names_order dozen "d".toList _ 2 0 rfl).1 (Or.inr rfl),
    (do_ls_names_order dozen "d".toList _ 0 0 rfl).2.1 (by decide)⟩

/-- C7, counterexample: twelve five-letter names on an 80-column terminal are
laid out in two rows, and read line by line the names are not in order. -/
theorem default_mode_not_sorted :
    shownNames (do_ls 1 dozen "d".toList 0 false).out
        = ["a.txt".toList, "c.txt".toList, "e.txt".toList, "g.txt".toList, "i.txt".toList,
            "k.txt".toList, "b.txt".toList, "d.txt".toList, "f.txt".toList, "h.txt".toList,
            "j.txt".toList, "l.txt".toList]
    ∧ ¬ (shownNames (do_ls 1 dozen "d".toList 0 false).out).Sorted nameLe := by
  decide

/-! ## Hidden entries -/

theorem collect_not_hidden (stream names : List CStr) (maxlen : Int)
    (h : ∀ nm ∈ names, nm.head? ≠ some '.') :
    ∀ nm ∈ (collect stream names maxlen).1, nm.head? ≠ some '.' := by
  induction stream generalizing names maxlen with
  | nil => exact h
  | cons d rest ih =>
    rw [collect]
    split_ifs with hd hcap
    · exact ih _ _ h
    · exact h
    · apply ih
      intro nm hnm
      rcases List.mem_append.1 hnm with h1 | h1
      · exact h nm h1
      · rw [List.mem_singleton.1 h1]; exact hd

theorem shownNames_display_subset (env : Env) (path : CStr) (display_mode : Int)
    (names : List CStr) (maxlen : Int) (hm : 0 ≤ maxlen) (listing : List Ev)
    (h : display env path display_mode names maxlen = some listing) :
    ∀ nm ∈ shownNames listing, nm ∈ names := by
  unfold display at h
  split_ifs at h with h1 h2
  · injection h with h; subst h
    rw [shownNames_long_loop]
    intro nm hnm
    exact (List.mem_filter.1 hnm).1
  · injection h with h; subst h
    rw [shownNames_print_horizontal]
    exact fun nm hnm => hnm
  · rw [print_default_eq env names maxlen path hm] at h
    injection h with h; subst h
    intro nm hnm
    simp only [shownNames, List.mem_filterMap, List.mem_flatMap, List.mem_map, List.mem_range,
      List.mem_append, List.mem_singleton] at hnm
    obtain ⟨e, ⟨row, ⟨i, _, rfl⟩, he⟩, hshown⟩ := hnm
    rcases he with he | he
    · simp only [gridRow, List.mem_filterMap, Option.map_eq_some'] at he
      obtain ⟨col, _, x, hx, rfl⟩ := he
      simp only [gridCell, Ev.shown, Option.some.injEq] at hshown
      subst hshown
      exact List.getElem?_mem hx
    · subst he
      simp [Ev.shown] at hshown

theorem walk_loop_shown (env : Env) (path : CStr) (walk : CStr → Run) (P : CStr → Prop)
    (hw : ∀ full, ∀ nm ∈ shownNames (walk full).out, P nm) (names : List CStr) :
    ∀ nm ∈ shownNames (walk_loop env path walk names).out, P nm := by
  induction names with
  | nil => intro nm hnm; simp [walk_loop, shownNames] at hnm
  | cons x rest ih =>
    rw [walk_loop]
    cases env.lstat (full_path path x) with
    | none => exact ih
    | some st =>
      simp only
      split_ifs with hd hdot hdone
      · exact ih
      · intro nm hnm
        have : shownNames (Ev.newline :: ((walk (full_path path x)).out
            ++ (walk_loop env path walk rest).out))
            = shownNames (walk (full_path path x)).out
              ++ shownNames (walk_loop env path walk rest).out := by
          simp [shownNames, Ev.shown]
        rw [this] at hnm
        rcases List.mem_append.1 hnm with h1 | h1
        · exact hw _ nm h1
        · exact ih nm h1
      · intro nm hnm
        have : shownNames (Ev.newline :: (walk (full_path path x)).out)
            = shownNames (walk (full_path path x)).out := by
          simp [shownNames, Ev.shown]
        rw [this] at hnm
        exact hw _ nm hnm
      · exact ih

theorem do_ls_shown_not_hidden (fuel : Nat) (env : Env) (path : CStr) (display_mode : Int)
    (recursive_flag : Bool) :
    ∀ nm ∈ shownNames (do_ls fuel env path display_mode recursive_flag).out,
      nm.head? ≠ some '.' := by
  induction fuel generalizing path with
  | zero => intro nm hnm; simp [do_ls, shownNames] at hnm
  | succ fuel ih =>
    cases h : env.opendir path with
    | none => intro nm hnm; simp [do_ls, h, shownNames, Ev.shown] at hnm
    | some stream =>
      have hm := collect_maxlen_nonneg stream [] 0 (le_refl 0)
      obtain ⟨listing, hl⟩ := display_isSome env path display_mode
        (sort_names (collect stream [] 0).1) _ hm
      have hnames : ∀ nm ∈ sort_names (collect stream [] 0).1, nm.head? ≠ some '.' := by
        intro nm hnm
        exact collect_not_hidden stream [] 0 (by simp) nm
          ((sort_names_perm _).mem_iff.1 hnm)
      have hlist : ∀ nm ∈ shownNames listing, nm.head? ≠ some '.' := fun nm hnm =>
        hnames nm (shownNames_display_subset env path display_mode _ _ hm listing hl nm hnm)
      cases recursive_flag with
      | false =>
        rw [do_ls_flat env path stream display_mode fuel h listing hl]
        exact hlist
      | true =>
        rw [do_ls_recursive env path stream display_mode fuel h listing hl]
        intro nm hnm
        have : shownNames (Ev.header path :: (listing ++ (walk_loop env path
            (fun full => do_ls fuel env full display_mode true)
            (sort_names (collect stream [] 0).1)).out))
            = shownNames listing ++ shownNames (walk_loop env path
                (fun full => do_ls fuel env full display_mode true)
                (sort_names (collect stream [] 0).1)).out := by
          simp [shownNames, Ev.shown]
        rw [this] at hnm
        rcases List.mem_append.1 hnm with h1 | h1
        · exact hlist nm h1
        · exact walk_loop_shown env path _ _ (fun full => ih full) _ nm h1

/-- C8: whatever `readdir` yields, no name that begins with `.` is among the
names `do_ls` collects and sorts, and none is shown anywhere in its output, in
any display mode, with or without recursion. -/
theorem do_ls_hides_dot_names (env : Env) (fuel : Nat) (path : CStr) (display_mode : Int)
    (recursive_flag : Bool) :
    (∀ stream : List CStr, ∀ nm ∈ sort_names (collect stream [] 0).1, nm.head? ≠ some '.')
    ∧ (∀ nm ∈ shownNames (do_ls fuel env path display_mode recursive_flag).out,
        nm.head? ≠ some '.') := by
  refine ⟨?_, do_ls_shown_not_hidden fuel env path display_mode recursive_flag⟩
  intro stream nm hnm
  exact collect_not_hidden stream [] 0 (by simp) nm ((sort_names_perm _).mem_iff.1 hnm)

theorem do_ls_hides_dot_names_witness :
    "sub".toList.head? ≠ some '.' ∧ "a.txt".toList.head? ≠ some '.' :=
  ⟨(do_ls_hides_dot_names scenario 2 "d".toList 0 true).1
      [".".toList, "sub".toList, ".cfg".toList] "sub".toList (by decide),
    (do_ls_hides_dot_names scenario 2 "d".toList 0 true).2 "a.txt".toList (by decide)⟩

/-! ## Empty listings and the header -/

/-- C9, as amended: for an empty name list the Long loop and `print_default`
(whenever its column width `maxlen + 2` is not zero) write nothing at all,
while `print_horizontal` writes exactly one newline and no entry. -/
theorem empty_listing (env : Env) (maxlen : Int) (path : CStr) (hm : maxlen + 2 ≠ 0) :
    long_loop env path [] = []
    ∧ print_default env [] maxlen path = some []
    ∧ print_horizontal env [] maxlen path = [Ev.newline]
    ∧ stdout (print_horizontal env [] maxlen path) = ['\n'] := by
  refine ⟨rfl, ?_, rfl, rfl⟩
  have hcols (c : Int) : 1 ≤ (if c < 1 then 1 else c) := by split_ifs <;> omega
  have hrows (k : Int) (hk : 1 ≤ k) : c_div ((0 : Int) + k - 1) k = some 0 := by
    rw [c_div, if_neg (by omega), Int.tdiv_eq_ediv (by omega) (by omega)]
    exact congrArg some (Int.ediv_eq_zero_of_lt (by omega) (by omega))
  simp only [print_default, c_div, hm, if_false, Option.bind_eq_bind, Option.some_bind,
    List.length_nil, Nat.cast_zero, Option.pure_def]
  have := hrows _ (hcols ((term_width env).tdiv (maxlen + 2)))
  rw [c_div] at this
  rw [this]
  rfl

theorem empty_listing_witness :
    long_loop scenario "d/sub".toList [] = []
    ∧ print_default scenario [] 0 "d/sub".toList = some []
    ∧ print_horizontal scenario [] 0 "d/sub".toList = [Ev.newline]
    ∧ stdout (print_horizontal scenario [] 0 "d/sub".toList) = ['\n'] :=
  empty_listing scenario 0 "d/sub".toList (by decide)

/-- C9, counterexample: for the empty subdirectory of the scenario,
`print_horizontal` writes a newline. -/
theorem print_horizontal_empty_not_silent :
    stdout (print_horizontal scenario [] 0 "d/sub".toList) ≠ [] := by
  decide

theorem collect_fst (stream names : List CStr) (maxlen : Int) (h : names.length ≤ NAMES_CAP) :
    (collect stream names maxlen).1
      = (names ++ stream.filter fun d => decide (d.head? ≠ some '.')).take NAMES_CAP := by
  induction stream generalizing names maxlen with
  | nil => simp [collect, List.take_of_length_le h]
  | cons d rest ih =>
    rw [collect]
    split_ifs with hd hcap
    · rw [ih _ _ h, List.filter_cons_of_neg (by simpa using hd)]
    · have hlen : names.length = NAMES_CAP := le_antisymm h hcap
      rw [List.take_append_of_le_length (le_of_eq hlen.symm), List.take_of_length_le h]
    · rw [ih _ _ (by simp only [List.length_append, List.length_singleton]; omega),
        List.filter_cons_of_pos (by simpa using hd), List.append_assoc, List.singleton_append]

theorem scenario_names (stream : List CStr)
    (hp : stream.Perm [".".toList, "..".toList, "b.txt".toList, "a.txt".toList, ".cfg".toList,
      "sub".toList]) :
    sort_names (collect stream [] 0).1 = ["a.txt".toList, "b.txt".toList, "sub".toList] := by
  have h1 := hp.filter fun d => decide (d.head? ≠ some '.')
  have h2 : ([".".toList, "..".toList, "b.txt".toList, "a.txt".toList, ".cfg".toList,
      "sub".toList].filter fun d => decide (d.head? ≠ some '.'))
      = ["b.txt".toList, "a.txt".toList, "sub".toList] := by decide
  rw [h2] at h1
  have hlen : (stream.filter fun d => decide (d.head? ≠ some '.')).length ≤ NAMES_CAP := by
    rw [h1.length_eq]; decide
  have h3 : (collect stream [] 0).1 = stream.filter fun d => decide (d.head? ≠ some '.') := by
    rw [collect_fst _ _ _ (by decide), List.nil_append, List.take_of_length_le hlen]
  have h4 : (sort_names (collect stream [] 0).1).Perm
      ["a.txt".toList, "b.txt".toList, "sub".toList] := by
    refine (sort_names_perm _).trans ?_
    rw [h3]
    exact h1.trans (List.Perm.swap _ _ _)
  exact List.eq_of_perm_of_sorted h4 (sort_names_sorted _) (by decide)

/-- C10: when `path` opens as a directory, the first thing `do_ls` writes is
the header `<path>:`, directly followed by the listing of the directory's own
sorted entries, with or without the recursive flag.  For a directory `d` that
holds `b.txt`, `a.txt`, the hidden `.cfg` and `sub` (in whatever order they are
read, on whatever terminal), the Default-mode, non-recursive output is the
header `d:` and a grid of exactly `a.txt`, `b.txt`, `sub` in that order; on the
80 columns of the sample environment it is one line. -/
theorem do_ls_header_first (env : Env) (path : CStr) (stream : List CStr) (display_mode : Int)
    (recursive_flag : Bool) (fuel : Nat) (h : env.opendir path = some stream) :
    (∃ listing rest,
        display env path display_mode (sort_names (collect stream [] 0).1)
          (collect stream [] 0).2 = some listing
        ∧ (do_ls (fuel + 1) env path display_mode recursive_flag).out
            = Ev.header path :: (listing ++ rest)
        ∧ (recursive_flag = false → rest = []))
    ∧ (∀ (env2 : Env) (stream2 : List CStr) (fuel2 : Nat),
        env2.opendir "d".toList = some stream2 →
        stream2.Perm [".".toList, "..".toList, "b.txt".toList, "a.txt".toList, ".cfg".toList,
          "sub".toList] →
        ∃ listing,
          do_ls (fuel2 + 1) env2 "d".toList 0 false = ⟨Ev.header "d".toList :: listing, true⟩
          ∧ readDown ((lines listing).map shownNames)
              = ["a.txt".toList, "b.txt".toList, "sub".toList])
    ∧ (do_ls 1 scenario "d".toList 0 false).out
        = [Ev.header "d".toList,
            Ev.cell COLOR_RESET "a.txt".toList 7,
            Ev.cell COLOR_RESET "b.txt".toList 7,
            Ev.cell COLOR_BLUE "sub".toList 7,
            Ev.newline]
    ∧ stdout (do_ls 1 scenario "d".toList 0 false).out
        = "d:\n\x1b[0ma.txt  \x1b[0m\x1b[0mb.txt  \x1b[0m\x1b[0;34msub    \x1b[0m\n".toList := by
  refine ⟨?_, ?_, by decide, by decide⟩
  · have hm := collect_maxlen_nonneg stream [] 0 (le_refl 0)
    obtain ⟨listing, hl⟩ := display_isSome env path display_mode
      (sort_names (collect stream [] 0).1) _ hm
    cases recursive_flag with
    | false =>
      refine ⟨listing, [], hl, ?_, fun _ => rfl⟩
      rw [do_ls_flat env path stream display_mode fuel h listing hl, List.append_nil]
    | true =>
      refine ⟨listing, (walk_loop env path (fun full => do_ls fuel env full display_mode true)
        (sort_names (collect stream [] 0).1)).out, hl, ?_, fun hf => by cases hf⟩
      rw [do_ls_recursive env path stream display_mode fuel h listing hl]
  · intro env2 stream2 fuel2 h2 hp
    have hm := collect_maxlen_nonneg stream2 [] 0 (le_refl 0)
    obtain ⟨listing, hl⟩ := display_isSome env2 "d".toList 0
      (sort_names (collect stream2 [] 0).1) _ hm
    refine ⟨listing, do_ls_flat env2 _ stream2 0 fuel2 h2 listing hl, ?_⟩
    have hd : display env2 "d".toList 0 (sort_names (collect stream2 [] 0).1)
        (collect stream2 [] 0).2
        = print_default env2 (sort_names (collect stream2 [] 0).1) (collect stream2 [] 0).2
            "d".toList := by
      simp [display]
    rw [hd] at hl
    rw [readDown_print_default env2 _ _ _ hm listing hl, scenario_names stream2 hp]

theorem do_ls_header_first_witness :
    (∃ listing rest,
        display scenario "d".toList 2
          (sort_names (collect [".".toList, "b.txt".toList, "..".toList, "a.txt".toList,
            ".cfg".toList, "sub".toList] [] 0).1)
          (collect [".".toList, "b.txt".toList, "..".toList, "a.txt".toList,
            ".cfg".toList, "sub".toList] [] 0).2 = some listing
        ∧ (do_ls (1 + 1) scenario "d".toList 2 true).out
            = Ev.header "d".toList :: (listing ++ rest)
        ∧ (true = false → rest = []))
    ∧ (∃ listing,
        do_ls (0 + 1) (scenario_on 14) "d".toList 0 false
            = ⟨Ev.header "d".toList :: listing, true⟩
        ∧ readDown ((lines listing).map shownNames)
            = ["a.txt".toList, "b.txt".toList, "sub".toList]) :=
  ⟨(do_ls_header_first scenario "d".toList _ 2 true 1 rfl).1,
    (do_ls_header_first scenario "d".toList _ 2 true 1 rfl).2.1 (scenario_on 14) _ 0 rfl
      (by decide)⟩

/-! ## Recursive walk -/

theorem full_path_eq_entry_path (path name : CStr)
    (h : (entry_path path name).length < PATH_MAX) : full_path path name = entry_path path name := by
  unfold full_path entry_path snprintf at *
  by_cases hp : path = ".".toList
  · have h0 : (strcmp path ".".toList == 0) = true := by
      rw [beq_iff_eq, strcmp_eq_zero]; exact hp
    rw [if_pos hp] at h
    rw [if_pos h0, if_pos hp, List.take_of_length_le (by omega)]
  · have h0 : ¬ (strcmp path ".".toList == 0) = true := by
      rw [beq_iff_eq, strcmp_eq_zero]; exact hp
    rw [if_neg hp] at h
    rw [if_neg h0, if_neg hp, List.take_of_length_le (by omega)]

theorem not_dot_of_not_hidden (nm : CStr) (h : nm.head? ≠ some '.') :
    (strcmp nm ".".toList == 0 || strcmp nm "..".toList == 0) = false := by
  rw [Bool.or_eq_false_iff]
  constructor
  · rw [beq_eq_false_iff_ne]
    intro h0
    rw [strcmp_eq_zero] at h0
    subst h0
    exact h rfl
  · rw [beq_eq_false_iff_ne]
    intro h0
    rw [strcmp_eq_zero] at h0
    subst h0
    exact h rfl

theorem walk_loop_eq (env : Env) (path : CStr) (walk : CStr → Run) (names : List CStr)
    (hnames : ∀ nm ∈ names, nm.head? ≠ some '.')
    (hdone : ∀ nm ∈ names, is_directory env (full_path path nm) = true →
      (walk (full_path path nm)).done = true) :
    walk_loop env path walk names
      = ⟨(names.filter fun nm => is_directory env (full_path path nm)).flatMap
            fun nm => Ev.newline :: (walk (full_path path nm)).out, true⟩ := by
  induction names with
  | nil => rfl
  | cons x rest ih =>
    have ih' := ih (fun nm hnm => hnames nm (List.mem_cons_of_mem _ hnm))
      (fun nm hnm => hdone nm (List.mem_cons_of_mem _ hnm))
    have hx := not_dot_of_not_hidden x (hnames x (List.mem_cons_self _ _))
    have hdx := hdone x (List.mem_cons_self _ _)
    rw [walk_loop]
    cases hl : env.lstat (full_path path x) with
    | none =>
      have : is_directory env (full_path path x) = false := by simp [is_directory, hl]
      simp only [List.filter_cons, this]
      exact ih'
    | some st =>
      by_cases hd : S_ISDIR st.st_mode = true
      · have hdir : is_directory env (full_path path x) = true := by simp [is_directory, hl, hd]
        simp only [hd, if_true, hx, hdx hdir, ih', List.filter_cons, hdir, List.flatMap_cons,
          List.cons_append]
        rfl
      · have hdir : is_directory env (full_path path x) = false := by
          simp [is_directory, hl, hd]
        simp only [hd, List.filter_cons, hdir]
        exact ih'

theorem flatMap_congr_mem {α β : Type} (l : List α) (f g : α → List β)
    (h : ∀ x ∈ l, f x = g x) : l.flatMap f = l.flatMap g := by
  induction l with
  | nil => rfl
  | cons x xs ih =>
    rw [List.flatMap_cons, List.flatMap_cons, h x (List.mem_cons_self _ _),
      ih fun y hy => h y (List.mem_cons_of_mem _ hy)]

/-- C11, as amended: with the recursive flag, `do_ls` writes the header and the
directory's own listing and then, for the sorted entries in order whose
non-following stat kind is directory, one blank line followed by the complete
output of the walk of the entry's path, with the same mode and flag; the
entry's path is the name alone when the directory is `"."` and
`"<path>/<name>"` otherwise (the paths are taken to fit the `PATH_MAX`
buffer).  For the scenario's tree the output is the header `d:`, the grid, a
blank line and the header `d/sub:` with nothing after it. -/
theorem do_ls_recursive_walk (env : Env) (path : CStr) (stream : List CStr)
    (display_mode : Int) (fuel : Nat) (h : env.opendir path = some stream)
    (hfit : ∀ nm ∈ sort_names (collect stream [] 0).1, (entry_path path nm).length < PATH_MAX)
    (hdone : ∀ nm ∈ sort_names (collect stream [] 0).1,
      is_directory env (entry_path path nm) = true →
        (do_ls fuel env (entry_path path nm) display_mode true).done = true) :
    (∃ listing,
        display env path display_mode (sort_names (collect stream [] 0).1)
          (collect stream [] 0).2 = some listing
        ∧ do_ls (fuel + 1) env path display_mode true
            = ⟨Ev.header path :: (listing ++
                ((sort_names (collect stream [] 0).1).filter fun nm =>
                    is_directory env (entry_path path nm)).flatMap fun nm =>
                  Ev.newline :: (do_ls fuel env (entry_path path nm) display_mode true).out),
                true⟩)
    ∧ do_ls 2 scenario "d".toList 0 true
        = ⟨[Ev.header "d".toList,
              Ev.cell COLOR_RESET "a.txt".toList 7,
              Ev.cell COLOR_RESET "b.txt".toList 7,
              Ev.cell COLOR_BLUE "sub".toList 7,
              Ev.newline,
              Ev.newline,
              Ev.header "d/sub".toList], true⟩
    ∧ stdout (do_ls 2 scenario "d".toList 0 true).out
        = ("d:\n\x1b[0ma.txt  \x1b[0m\x1b[0mb.txt  \x1b[0m\x1b[0;34msub    \x1b[0m\n"
            ++ "\nd/sub:\n").toList := by
  refine ⟨?_, by decide, by decide⟩
  have hm := collect_maxlen_nonneg stream [] 0 (le_refl 0)
  obtain ⟨listing, hl⟩ := display_isSome env path display_mode
    (sort_names (collect stream [] 0).1) _ hm
  refine ⟨listing, hl, ?_⟩
  have hnames : ∀ nm ∈ sort_names (collect stream [] 0).1, nm.head? ≠ some '.' :=
    fun nm hnm => collect_not_hidden stream [] 0 (by simp) nm
      ((sort_names_perm _).mem_iff.1 hnm)
  have hfull : ∀ nm ∈ sort_names (collect stream [] 0).1,
      full_path path nm = entry_path path nm :=
    fun nm hnm => full_path_eq_entry_path path nm (hfit nm hnm)
  rw [do_ls_recursive env path stream display_mode fuel h listing hl,
    walk_loop_eq env path _ _ hnames (fun nm hnm hd => by
      rw [hfull nm hnm] at hd ⊢
      exact hdone nm hnm hd)]
  have hfilter : ((sort_names (collect stream [] 0).1).filter fun nm =>
        is_directory env (full_path path nm))
      = (sort_names (collect stream [] 0).1).filter fun nm =>
        is_directory env (entry_path path nm) :=
    List.filter_congr fun nm hnm => by rw [hfull nm hnm]
  rw [hfilter]
  congr 3
  apply flatMap_congr_mem
  intro nm hnm
  rw [hfull nm (List.mem_filter.1 hnm).1]

theorem do_ls_recursive_walk_witness :
    ∃ listing,
      display scenario "d".toList 2
          (sort_names (collect [".".toList, "b.txt".toList, "..".toList, "a.txt".toList,
            ".cfg".toList, "sub".toList] [] 0).1)
          (collect [".".toList, "b.txt".toList, "..".toList, "a.txt".toList,
            ".cfg".toList, "sub".toList] [] 0).2 = some listing
        ∧ do_ls (1 + 1) scenario "d".toList 2 true
            = ⟨Ev.header "d".toList :: (listing ++
                ((sort_names (collect [".".toList, "b.txt".toList, "..".toList, "a.txt".toList,
                    ".cfg".toList, "sub".toList] [] 0).1).filter fun nm =>
                    is_directory scenario (entry_path "d".toList nm)).flatMap fun nm =>
                  Ev.newline :: (do_ls 1 scenario (entry_path "d".toList nm) 2 true).out),
                true⟩ :=
  (do_ls_recursive_walk scenario "d".toList
    [".".toList, "b.txt".toList, "..".toList, "a.txt".toList, ".cfg".toList, "sub".toList]
    2 1 rfl (by decide) (by decide)).1

/-- C11, counterexample: listing `"."` recursively, the subdirectory is walked
as `sub`, not as `./sub`, so the output differs from the top-level listing
followed by a blank line and the walk of `./sub`. -/
theorem dot_walk_uses_bare_name :
    (do_ls 2 here ".".toList 0 true).out
        = [Ev.header ".".toList, Ev.cell COLOR_BLUE "sub".toList 5, Ev.newline, Ev.newline,
            Ev.header "sub".toList]
    ∧ (do_ls 2 here ".".toList 0 true).out
        ≠ (do_ls 1 here ".".toList 0 false).out
            ++ Ev.newline :: (do_ls 1 here "./sub".toList 0 true).out := by
  decide

/-! ## Termination of the walk -/

theorem walk_loop_done (env : Env) (path : CStr) (walk : CStr → Run) (names : List CStr)
    (hdone : ∀ nm ∈ names, is_directory env (full_path path nm) = true →
      (walk (full_path path nm)).done = true) :
    (walk_loop env path walk names).done = true := by
  induction names with
  | nil => rfl
  | cons x rest ih =>
    have ih' := ih fun nm hnm => hdone nm (List.mem_cons_of_mem _ hnm)
    have hdx := hdone x (List.mem_cons_self _ _)
    rw [walk_loop]
    cases hl : env.lstat (full_path path x) with
    | none => exact ih'
    | some st =>
      by_cases hd : S_ISDIR st.st_mode = true
      · have hdir : is_directory env (full_path path x) = true := by simp [is_directory, hl, hd]
        simp only [hd, if_true, hdx hdir]
        split_ifs
        · exact ih'
        · exact ih'
      · simp only [hd]
        exact ih'

/-- The walk returns whenever the directories it can reach are ranked: every
entry that the non-following stat reports as a directory has a smaller rank
than the directory that lists it. -/
theorem do_ls_returns_of_rank (env : Env) (rank : CStr → Nat)
    (hrank : ∀ p stream nm, env.opendir p = some stream →
      nm ∈ sort_names (collect stream [] 0).1 →
      is_directory env (full_path p nm) = true → rank (full_path p nm) < rank p)
    (fuel : Nat) (path : CStr) (display_mode : Int) (recursive_flag : Bool)
    (hfuel : rank path < fuel) :
    (do_ls fuel env path display_mode recursive_flag).done = true := by
  induction fuel generalizing path with
  | zero => omega
  | succ fuel ih =>
    cases h : env.opendir path with
    | none => simp [do_ls, h]
    | some stream =>
      have hm := collect_maxlen_nonneg stream [] 0 (le_refl 0)
      obtain ⟨listing, hl⟩ := display_isSome env path display_mode
        (sort_names (collect stream [] 0).1) _ hm
      cases recursive_flag with
      | false => rw [do_ls_flat env path stream display_mode fuel h listing hl]
      | true =>
        rw [do_ls_recursive env path stream display_mode fuel h listing hl]
        apply walk_loop_done
        intro nm hnm hd
        apply ih
        have := hrank path stream nm h hnm hd
        omega

theorem walk_loop_skips_symlink (env : Env) (path : CStr) (walk : CStr → Run) (nm : CStr)
    (rest : List CStr) (st : Stat) (hl : env.lstat (full_path path nm) = some st)
    (hs : S_ISLNK st.st_mode = true) :
    walk_loop env path walk (nm :: rest) = walk_loop env path walk rest := by
  have hd : S_ISDIR st.st_mode = false := by
    simp only [S_ISDIR, S_ISLNK, beq_iff_eq, beq_eq_false_iff_ne] at hs ⊢
    rw [hs]; decide
  rw [walk_loop]
  simp [hl, hd]

theorem do_ls_self_loop (env : Env) (path : CStr) (display_mode : Int) (stream : List CStr)
    (nm : CStr) (rest : List CStr) (h : env.opendir path = some stream)
    (hs : sort_names (collect stream [] 0).1 = nm :: rest)
    (hfull : full_path path nm = path) (hdir : is_directory env path = true) (fuel : Nat) :
    (do_ls fuel env path display_mode true).done = false := by
  induction fuel with
  | zero => rfl
  | succ fuel ih =>
    have hm := collect_maxlen_nonneg stream [] 0 (le_refl 0)
    obtain ⟨listing, hl⟩ := display_isSome env path display_mode
      (sort_names (collect stream [] 0).1) _ hm
    have hnm : nm.head? ≠ some '.' :=
      collect_not_hidden stream [] 0 (by simp) nm
        ((sort_names_perm _).mem_iff.1 (by rw [hs]; exact List.mem_cons_self _ _))
    have hdot := not_dot_of_not_hidden nm hnm
    rw [do_ls_recursive env path stream display_mode fuel h listing hl, hs, walk_loop, hfull]
    unfold is_directory at hdir
    cases hst : env.lstat path with
    | none => rw [hst] at hdir; cases hdir
    | some st =>
      rw [hst] at hdir
      simp only at hdir
      simp only [hdir, if_true, hdot, ih]
      rfl

theorem length_flatten_replicate (n : Nat) :
    ((List.replicate n ['/', 'a']).flatten).length = 2 * n := by
  induction n with
  | zero => rfl
  | succ n ih =>
    rw [List.replicate_succ, List.flatten_cons, List.length_append, ih]
    simp only [List.length_cons, List.length_nil]
    omega

theorem deep_path_length : deep_path.length = 4095 := by
  rw [deep_path, List.length_cons, length_flatten_replicate]

theorem full_path_deep : full_path deep_path "x".toList = deep_path := by
  have h0 : (strcmp deep_path ".".toList == 0) = false := by
    rw [beq_eq_false_iff_ne]
    intro h
    rw [strcmp_eq_zero] at h
    have := congrArg List.length h
    rw [deep_path_length] at this
    revert this
    decide
  rw [full_path, h0]
  simp only [Bool.false_eq_true, if_false, snprintf, PATH_MAX, List.append_assoc]
  exact List.take_left' deep_path_length

/-- C12, at the failing input: the directory `deep_path` has a path of
`PATH_MAX - 1` bytes and holds one file; the path built for that file is cut
back to `deep_path` itself, which is a directory, so the recursive walk enters
the same directory again and never returns, whatever the recursion budget. -/
theorem deep_path_walk_never_returns :
    deep_path.length = PATH_MAX - 1
    ∧ full_path deep_path "x".toList = deep_path
    ∧ ∀ fuel : Nat, (do_ls fuel deep deep_path 0 true).done = false := by
  refine ⟨deep_path_length, full_path_deep, fun fuel => ?_⟩
  have h : deep.opendir deep_path = some [".".toList, "..".toList, "x".toList] := by
    simp only [deep, if_true]
  have hd : is_directory deep deep_path = true := by
    have : deep.lstat deep_path = some sample_dir := by
      simp only [deep, if_true]
    rw [is_directory, this]
    decide
  exact do_ls_self_loop deep deep_path 0 _ "x".toList [] h (by decide) full_path_deep hd fuel

/-! ## Nothing lost, nothing doubled -/

theorem flatten_perm_heads_tails (rows : List (List CStr)) :
    rows.flatten.Perm (rows.filterMap List.head? ++ (rows.map List.tail).flatten) := by
  induction rows with
  | nil => exact List.Perm.refl _
  | cons row rest ih =>
    cases row with
    | nil => simpa using ih
    | cons x xs =>
      simp only [List.flatten_cons, List.filterMap_cons, List.head?_cons, List.map_cons,
        List.tail_cons, List.cons_append]
      refine List.Perm.cons x ?_
      refine (List.Perm.append_left xs ih).trans ?_
      rw [← List.append_assoc, ← List.append_assoc]
      exact List.Perm.append_right _ List.perm_append_comm

theorem columnMajor_perm_flatten (f : Nat) (rows : List (List CStr))
    (h : ∀ row ∈ rows, row.length ≤ f) : (columnMajor f rows).Perm rows.flatten := by
  induction f generalizing rows with
  | zero =>
    have : rows.flatten = [] := by
      rw [List.flatten_eq_nil_iff]
      intro row hrow
      exact List.length_eq_zero.1 (by have := h row hrow; omega)
    rw [this]
    exact List.Perm.refl _
  | succ f ih =>
    have h2 : ∀ row ∈ rows.map List.tail, row.length ≤ f := by
      intro row hrow
      obtain ⟨x, hx, rfl⟩ := List.mem_map.1 hrow
      have := h x hx
      simp only [List.length_tail]; omega
    rw [columnMajor]
    exact ((ih _ h2).append_left _).trans (flatten_perm_heads_tails rows).symm

theorem grid_cell_unique (n k r i : Nat) (hk : 1 ≤ k) (hr : r = rowCount n k) (hi : i < n) :
    ∃! p : Nat × Nat, p.1 < r ∧ p.2 < k ∧ p.2 * r + p.1 = i := by
  have hn := le_mul_rowCount n k hk
  rw [← hr] at hn
  have hrpos : 0 < r := by
    rcases Nat.eq_zero_or_pos r with h0 | h0
    · rw [h0] at hn; omega
    · exact h0
  refine ⟨(i % r, i / r), ⟨Nat.mod_lt _ hrpos, ?_, ?_⟩, ?_⟩
  · show i / r < k
    rw [Nat.div_lt_iff_lt_mul hrpos]
    omega
  · show i / r * r + i % r = i
    rw [Nat.mul_comm]
    exact Nat.div_add_mod i r
  · rintro ⟨row, col⟩ ⟨h1, _, h3⟩
    simp only at h1 h3
    have hcol : i / r = col := by
      rw [← h3, Nat.add_comm, Nat.add_mul_div_right _ _ hrpos, Nat.div_eq_of_lt h1, Nat.zero_add]
    have hrow : i % r = row := by
      rw [← h3, Nat.add_comm, Nat.add_mul_mod_self_right, Nat.mod_eq_of_lt h1]
    rw [hcol, hrow]

theorem shownNames_rows (rows : List (List Ev)) :
    shownNames (rows.flatMap fun row => row ++ [Ev.newline]) = (rows.map shownNames).flatten := by
  induction rows with
  | nil => rfl
  | cons row rest ih =>
    rw [List.flatMap_cons, shownNames_append, shownNames_append, ih, List.map_cons,
      List.flatten_cons]
    simp [shownNames, Ev.shown]

theorem shownNames_print_default (env : Env) (names : List CStr) (maxlen : Int)
    (basepath : CStr) (hm : 0 ≤ maxlen) (out : List Ev)
    (h : print_default env names maxlen basepath = some out) :
    shownNames out
      = ((List.range (rowCount names.length (columnCount (term_width env) (maxlen + 2)))).map
          (nameRow names (columnCount (term_width env) (maxlen + 2))
            (rowCount names.length (columnCount (term_width env) (maxlen + 2))))).flatten := by
  rw [print_default_eq env names maxlen basepath hm] at h
  injection h with h
  subst h
  rw [shownNames_rows, List.map_map]
  congr 2
  funext row
  exact shownNames_gridRow _ _ _ _ _ _ _

theorem shownNames_print_default_perm (env : Env) (names : List CStr) (maxlen : Int)
    (basepath : CStr) (hm : 0 ≤ maxlen) (out : List Ev)
    (h : print_default env names maxlen basepath = some out) :
    (shownNames out).Perm names := by
  rw [shownNames_print_default env names maxlen basepath hm out h]
  have h1 := columnMajor_perm_flatten (columnCount (term_width env) (maxlen + 2))
    ((List.range (rowCount names.length (columnCount (term_width env) (maxlen + 2)))).map
      (nameRow names (columnCount (term_width env) (maxlen + 2))
        (rowCount names.length (columnCount (term_width env) (maxlen + 2)))))
    (by
      intro row hrow
      obtain ⟨i, _, rfl⟩ := List.mem_map.1 hrow
      exact length_nameRow_le _ _ _ _)
  rw [columnMajor_grid, List.take_of_length_le
    (le_mul_rowCount _ _ (one_le_columnCount _ _))] at h1
  exact h1.symm

/-- C19: down-then-across layout loses and duplicates nothing.  With `k`
columns and `r` rows, every index below `n` is `col * r + row` for exactly one
cell `(row, col)` of the grid, and the names `print_default` writes are the
`n` names, each exactly once. -/
theorem print_default_exactly_once (env : Env) (names : List CStr) (maxlen : Int)
    (basepath : CStr) (hm : 0 ≤ maxlen) :
    (∀ i, i < names.length →
      ∃! p : Nat × Nat,
        p.1 < rowCount names.length (columnCount (term_width env) (columnWidth maxlen))
        ∧ p.2 < columnCount (term_width env) (columnWidth maxlen)
        ∧ p.2 * rowCount names.length (columnCount (term_width env) (columnWidth maxlen)) + p.1
            = i)
    ∧ ∃ out, print_default env names maxlen basepath = some out
        ∧ (shownNames out).Perm names
        ∧ (shownNames out).length = names.length := by
  refine ⟨fun i hi => grid_cell_unique names.length _ _ i (one_le_columnCount _ _) rfl hi, ?_⟩
  have h := print_default_eq env names maxlen basepath hm
  have hp := shownNames_print_default_perm env names maxlen basepath hm _ h
  exact ⟨_, h, hp, hp.length_eq⟩

theorem print_default_exactly_once_witness :
    (∀ i, i < 3 →
      ∃! p : Nat × Nat,
        p.1 < rowCount 3 (columnCount (term_width scenario) (columnWidth 5))
        ∧ p.2 < columnCount (term_width scenario) (columnWidth 5)
        ∧ p.2 * rowCount 3 (columnCount (term_width scenario) (columnWidth 5)) + p.1 = i)
    ∧ ∃ out, print_default scenario ["a.txt".toList, "b.txt".toList, "sub".toList] 5
          "d".toList = some out
        ∧ (shownNames out).Perm ["a.txt".toList, "b.txt".toList, "sub".toList]
        ∧ (shownNames out).length = 3 :=
  print_default_exactly_once scenario ["a.txt".toList, "b.txt".toList, "sub".toList] 5
    "d".toList (by decide)

/-! ## Entries whose metadata is unavailable -/

theorem gridCell_mem_horizontal_loop (env : Env) (basepath : CStr) (cw w : Int)
    (names : List CStr) (cur : Int) (nm : CStr) (h : nm ∈ names) :
    gridCell env basepath cw nm ∈ horizontal_loop env basepath cw w names cur := by
  induction names generalizing cur with
  | nil => cases h
  | cons x rest ih =>
    rw [horizontal_loop_cons]
    rcases List.mem_cons.1 h with rfl | h
    · split_ifs <;> simp
    · split_ifs <;> simp [ih _ h]

theorem gridCell_mem_print_default (env : Env) (names : List CStr) (maxlen : Int)
    (basepath : CStr) (hm : 0 ≤ maxlen) (nm : CStr) (h : nm ∈ names) :
    ∃ out, print_default env names maxlen basepath = some out
      ∧ gridCell env basepath (maxlen + 2) nm ∈ out := by
  refine ⟨_, print_default_eq env names maxlen basepath hm, ?_⟩
  obtain ⟨i, hi, rfl⟩ := List.getElem_of_mem h
  obtain ⟨⟨row, col⟩, ⟨h1, h2, h3⟩, _⟩ := grid_cell_unique names.length
    (columnCount (term_width env) (maxlen + 2)) _ i (one_le_columnCount _ _) rfl hi
  simp only at h1 h2 h3
  rw [List.mem_flatMap]
  refine ⟨gridRow env basepath names (maxlen + 2) (columnCount (term_width env) (maxlen + 2))
    (rowCount names.length (columnCount (term_width env) (maxlen + 2))) row, ?_, ?_⟩
  · exact List.mem_map.2 ⟨row, List.mem_range.2 h1, rfl⟩
  · rw [List.mem_append]
    left
    rw [gridRow, List.mem_filterMap]
    refine ⟨col, List.mem_range.2 h2, ?_⟩
    rw [List.getElem?_eq_getElem (by omega)]
    simp only [Option.map_some', h3]

/-- C13: when the metadata lookup of an entry fails, `color_for_file` returns
the reset colour of a plain entry, and `print_colored_padded` still writes the
name, left-justified in a field of the pad width between two reset sequences;
so the entry still has its cell in the horizontal and in the down-then-across
grid. -/
theorem lookup_failure_is_plain (env : Env) (basepath name : CStr) (pad_width : Int)
    (h : env.lstat (full_path basepath name) = none) :
    (∀ fullpath nm : CStr, env.lstat fullpath = none →
      color_for_file env fullpath nm = ColorCategory.Plain.code)
    ∧ print_colored_padded env basepath name pad_width = [Ev.cell COLOR_RESET name pad_width]
    ∧ stdout (print_colored_padded env basepath name pad_width)
        = COLOR_RESET ++ (name ++ List.replicate (pad_width.natAbs - name.length) ' ')
            ++ COLOR_RESET
    ∧ (∀ (names : List CStr) (maxlen : Int), name ∈ names →
        Ev.cell COLOR_RESET name (maxlen + 2) ∈ print_horizontal env names maxlen basepath)
    ∧ (∀ (names : List CStr) (maxlen : Int), 0 ≤ maxlen → name ∈ names →
        ∃ out, print_default env names maxlen basepath = some out
          ∧ Ev.cell COLOR_RESET name (maxlen + 2) ∈ out) := by
  have hcol : color_for_file env (full_path basepath name) name = COLOR_RESET := by
    simp [color_for_file, h]
  have hcell (cw : Int) : gridCell env basepath cw name = Ev.cell COLOR_RESET name cw := by
    rw [gridCell, hcol]
  refine ⟨?_, ?_, ?_, ?_, ?_⟩
  · intro fullpath nm h0
    simp [color_for_file, h0]
    rfl
  · rw [print_colored_padded, hcol]
  · rw [print_colored_padded, hcol]
    simp [stdout, Ev.render, padRight]
  · intro names maxlen hmem
    rw [← hcell, print_horizontal]
    exact List.mem_append_left _ (gridCell_mem_horizontal_loop env basepath _ _ names 0 name hmem)
  · intro names maxlen hm hmem
    rw [← hcell]
    exact gridCell_mem_print_default env names maxlen basepath hm name hmem

theorem lookup_failure_is_plain_witness :
    print_colored_padded scenario "d".toList "ghost".toList 7
        = [Ev.cell COLOR_RESET "ghost".toList 7]
    ∧ stdout (print_colored_padded scenario "d".toList "ghost".toList 7)
        = COLOR_RESET ++ ("ghost".toList ++ List.replicate ((7 : Int).natAbs - 5) ' ')
            ++ COLOR_RESET :=
  ⟨(lookup_failure_is_plain scenario "d".toList "ghost".toList 7 (by decide)).2.1,
    (lookup_failure_is_plain scenario "d".toList "ghost".toList 7 (by decide)).2.2.1⟩

/-! ## Long mode -/

theorem stdout_append (a b : List Ev) : stdout (a ++ b) = stdout a ++ stdout b := by
  simp [stdout]

theorem print_long_none (env : Env) (fullpath name : CStr) (h : env.lstat fullpath = none) :
    print_long env fullpath name = [Ev.perror fullpath] := by
  simp [print_long, h]

theorem print_long_some (env : Env) (fullpath name : CStr) (st : Stat)
    (h : env.lstat fullpath = some st) :
    print_long env fullpath name
      = [long_fields env st, Ev.name (color_for_file env fullpath name) name]
          ++ (if S_ISLNK st.st_mode then
                match env.readlink fullpath with
                | some target => [Ev.arrow (target.take (PATH_MAX - 1))]
                | none => []
              else [])
          ++ [Ev.newline] := by
  simp only [print_long, h, long_fields]

theorem stdout_long_loop (env : Env) (path : CStr) (names : List CStr) :
    stdout (long_loop env path names)
      = ((names.filter fun nm => (env.lstat (full_path path nm)).isSome).map
          fun nm => stdout (print_long env (full_path path nm) nm)).flatten := by
  induction names with
  | nil => rfl
  | cons x rest ih =>
    rw [long_loop, stdout_append, ih, List.filter_cons]
    cases hl : env.lstat (full_path path x) with
    | none =>
      rw [print_long_none env _ _ hl]
      simp [stdout, Ev.render]
    | some st => simp

theorem arrow_part_count (b : Bool) (o : Option CStr) :
    ((if b then
        match o with
        | some target => [Ev.arrow (target.take (PATH_MAX - 1))]
        | none => []
      else []) : List Ev).count Ev.newline = 0 := by
  cases b <;> cases o <;> simp [List.count_cons]

/-- C14: Long mode is best-effort per entry.  When the metadata lookup of an
entry fails, `print_long` only calls `perror` and writes nothing to standard
output; an entry whose lookup succeeds gets one line closed by a newline; and
the Long-mode output of a directory is its header followed by the lines, in
sorted order, of exactly the entries whose lookup succeeded. -/
theorem long_mode_best_effort (env : Env) (path : CStr) (names : List CStr) :
    (∀ fullpath name : CStr, env.lstat fullpath = none →
      print_long env fullpath name = [Ev.perror fullpath]
        ∧ stdout (print_long env fullpath name) = [])
    ∧ (∀ fullpath name : CStr, (env.lstat fullpath).isSome = true →
        (print_long env fullpath name).count Ev.newline = 1
          ∧ (print_long env fullpath name).getLast? = some Ev.newline
          ∧ shownNames (print_long env fullpath name) = [name])
    ∧ stdout (long_loop env path names)
        = ((names.filter fun nm => (env.lstat (full_path path nm)).isSome).map
            fun nm => stdout (print_long env (full_path path nm) nm)).flatten
    ∧ (∀ (stream : List CStr) (fuel : Nat), env.opendir path = some stream →
        stdout (do_ls (fuel + 1) env path 1 false).out
          = path ++ ":\n".toList
            ++ (((sort_names (collect stream [] 0).1).filter fun nm =>
                  (env.lstat (full_path path nm)).isSome).map
                fun nm => stdout (print_long env (full_path path nm) nm)).flatten) := by
  refine ⟨?_, ?_, stdout_long_loop env path names, ?_⟩
  · intro fullpath name h
    rw [print_long_none env fullpath name h]
    exact ⟨rfl, rfl⟩
  · intro fullpath name h
    obtain ⟨st, hst⟩ := Option.isSome_iff_exists.1 h
    refine ⟨?_, ?_, ?_⟩
    · rw [print_long_some env fullpath name st hst, List.count_append, List.count_append,
        arrow_part_count]
      rfl
    · rw [print_long_some env fullpath name st hst]
      exact List.getLast?_concat _
    · rw [shownNames_print_long, h]
      rfl
  · intro stream fuel h
    have hl : display env path 1 (sort_names (collect stream [] 0).1) (collect stream [] 0).2
        = some (long_loop env path (sort_names (collect stream [] 0).1)) := by
      simp [display]
    rw [do_ls_flat env path stream 1 fuel h _ hl]
    have : stdout (Ev.header path :: long_loop env path (sort_names (collect stream [] 0).1))
        = path ++ ":\n".toList ++ stdout (long_loop env path (sort_names (collect stream [] 0).1)) := by
      simp [stdout, Ev.render]
    rw [this, stdout_long_loop]

theorem long_mode_best_effort_witness :
    (print_long scenario "d/ghost".toList "ghost".toList = [Ev.perror "d/ghost".toList]
      ∧ stdout (print_long scenario "d/ghost".toList "ghost".toList) = [])
    ∧ ((print_long scenario "d/a.txt".toList "a.txt".toList).count Ev.newline = 1
      ∧ (print_long scenario "d/a.txt".toList "a.txt".toList).getLast? = some Ev.newline
      ∧ shownNames (print_long scenario "d/a.txt".toList "a.txt".toList) = ["a.txt".toList])
    ∧ stdout (do_ls (0 + 1) scenario "d".toList 1 false).out
        = "d".toList ++ ":\n".toList
          ++ (((sort_names (collect [".".toList, "b.txt".toList, "..".toList, "a.txt".toList,
                  ".cfg".toList, "sub".toList] [] 0).1).filter fun nm =>
                (scenario.lstat (full_path "d".toList nm)).isSome).map
              fun nm => stdout (print_long scenario (full_path "d".toList nm) nm)).flatten :=
  ⟨(long_mode_best_effort scenario "d".toList []).1 "d/ghost".toList "ghost".toList
      (by decide),
    (long_mode_best_effort scenario "d".toList []).2.1 "d/a.txt".toList "a.txt".toList
      (by decide),
    (long_mode_best_effort scenario "d".toList []).2.2.2 _ 0 rfl⟩

/-- C15: in `print_long`, for an entry whose metadata is available, the name
is followed by ` -> <target>` exactly when the entry is a symbolic link and
reading the link succeeds, `<target>` being the link value as read (a link
value is shorter than `PATH_MAX`, the buffer it is read into); for any other
entry the line ends right after the colour-wrapped name. -/
theorem print_long_arrow (env : Env) (fullpath name : CStr) (st : Stat)
    (h : env.lstat fullpath = some st) :
    (∀ target : CStr, S_ISLNK st.st_mode = true → env.readlink fullpath = some target →
        target.length < PATH_MAX →
        print_long env fullpath name
            = [long_fields env st, Ev.name (color_for_file env fullpath name) name,
                Ev.arrow target, Ev.newline]
          ∧ stdout (print_long env fullpath name)
              = (long_fields env st).render
                ++ (color_for_file env fullpath name ++ name ++ COLOR_RESET)
                ++ (" -> ".toList ++ target) ++ ['\n'])
    ∧ (S_ISLNK st.st_mode = false ∨ env.readlink fullpath = none →
        print_long env fullpath name
            = [long_fields env st, Ev.name (color_for_file env fullpath name) name, Ev.newline]
          ∧ stdout (print_long env fullpath name)
              = (long_fields env st).render
                ++ (color_for_file env fullpath name ++ name ++ COLOR_RESET) ++ ['\n'])
    ∧ ((∃ t, Ev.arrow t ∈ print_long env fullpath name)
        ↔ S_ISLNK st.st_mode = true ∧ (env.readlink fullpath).isSome = true) := by
  refine ⟨?_, ?_, ?_⟩
  · intro target hl hr hlen
    have ht : target.take (PATH_MAX - 1) = target :=
      List.take_of_length_le (by omega)
    have hp : print_long env fullpath name
        = [long_fields env st, Ev.name (color_for_file env fullpath name) name,
            Ev.arrow target, Ev.newline] := by
      rw [print_long_some env fullpath name st h, hl, hr]
      simp only [if_true, ht]
      rfl
    refine ⟨hp, ?_⟩
    rw [hp]
    simp [stdout, Ev.render]
  · intro hcase
    have hp : print_long env fullpath name
        = [long_fields env st, Ev.name (color_for_file env fullpath name) name,
            Ev.newline] := by
      rw [print_long_some env fullpath name st h]
      rcases hcase with hl | hr
      · rw [hl]; rfl
      · rw [hr]; split_ifs <;> rfl
    refine ⟨hp, ?_⟩
    rw [hp]
    simp [stdout, Ev.render]
  · rw [print_long_some env fullpath name st h]
    cases hl : S_ISLNK st.st_mode <;> cases hr : env.readlink fullpath <;>
      simp [long_fields]

theorem print_long_arrow_witness :
    (print_long looped "d/up".toList "up".toList
        = [long_fields looped sample_link,
            Ev.name (color_for_file looped "d/up".toList "up".toList) "up".toList,
            Ev.arrow "..".toList, Ev.newline]
      ∧ stdout (print_long looped "d/up".toList "up".toList)
          = (long_fields looped sample_link).render
            ++ (color_for_file looped "d/up".toList "up".toList ++ "up".toList ++ COLOR_RESET)
            ++ (" -> ".toList ++ "..".toList) ++ ['\n'])
    ∧ (print_long looped "d/a.txt".toList "a.txt".toList
        = [long_fields looped sample_file,
            Ev.name (color_for_file looped "d/a.txt".toList "a.txt".toList) "a.txt".toList,
            Ev.newline]
      ∧ stdout (print_long looped "d/a.txt".toList "a.txt".toList)
          = (long_fields looped sample_file).render
            ++ (color_for_file looped "d/a.txt".toList "a.txt".toList ++ "a.txt".toList
              ++ COLOR_RESET) ++ ['\n']) :=
  ⟨(print_long_arrow looped "d/up".toList "up".toList sample_link (by decide)).1 "..".toList
      (by decide) (by decide) (by decide),
    (print_long_arrow looped "d/a.txt".toList "a.txt".toList sample_file (by decide)).2.1
      (Or.inl (by decide))⟩

/-- The walk of a tree with a symbolic link to an ancestor returns, and no
header is written for the link. -/
theorem symlink_to_ancestor_not_followed :
    (do_ls 2 looped "d".toList 0 true).done = true
    ∧ Ev.header "d/up".toList ∉ (do_ls 2 looped "d".toList 0 true).out
    ∧ stdout (do_ls 2 looped "d".toList 0 true).out
        = "d:\n\x1b[0ma.txt  \x1b[0m\x1b[0;35mup     \x1b[0m\n".toList := by
  decide

/-! ## The column computation -/

theorem print_default_column_count (env : Env) (names : List CStr) (maxlen : Int)
    (basepath : CStr) :
    print_default env names maxlen basepath
      = (column_count env maxlen).bind fun cols =>
          (c_div ((names.length : Int) + cols - 1) cols).bind fun rows =>
            some (forLoop rows fun r =>
              (forLoop cols fun c =>
                if (c : Int) * rows + (r : Int) < (names.length : Int) then
                  print_colored_padded env basepath
                    (names.getD ((c : Int) * rows + (r : Int)).toNat []) (maxlen + 2)
                else [])
              ++ [Ev.newline]) := by
  unfold print_default column_count c_div
  by_cases h : maxlen + 2 = 0
  · simp [h]
  · simp [h]

/-- C16, as amended: whenever the column width `maxlen + 2` is not zero (as
for every `maxlen` that `do_ls` computes, which is never negative, and also for
a negative column width), the column computation of `print_default` divides by
a non-zero number, yields a column count of at least 1, and `print_default`
returns. -/
theorem column_count_clamped (env : Env) (names : List CStr) (maxlen : Int) (basepath : CStr)
    (hm : maxlen + 2 ≠ 0) :
    (∃ cols, column_count env maxlen = some cols ∧ 1 ≤ cols)
    ∧ (∃ out, print_default env names maxlen basepath = some out)
    ∧ (∀ stream : List CStr, (collect stream [] 0).2 + 2 ≠ 0) := by
  have hc : column_count env maxlen
      = some (if (term_width env).tdiv (maxlen + 2) < 1 then 1
          else (term_width env).tdiv (maxlen + 2)) := by
    simp [column_count, c_div, hm]
  have h1 : (1 : Int) ≤ (if (term_width env).tdiv (maxlen + 2) < 1 then 1
      else (term_width env).tdiv (maxlen + 2)) := by
    split_ifs <;> omega
  refine ⟨⟨_, hc, h1⟩, ?_, ?_⟩
  · rw [print_default_column_count, hc]
    simp only [Option.some_bind, c_div]
    rw [if_neg (by omega)]
    exact ⟨_, rfl⟩
  · intro stream
    have := collect_maxlen_nonneg stream [] 0 (le_refl 0)
    omega

theorem column_count_clamped_witness :
    (∃ cols, column_count scenario (-5) = some cols ∧ 1 ≤ cols)
    ∧ (∃ out, print_default scenario ["a.txt".toList] (-5) "d".toList = some out)
    ∧ (∀ stream : List CStr, (collect stream [] 0).2 + 2 ≠ 0) :=
  column_count_clamped scenario ["a.txt".toList] (-5) "d".toList (by decide)

/-- C16, counterexample: for `maxlen = -2` the column width is zero and the
quotient `term_width / col_width` is taken before the clamp. -/
theorem column_count_divides_by_zero :
    column_count scenario (-2) = none
    ∧ print_default scenario ["a.txt".toList] (-2) "d".toList = none := by
  decide

/-! ## The entry buffer -/

/-- C17: the entry buffer never overflows.  Whatever `readdir` yields, `do_ls`
stores at most 4096 names, namely the first 4096 entries that do not begin
with `.`, in read order; the sorted list is a rearrangement of them and no
other name is listed. -/
theorem collect_capacity (stream : List CStr) :
    NAMES_CAP = 4096
    ∧ (collect stream [] 0).1.length ≤ NAMES_CAP
    ∧ (collect stream [] 0).1
        = (stream.filter fun d => decide (d.head? ≠ some '.')).take NAMES_CAP
    ∧ (sort_names (collect stream [] 0).1).Perm
        ((stream.filter fun d => decide (d.head? ≠ some '.')).take NAMES_CAP)
    ∧ (∀ (env : Env) (path : CStr) (display_mode : Int) (fuel : Nat),
        env.opendir path = some stream →
        ∀ nm ∈ shownNames (do_ls (fuel + 1) env path display_mode false).out,
          nm ∈ (stream.filter fun d => decide (d.head? ≠ some '.')).take NAMES_CAP) := by
  have h := collect_fst stream [] 0 (by decide)
  rw [List.nil_append] at h
  refine ⟨rfl, ?_, h, ?_, ?_⟩
  · rw [h, List.length_take]
    exact Nat.min_le_left _ _
  · rw [← h]
    exact sort_names_perm _
  · intro env path display_mode fuel ho nm hnm
    have hm := collect_maxlen_nonneg stream [] 0 (le_refl 0)
    obtain ⟨listing, hl⟩ := display_isSome env path display_mode
      (sort_names (collect stream [] 0).1) _ hm
    rw [do_ls_flat env path stream display_mode fuel ho listing hl] at hnm
    have hnm' : nm ∈ shownNames listing := hnm
    have := shownNames_display_subset env path display_mode _ _ hm listing hl nm hnm'
    rw [← h]
    exact (sort_names_perm _).mem_iff.1 this

theorem collect_capacity_witness :
    "sub".toList ∈ ([".".toList, "b.txt".toList, "..".toList, "a.txt".toList, ".cfg".toList,
        "sub".toList].filter fun d => decide (d.head? ≠ some '.')).take NAMES_CAP :=
  (collect_capacity [".".toList, "b.txt".toList, "..".toList, "a.txt".toList, ".cfg".toList,
    "sub".toList]).2.2.2.2 scenario "d".toList 0 0 rfl "sub".toList (by decide)

/-! ## The horizontal listing as a whole -/

theorem lines_eq_nil (t : List Ev) (h : lines t = []) : t = [] := by
  cases t with
  | nil => rfl
  | cons e es => exact absurd h (lines_ne_nil e es)

theorem flatten_lines_cons (e : Ev) (he : e.endsLine = false) (es : List Ev) :
    (lines (e :: es)).flatten = e :: (lines es).flatten := by
  cases hl : lines es with
  | nil =>
    rw [lines_eq_nil es hl, lines, if_neg (by simp [he])]
    rfl
  | cons l ls =>
    rw [lines_cons_of_lines_cons e he _ _ _ hl]
    rfl

theorem flatten_lines (t : List Ev) : (lines t).flatten = t.filter notNewline := by
  induction t with
  | nil => rfl
  | cons e es ih =>
    by_cases he : e.endsLine = true
    · cases e with
      | newline =>
        rw [lines_cons_newline, List.flatten_cons, List.nil_append, ih,
          List.filter_cons_of_neg (by decide)]
      | header p =>
        rw [lines_header, List.flatten_cons, ih, List.filter_cons_of_pos (by rfl)]
        rfl
      | cell c nm pad => cases he
      | fields a b c d e f => cases he
      | name c nm => cases he
      | arrow t => cases he
      | perror s => cases he
    · have he' : e.endsLine = false := by simpa using he
      have hn : notNewline e = true := by
        unfold notNewline
        rw [decide_eq_true_iff]
        rintro rfl
        exact he rfl
      rw [flatten_lines_cons e he', ih, List.filter_cons_of_pos hn]

theorem horizontal_loop_cells (env : Env) (basepath : CStr) (cw w : Int) (names : List CStr)
    (cur : Int) :
    (horizontal_loop env basepath cw w names cur).filter notNewline
      = names.map (gridCell env basepath cw) := by
  induction names generalizing cur with
  | nil => rfl
  | cons x rest ih =>
    have hc : notNewline (gridCell env basepath cw x) = true := rfl
    rw [horizontal_loop_cons]
    split_ifs
    · rw [List.filter_cons_of_neg (by decide), List.filter_cons_of_pos hc, ih, List.map_cons]
    · rw [List.filter_cons_of_pos hc, ih, List.map_cons]

/-- C18: for every name list, also the empty one, the trace of
`print_horizontal` and its rendering end with a newline, and the cells it
writes, read line by line from left to right, are the cells of the names in
input order, each once. -/
theorem print_horizontal_closed (env : Env) (names : List CStr) (maxlen : Int)
    (basepath : CStr) :
    (print_horizontal env names maxlen basepath).getLast? = some Ev.newline
    ∧ (stdout (print_horizontal env names maxlen basepath)).getLast? = some '\n'
    ∧ shownNames (print_horizontal env names maxlen basepath) = names
    ∧ (lines (print_horizontal env names maxlen basepath)).flatten
        = names.map (gridCell env basepath (columnWidth maxlen)) := by
  refine ⟨?_, ?_, shownNames_print_horizontal env names maxlen basepath, ?_⟩
  · rw [print_horizontal]
    exact List.getLast?_concat _
  · rw [print_horizontal, stdout_append]
    exact List.getLast?_concat _
  · rw [flatten_lines, print_horizontal, List.filter_append, horizontal_loop_cells]
    exact List.append_nil _

/-! ## Rows fit the terminal -/

theorem filterMap_range_prefix {β : Type} (f : Nat → Option β) (m k : Nat) (hmk : m ≤ k)
    (h : ∀ col, m ≤ col → col < k → f col = none) :
    (List.range k).filterMap f = (List.range m).filterMap f := by
  obtain ⟨d, rfl⟩ := Nat.exists_eq_add_of_le hmk
  rw [List.range_add, List.filterMap_append]
  have : ((List.range d).map (m + ·)).filterMap f = [] := by
    rw [List.filterMap_eq_nil_iff]
    intro x hx
    obtain ⟨j, hj, rfl⟩ := List.mem_map.1 hx
    exact h _ (Nat.le_add_right _ _) (by have := List.mem_range.1 hj; omega)
  rw [this, List.append_nil]

theorem length_filterMap_of_isSome {α β : Type} (f : α → Option β) (l : List α)
    (h : ∀ x ∈ l, (f x).isSome = true) : (l.filterMap f).length = l.length := by
  induction l with
  | nil => rfl
  | cons x xs ih =>
    obtain ⟨y, hy⟩ := Option.isSome_iff_exists.1 (h x (List.mem_cons_self _ _))
    rw [List.filterMap_cons, hy]
    simp only [List.length_cons]
    rw [ih fun z hz => h z (List.mem_cons_of_mem _ hz)]

theorem visibleWidth_const (line : List Ev) (c : Nat) (h : ∀ e ∈ line, e.visible = c) :
    visibleWidth line = line.length * c := by
  induction line with
  | nil => simp [visibleWidth]
  | cons e es ih =>
    have he := h e (List.mem_cons_self _ _)
    have ih' := ih fun x hx => h x (List.mem_cons_of_mem _ hx)
    unfold visibleWidth at *
    rw [List.map_cons, List.sum_cons, ih', he, List.length_cons, Nat.add_mul, Nat.one_mul,
      Nat.add_comm]

theorem filled_iff (n r row col : Nat) (hr : 0 < r) (hrow : row < n) :
    col * r + row < n ↔ col < (n - row + r - 1) / r := by
  rw [Nat.lt_iff_add_one_le (m := col), Nat.le_div_iff_mul_le hr, Nat.add_mul]
  generalize col * r = p
  omega

theorem rowCount_le (n k : Nat) (hk : 1 ≤ k) : rowCount n k ≤ n := by
  rw [rowCount_eq n k hk]
  rcases Nat.eq_zero_or_pos n with h0 | h0
  · subst h0
    rw [Nat.div_eq_of_lt (by omega)]
  · apply Nat.div_le_of_le_mul
    obtain ⟨k', rfl⟩ := Nat.exists_eq_add_of_le hk
    have h2 : k' * 1 ≤ k' * n := Nat.mul_le_mul_left k' h0
    rw [Nat.add_mul]
    omega

theorem columns_mul_le (w cw : Int) (hcw : 0 < cw) (hfit : cw ≤ w) :
    (columnCount w cw : Int) * cw ≤ w := by
  have h1 : 1 ≤ w / cw := Int.le_ediv_of_mul_le hcw (by omega)
  unfold columnCount
  rw [max_eq_right h1, Int.toNat_of_nonneg (by omega)]
  exact Int.ediv_mul_le w (by omega)

theorem visible_gridCell (env : Env) (basepath nm : CStr) (cw : Int) (hcw : 0 ≤ cw)
    (h : (nm.length : Int) ≤ cw) : ((gridCell env basepath cw nm).visible : Int) = cw := by
  have h1 : nm.length ≤ cw.natAbs := by omega
  simp only [gridCell, Ev.visible, padRight, List.length_append, List.length_replicate]
  omega

theorem rows_fit_of_nonneg (env : Env) (names : List CStr) (maxlen : Int)
    (basepath : CStr) (hm : 0 ≤ maxlen) (hlen : ∀ nm ∈ names, (nm.length : Int) ≤ maxlen)
    (hfit : columnWidth maxlen ≤ term_width env) :
    ∃ out, print_default env names maxlen basepath = some out
      ∧ (lines out).length = gridRows env names.length maxlen
      ∧ ∀ row, row < gridRows env names.length maxlen →
          ∃ m, 1 ≤ m ∧ m ≤ gridColumns env maxlen
            ∧ (∀ col, col < gridColumns env maxlen →
                (col * gridRows env names.length maxlen + row < names.length ↔ col < m))
            ∧ (lines out)[row]?
                = some (gridRow env basepath names (columnWidth maxlen) m
                    (gridRows env names.length maxlen) row)
            ∧ (gridRow env basepath names (columnWidth maxlen) m
                (gridRows env names.length maxlen) row).length = m
            ∧ (visibleWidth (gridRow env basepath names (columnWidth maxlen) m
                (gridRows env names.length maxlen) row) : Int) = (m : Int) * columnWidth maxlen
            ∧ (m : Int) * columnWidth maxlen ≤ term_width env := by
  have hk1 : 1 ≤ gridColumns env maxlen := one_le_columnCount _ _
  have hcw : 0 < columnWidth maxlen := by unfold columnWidth; omega
  have hkw := columns_mul_le (term_width env) (columnWidth maxlen) hcw hfit
  have hlines : lines (((List.range (gridRows env names.length maxlen)).map
      (gridRow env basepath names (columnWidth maxlen) (gridColumns env maxlen)
        (gridRows env names.length maxlen))).flatMap fun row => row ++ [Ev.newline])
      = (List.range (gridRows env names.length maxlen)).map
          (gridRow env basepath names (columnWidth maxlen) (gridColumns env maxlen)
            (gridRows env names.length maxlen)) := by
    apply lines_rows
    intro row hrow
    obtain ⟨i, _, rfl⟩ := List.mem_map.1 hrow
    exact gridRow_endsLine _ _ _ _ _ _ _
  refine ⟨_, print_default_eq env names maxlen basepath hm, ?_, ?_⟩
  · show (lines (((List.range (gridRows env names.length maxlen)).map
      (gridRow env basepath names (columnWidth maxlen) (gridColumns env maxlen)
        (gridRows env names.length maxlen))).flatMap fun row => row ++ [Ev.newline])).length = _
    rw [hlines, List.length_map, List.length_range]
  · intro row hrow
    have hrn : row < names.length :=
      lt_of_lt_of_le hrow (rowCount_le names.length _ hk1)
    have hr0 : 0 < gridRows env names.length maxlen := by omega
    set r := gridRows env names.length maxlen with hr
    set k := gridColumns env maxlen with hkdef
    have hq : 1 ≤ (names.length - row + r - 1) / r := by
      rw [Nat.le_div_iff_mul_le hr0]; omega
    have hfill : ∀ col, col < k →
        (col * r + row < names.length ↔ col < min k ((names.length - row + r - 1) / r)) := by
      intro col hcol
      rw [filled_iff names.length r row col hr0 hrn]
      omega
    refine ⟨min k ((names.length - row + r - 1) / r), by omega, Nat.min_le_left _ _, hfill,
      ?_, ?_, ?_, ?_⟩
    · show (lines (((List.range r).map (gridRow env basepath names (columnWidth maxlen) k
        r)).flatMap fun row => row ++ [Ev.newline]))[row]? = _
      rw [hlines, List.getElem?_map, List.getElem?_range hrow, Option.map_some']
      congr 1
      unfold gridRow
      apply filterMap_range_prefix _ _ _ (Nat.min_le_left _ _)
      intro col h1 h2
      have : ¬ col * r + row < names.length := fun h => by
        have := (hfill col h2).1 h; omega
      rw [List.getElem?_eq_none (by omega)]
      rfl
    · unfold gridRow
      rw [length_filterMap_of_isSome, List.length_range]
      intro col hcol
      have h1 := List.mem_range.1 hcol
      have h2 := (hfill col (by omega)).2 h1
      rw [List.getElem?_eq_getElem h2]
      rfl
    · have hlenrow : (gridRow env basepath names (columnWidth maxlen)
          (min k ((names.length - row + r - 1) / r)) r row).length
          = min k ((names.length - row + r - 1) / r) := by
        unfold gridRow
        rw [length_filterMap_of_isSome, List.length_range]
        intro col hcol
        have h1 := List.mem_range.1 hcol
        have h2 := (hfill col (by omega)).2 h1
        rw [List.getElem?_eq_getElem h2]
        rfl
      rw [visibleWidth_const _ (columnWidth maxlen).toNat, hlenrow]
      · push_cast
        rw [Int.toNat_of_nonneg (by omega)]
      · intro e he
        simp only [gridRow, List.mem_filterMap, Option.map_eq_some'] at he
        obtain ⟨col, _, nm, hnm, rfl⟩ := he
        have hmem : nm ∈ names := List.getElem?_mem hnm
        have := visible_gridCell env basepath nm (columnWidth maxlen) (by omega)
          (by have := hlen nm hmem; unfold columnWidth; omega)
        omega
    · have : ((min k ((names.length - row + r - 1) / r) : Nat) : Int) ≤ (k : Int) := by
        exact_mod_cast Nat.min_le_left _ _
      calc ((min k ((names.length - row + r - 1) / r) : Nat) : Int) * columnWidth maxlen
          ≤ (k : Int) * columnWidth maxlen := Int.mul_le_mul_of_nonneg_right this (by omega)
        _ ≤ term_width env := hkw

theorem print_default_nil (env : Env) (maxlen : Int) (basepath : CStr) (out : List Ev)
    (h : print_default env [] maxlen basepath = some out) : out = [] := by
  rw [print_default_column_count] at h
  cases hc : column_count env maxlen with
  | none => rw [hc] at h; cases h
  | some cols =>
    have hcols : 1 ≤ cols := by
      by_cases h0 : maxlen + 2 = 0
      · simp [column_count, c_div, h0] at hc
      · simp only [column_count, c_div, h0, if_false, Option.bind_eq_bind, Option.some_bind,
          Option.pure_def, Option.some.injEq] at hc
        rw [← hc]
        split_ifs <;> omega
    have hrows : c_div (((([] : List CStr).length : Nat) : Int) + cols - 1) cols = some 0 := by
      rw [c_div, if_neg (by omega), List.length_nil, Int.tdiv_eq_ediv (by simp; omega) (by omega)]
      exact congrArg some (Int.ediv_eq_zero_of_lt (by simp; omega) (by simp))
    rw [hc, Option.some_bind, hrows, Option.some_bind] at h
    injection h with h
    rw [← h]
    rfl

/-- C20: every row of the down-then-across grid fits the terminal.  When no
name is longer than `maxlen` and the column width `maxlen + 2` is at most the
terminal width, `print_default` returns for every non-empty name list, and
every row it writes holds `m >= 1` cells, which are the cells of its first `m`
columns (the later columns of the row are blank), and its visible width, `m`
columns of `maxlen + 2` characters, is at most the terminal width. -/
theorem print_default_rows_fit (env : Env) (names : List CStr) (maxlen : Int)
    (basepath : CStr) (hlen : ∀ nm ∈ names, (nm.length : Int) ≤ maxlen)
    (hfit : columnWidth maxlen ≤ term_width env) :
    (names ≠ [] → ∃ out, print_default env names maxlen basepath = some out)
    ∧ ∀ out, print_default env names maxlen basepath = some out →
      (lines out).length = gridRows env names.length maxlen
      ∧ ∀ row, row < gridRows env names.length maxlen →
          ∃ m, 1 ≤ m ∧ m ≤ gridColumns env maxlen
            ∧ (∀ col, col < gridColumns env maxlen →
                (col * gridRows env names.length maxlen + row < names.length ↔ col < m))
            ∧ (lines out)[row]?
                = some (gridRow env basepath names (columnWidth maxlen) m
                    (gridRows env names.length maxlen) row)
            ∧ (gridRow env basepath names (columnWidth maxlen) m
                (gridRows env names.length maxlen) row).length = m
            ∧ (visibleWidth (gridRow env basepath names (columnWidth maxlen) m
                (gridRows env names.length maxlen) row) : Int) = (m : Int) * columnWidth maxlen
            ∧ (m : Int) * columnWidth maxlen ≤ term_width env := by
  cases names with
  | nil =>
    refine ⟨fun h => absurd rfl h, ?_⟩
    intro out hout
    have h0 : gridRows env ([] : List CStr).length maxlen = 0 := by
      have hk : 1 ≤ gridColumns env maxlen := one_le_columnCount _ _
      rw [gridRows, rowCount_eq _ _ hk, List.length_nil, Nat.div_eq_of_lt (by omega)]
    rw [print_default_nil env maxlen basepath out hout, h0]
    exact ⟨rfl, fun row hrow => absurd hrow (Nat.not_lt_zero row)⟩
  | cons x xs =>
    have hm : 0 ≤ maxlen := by
      have := hlen x (List.mem_cons_self _ _)
      omega
    obtain ⟨out, hout, hrest⟩ := rows_fit_of_nonneg env (x :: xs) maxlen basepath hm hlen hfit
    refine ⟨fun _ => ⟨out, hout⟩, ?_⟩
    intro out2 hout2
    rw [hout] at hout2
    injection hout2 with hout2
    rw [← hout2]
    exact hrest

theorem print_default_rows_fit_witness :
    (∃ out, print_default scenario ["a.txt".toList, "b.txt".toList, "sub".toList] 5
        "d".toList = some out)
    ∧ ∀ out, print_default scenario ["a.txt".toList, "b.txt".toList, "sub".toList] 5
        "d".toList = some out →
      (lines out).length = gridRows scenario 3 5
      ∧ ∀ row, row < gridRows scenario 3 5 →
          ∃ m, 1 ≤ m ∧ m ≤ gridColumns scenario 5
            ∧ (∀ col, col < gridColumns scenario 5 →
                (col * gridRows scenario 3 5 + row < 3 ↔ col < m))
            ∧ (lines out)[row]?
                = some (gridRow scenario "d".toList
                    ["a.txt".toList, "b.txt".toList, "sub".toList] (columnWidth 5) m
                    (gridRows scenario 3 5) row)
            ∧ (gridRow scenario "d".toList ["a.txt".toList, "b.txt".toList, "sub".toList]
                (columnWidth 5) m (gridRows scenario 3 5) row).length = m
            ∧ (visibleWidth (gridRow scenario "d".toList
                ["a.txt".toList, "b.txt".toList, "sub".toList] (columnWidth 5) m
                (gridRows scenario 3 5) row) : Int) = (m : Int) * columnWidth 5
            ∧ (m : Int) * columnWidth 5 ≤ term_width scenario :=
  ⟨(print_default_rows_fit scenario ["a.txt".toList, "b.txt".toList, "sub".toList] 5
      "d".toList (by decide) (by decide)).1 (by decide),
    (print_default_rows_fit scenario ["a.txt".toList, "b.txt".toList, "sub".toList] 5
      "d".toList (by decide) (by decide)).2⟩

/-! ## The archive suffixes -/

theorem has_suffix_tar_gz (name : CStr) (h : has_suffix name ".tar.gz".toList = true) :
    has_suffix name ".gz".toList = true := by
  rw [has_suffix_iff] at h ⊢
  unfold endsWithNoCase at h ⊢
  have h0 : foldCase ".gz".toList <:+ foldCase ".tar.gz".toList := by decide
  exact h0.trans h

theorem has_suffix_spec (name suf : CStr) :
    has_suffix name suf = true
      ↔ suf.length ≤ name.length
        ∧ foldCase (name.drop (name.length - suf.length)) = foldCase suf := by
  unfold has_suffix
  by_cases hlt : name.length < suf.length
  · simp only [hlt, if_true]
    constructor
    · intro h; cases h
    · rintro ⟨h, _⟩; omega
  · simp only [hlt, if_false, beq_iff_eq, strncasecmp_eq_zero]
    have h1 : (List.drop (name.length - suf.length) name).take suf.length
        = List.drop (name.length - suf.length) name := by
      apply List.take_of_length_le
      simp; omega
    rw [h1, List.take_of_length_le (le_refl _)]
    constructor
    · intro h; exact ⟨by omega, h⟩
    · rintro ⟨_, h⟩; exact h

/-- C23: the test for `.tar.gz` is redundant.  A name that `has_suffix` accepts
for `.tar.gz` is accepted for `.gz`, so `color_for_file` returns the same
colour with the `.tar.gz` test taken out, whatever the name and the metadata;
and `has_suffix name suf` holds exactly when the name is at least as long as
the suffix and its last `len(suf)` bytes equal the suffix after ASCII case
folding. -/
theorem tar_gz_redundant :
    (∀ name : CStr, has_suffix name ".tar.gz".toList = true →
      has_suffix name ".gz".toList = true)
    ∧ (∀ (env : Env) (fullpath name : CStr),
        color_for_file env fullpath name = color_for_file_without_tar_gz env fullpath name)
    ∧ (∀ name suf : CStr,
        has_suffix name suf = true
          ↔ suf.length ≤ name.length
            ∧ (name.drop (name.length - suf.length)).map tolower = suf.map tolower) := by
  refine ⟨has_suffix_tar_gz, ?_, has_suffix_spec⟩
  intro env fullpath name
  unfold color_for_file color_for_file_without_tar_gz
  cases env.lstat fullpath with
  | none => rfl
  | some st =>
    simp only
    cases h1 : has_suffix name ".tar.gz".toList with
    | false => simp only [Bool.or_false, Bool.false_or]
    | true =>
      have h2 := has_suffix_tar_gz name h1
      simp only [h2, Bool.or_true, Bool.true_or]

theorem tar_gz_redundant_witness :
    has_suffix "Backup.TAR.GZ".toList ".gz".toList = true
    ∧ (3 ≤ 6 ∧ ("a.b.GZ".toList.drop (6 - 3)).map tolower = ".gz".toList.map tolower) :=
  ⟨tar_gz_redundant.1 "Backup.TAR.GZ".toList (by decide),
    (tar_gz_redundant.2.2 "a.b.GZ".toList ".gz".toList).1 (by decide)⟩

/-! ## Line breaks of the horizontal layout -/

theorem horizontal_loop_narrow_eq (env : Env) (basepath : CStr) (cw w : Int) (hw : 0 ≤ w)
    (hcw : w < cw) (names : List CStr) (cur : Int) (hcur : 0 ≤ cur) :
    horizontal_loop env basepath cw w names cur
      = names.flatMap fun nm => [Ev.newline, gridCell env basepath cw nm] := by
  induction names generalizing cur with
  | nil => rfl
  | cons x rest ih =>
    rw [horizontal_loop_cons, if_pos (by omega), ih (0 + cw) (by omega), List.flatMap_cons]
    rfl

theorem count_newline_narrow (env : Env) (basepath : CStr) (cw : Int) (names : List CStr) :
    (names.flatMap fun nm => [Ev.newline, gridCell env basepath cw nm]).count Ev.newline
      = names.length := by
  induction names with
  | nil => rfl
  | cons x rest ih =>
    rw [List.flatMap_cons, List.count_append, ih]
    simp [List.count_cons, gridCell]
    omega

theorem lines_after_cell_nonempty (env : Env) (basepath : CStr) (cw w : Int)
    (names : List CStr) (cur : Int) (e : Ev) (he : e.endsLine = false) :
    ∀ l ∈ lines (e :: (horizontal_loop env basepath cw w names cur ++ [Ev.newline])),
      l ≠ [] := by
  induction names generalizing cur e with
  | nil =>
    intro l hl
    have h0 : lines (e :: (horizontal_loop env basepath cw w [] cur ++ [Ev.newline]))
        = [[e]] := by
      show lines ([e] ++ Ev.newline :: []) = _
      rw [lines_row_append [e] [] (by simpa using he)]
      rfl
    rw [h0] at hl
    rw [List.mem_singleton.1 hl]
    simp
  | cons x rest ih =>
    rw [horizontal_loop_cons]
    have hx : (gridCell env basepath cw x).endsLine = false := rfl
    split_ifs with hwrap
    · intro l hl
      rw [List.cons_append, List.cons_append,
        show e :: Ev.newline :: gridCell env basepath cw x
            :: (horizontal_loop env basepath cw w rest (0 + cw) ++ [Ev.newline])
          = [e] ++ Ev.newline :: (gridCell env basepath cw x
            :: (horizontal_loop env basepath cw w rest (0 + cw) ++ [Ev.newline])) from rfl,
        lines_row_append [e] _ (by simpa using he)] at hl
      rcases List.mem_cons.1 hl with h1 | h1
      · rw [h1]; simp
      · exact ih _ _ hx l h1
    · intro l hl
      rw [List.cons_append] at hl
      have hne := lines_ne_nil (gridCell env basepath cw x)
        (horizontal_loop env basepath cw w rest (cur + cw) ++ [Ev.newline])
      obtain ⟨l0, ls, hls⟩ := List.exists_cons_of_ne_nil hne
      rw [lines_cons_of_lines_cons e he _ _ _ hls] at hl
      have hall := ih (cur + cw) _ hx
      rw [hls] at hall
      rcases List.mem_cons.1 hl with h1 | h1
      · rw [h1]; simp
      · exact hall l (List.mem_cons_of_mem _ h1)

/-! ## Entries per line of the horizontal layout -/

theorem lineCounts_cons_newline (t : List Ev) :
    lineCounts (Ev.newline :: t) = 0 :: lineCounts t := by
  rw [lineCounts, lines_cons_newline]
  rfl

theorem lineCounts_cons_cell (col nm : CStr) (pad : Int) (t : List Ev) (ht : t ≠ []) :
    ∃ c0 rest, lineCounts t = c0 :: rest
      ∧ lineCounts (Ev.cell col nm pad :: t) = (c0 + 1) :: rest := by
  obtain ⟨e, es, rfl⟩ := List.exists_cons_of_ne_nil ht
  obtain ⟨l, ls, hl⟩ := List.exists_cons_of_ne_nil (lines_ne_nil e es)
  refine ⟨(shownNames l).length, ls.map fun l => (shownNames l).length, ?_, ?_⟩
  · rw [lineCounts, hl]; rfl
  · rw [lineCounts, lines_cons_of_lines_cons (Ev.cell col nm pad) rfl _ _ _ hl]
    rfl

theorem horizontal_counts (env : Env) (basepath : CStr) (cw w : Int) (k : Nat) (hk1 : 1 ≤ k)
    (hk : ∀ j : Nat, ((j : Int) * cw + cw > w ↔ k ≤ j)) (names : List CStr) (j : Nat)
    (hj : j ≤ k) :
    filledLines k j
      (lineCounts (horizontal_loop env basepath cw w names ((j : Int) * cw) ++ [Ev.newline])) := by
  induction names generalizing j with
  | nil =>
    refine ⟨0, [], ?_, by omega, fun h => absurd rfl h, ?_, ?_⟩
    · rfl
    · intro c hc; cases hc
    · intro c hc; cases hc
  | cons x rest ih =>
    rw [horizontal_loop_cons]
    by_cases hwrap : (j : Int) * cw + cw > w
    · have hjk : j = k := le_antisymm hj ((hk j).1 hwrap)
      have h1 : (0 : Int) + cw = ((1 : Nat) : Int) * cw := by simp
      rw [if_pos hwrap, h1, List.cons_append, List.cons_append, lineCounts_cons_newline, gridCell]
      obtain ⟨c0, rest0, hc, hlt, hfull, hmid, hall⟩ := ih 1 hk1
      obtain ⟨c1, rest1, hc1, hc2⟩ := lineCounts_cons_cell
        (color_for_file env (full_path basepath x) x) x cw
        (horizontal_loop env basepath cw w rest (((1 : Nat) : Int) * cw) ++ [Ev.newline])
        (by simp)
      rw [hc] at hc1
      injection hc1 with h0 hr
      subst h0 hr
      rw [hc2]
      refine ⟨0, (c0 + 1) :: rest0, rfl, by omega, fun _ => by omega, ?_, ?_⟩
      · intro c hcm
        rcases List.eq_nil_or_concat rest0 with hnil | ⟨init, last, hcat⟩
        · subst hnil; cases hcm
        · have hne : rest0 ≠ [] := by rw [hcat]; simp
          rw [List.dropLast_cons_of_ne_nil hne] at hcm
          rcases List.mem_cons.1 hcm with h | h
          · rw [h]; exact hfull hne
          · exact hmid c h
      · intro c hcm
        rcases List.mem_cons.1 hcm with h | h
        · rw [h]; omega
        · exact hall c h
    · have hjk : j < k := by
        rcases Nat.lt_or_ge j k with h | h
        · exact h
        · exact absurd ((hk j).2 h) hwrap
      have h1 : (j : Int) * cw + cw = ((j + 1 : Nat) : Int) * cw := by push_cast; ring
      rw [if_neg hwrap, h1, List.cons_append, gridCell]
      obtain ⟨c0, rest0, hc, hlt, hfull, hmid, hall⟩ := ih (j + 1) hjk
      obtain ⟨c1, rest1, hc1, hc2⟩ := lineCounts_cons_cell
        (color_for_file env (full_path basepath x) x) x cw
        (horizontal_loop env basepath cw w rest (((j + 1 : Nat) : Int) * cw) ++ [Ev.newline])
        (by simp)
      rw [hc] at hc1
      injection hc1 with h0 hr
      subst h0 hr
      rw [hc2]
      exact ⟨c0 + 1, rest0, rfl, by omega, fun h => by have := hfull h; omega, hmid, hall⟩

theorem wrap_iff (w cw : Int) (hcw : 0 < cw) (hfit : cw ≤ w) (j : Nat) :
    ((j : Int) * cw + cw > w ↔ columnCount w cw ≤ j) := by
  have h1 : 1 ≤ w / cw := Int.le_ediv_of_mul_le hcw (by omega)
  have hk : (columnCount w cw : Int) = w / cw := by
    unfold columnCount
    rw [max_eq_right h1, Int.toNat_of_nonneg (by omega)]
  have h2 : ((j : Int) + 1 ≤ w / cw ↔ ((j : Int) + 1) * cw ≤ w) :=
    Int.le_ediv_iff_mul_le hcw
  have h3 : ((j : Int) + 1) * cw = (j : Int) * cw + cw := by ring
  rw [h3] at h2
  constructor
  · intro h
    have : ¬ ((j : Int) + 1 ≤ w / cw) := fun hh => by have := h2.1 hh; omega
    have : (columnCount w cw : Int) ≤ (j : Int) := by omega
    exact_mod_cast this
  · intro h
    have h4 : (columnCount w cw : Int) ≤ (j : Int) := by exact_mod_cast h
    have : ¬ ((j : Int) + 1 ≤ w / cw) := by omega
    have : ¬ ((j : Int) * cw + cw ≤ w) := fun hh => this (h2.2 hh)
    omega

/-- C21: the two layouts agree on the column count.  When `maxlen >= 0` and the
column width `maxlen + 2` is at most the terminal width `w`, every output line
of `print_horizontal` but the last holds exactly `k = max(1, w / (maxlen + 2))`
entries and the last holds at most `k`; `k` is the column count `print_default`
computes for the same inputs. -/
theorem print_horizontal_line_counts (env : Env) (names : List CStr) (maxlen : Int)
    (basepath : CStr) (hm : 0 ≤ maxlen) (hfit : columnWidth maxlen ≤ term_width env) :
    (∀ c ∈ (lineCounts (print_horizontal env names maxlen basepath)).dropLast,
      c = gridColumns env maxlen)
    ∧ (∀ c ∈ lineCounts (print_horizontal env names maxlen basepath),
        c ≤ gridColumns env maxlen)
    ∧ (gridColumns env maxlen : Int) = max 1 (term_width env / (maxlen + 2))
    ∧ column_count env maxlen = some (gridColumns env maxlen : Int) := by
  have hcw : 0 < columnWidth maxlen := by unfold columnWidth; omega
  have hk1 : 1 ≤ gridColumns env maxlen := one_le_columnCount _ _
  have h1 : 1 ≤ term_width env / columnWidth maxlen :=
    Int.le_ediv_of_mul_le hcw (by omega)
  have hkz : (gridColumns env maxlen : Int) = max 1 (term_width env / (maxlen + 2)) := by
    show ((max 1 (term_width env / columnWidth maxlen)).toNat : Int) = _
    rw [Int.toNat_of_nonneg (by have := le_max_left 1 (term_width env / columnWidth maxlen)
                                omega)]
    rfl
  have hshape := horizontal_counts env basepath (columnWidth maxlen) (term_width env)
    (gridColumns env maxlen) hk1
    (wrap_iff (term_width env) (columnWidth maxlen) hcw hfit) names 0 (Nat.zero_le _)
  have h0 : ((0 : Nat) : Int) * columnWidth maxlen = 0 := by simp
  rw [h0] at hshape
  obtain ⟨c0, rest, hc, hlt, hfull, hmid, hall⟩ := hshape
  have hout : lineCounts (print_horizontal env names maxlen basepath) = c0 :: rest := hc
  refine ⟨?_, ?_, hkz, ?_⟩
  · rw [hout]
    intro c hcm
    rcases List.eq_nil_or_concat rest with hnil | ⟨init, last, hcat⟩
    · subst hnil; cases hcm
    · have hne : rest ≠ [] := by rw [hcat]; simp
      rw [List.dropLast_cons_of_ne_nil hne] at hcm
      rcases List.mem_cons.1 hcm with h | h
      · rw [h]; have := hfull hne; omega
      · exact hmid c h
  · rw [hout]
    intro c hcm
    rcases List.mem_cons.1 hcm with h | h
    · rw [h]; omega
    · exact (hall c h).2
  · have hne : maxlen + 2 ≠ 0 := by omega
    have hdiv : (term_width env).tdiv (maxlen + 2) = term_width env / (maxlen + 2) :=
      Int.tdiv_eq_ediv (by have := term_width_pos env; omega) (by omega)
    have h1' : ¬ term_width env / (maxlen + 2) < 1 := by
      have : term_width env / (maxlen + 2) = term_width env / columnWidth maxlen := rfl
      omega
    simp only [column_count, c_div, hne, if_false, Option.bind_eq_bind, Option.some_bind,
      Option.pure_def, hdiv, h1']
    rw [hkz, max_eq_right (by omega)]

theorem print_horizontal_line_counts_witness :
    (∀ c ∈ (lineCounts (print_horizontal (scenario_on 14)
          ["a.txt".toList, "b.txt".toList, "sub".toList] 5 "d".toList)).dropLast,
      c = gridColumns (scenario_on 14) 5)
    ∧ (∀ c ∈ lineCounts (print_horizontal (scenario_on 14)
          ["a.txt".toList, "b.txt".toList, "sub".toList] 5 "d".toList),
        c ≤ gridColumns (scenario_on 14) 5)
    ∧ (gridColumns (scenario_on 14) 5 : Int) = max 1 (term_width (scenario_on 14) / (5 + 2))
    ∧ column_count (scenario_on 14) 5 = some (gridColumns (scenario_on 14) 5 : Int) :=
  print_horizontal_line_counts (scenario_on 14) ["a.txt".toList, "b.txt".toList, "sub".toList]
    5 "d".toList (by decide) (by decide)

/-! ## The horizontal layout in machine integers -/

theorem wrap_int_eq (x : Int) (h1 : INT_MIN ≤ x) (h2 : x ≤ INT_MAX) : wrap_int x = x := by
  unfold wrap_int
  unfold INT_MIN at h1
  unfold INT_MAX at h2
  omega

theorem horizontal_loop_int_cons (env : Env) (basepath : CStr) (cw w : Int) (nm : CStr)
    (rest : List CStr) (cur : Int) :
    horizontal_loop_int env basepath cw w (nm :: rest) cur
      = if wrap_int (cur + cw) > w then
          Ev.newline :: gridCell env basepath cw nm
            :: horizontal_loop_int env basepath cw w rest (wrap_int (0 + cw))
        else
          gridCell env basepath cw nm
            :: horizontal_loop_int env basepath cw w rest (wrap_int (cur + cw)) := by
  rw [horizontal_loop_int]
  rfl

theorem horizontal_loop_int_eq (env : Env) (basepath : CStr) (cw w : Int) (hcw : 0 ≤ cw)
    (hw : 0 ≤ w) (hint : cw + max w cw ≤ INT_MAX) (names : List CStr) (cur : Int)
    (h0 : 0 ≤ cur) (h1 : cur ≤ max w cw) :
    horizontal_loop_int env basepath cw w names cur
      = horizontal_loop env basepath cw w names cur := by
  have hmin : INT_MIN ≤ 0 := by decide
  have hwm : w ≤ max w cw := le_max_left _ _
  have hcm : cw ≤ max w cw := le_max_right _ _
  induction names generalizing cur with
  | nil => rfl
  | cons x rest ih =>
    rw [horizontal_loop_int_cons, horizontal_loop_cons,
      wrap_int_eq (cur + cw) (by omega) (by omega), wrap_int_eq (0 + cw) (by omega) (by omega)]
    split_ifs with h
    · rw [ih (0 + cw) (by omega) (by omega)]
    · rw [ih (cur + cw) (by omega) (by omega)]

theorem print_horizontal_int_eq (env : Env) (names : List CStr) (maxlen : Int)
    (basepath : CStr) (hcw : 0 ≤ columnWidth maxlen)
    (hint : columnWidth maxlen + max (term_width env) (columnWidth maxlen) ≤ INT_MAX) :
    print_horizontal_int env names maxlen basepath
      = print_horizontal env names maxlen basepath := by
  have hw := term_width_pos env
  have hmin : INT_MIN ≤ 0 := by decide
  have hcm : columnWidth maxlen ≤ max (term_width env) (columnWidth maxlen) := le_max_right _ _
  have hwm : term_width env ≤ max (term_width env) (columnWidth maxlen) := le_max_left _ _
  have hc : wrap_int (maxlen + 2) = columnWidth maxlen :=
    wrap_int_eq (columnWidth maxlen) (by omega) (by omega)
  unfold print_horizontal_int print_horizontal
  simp only [hc]
  rw [horizontal_loop_int_eq env basepath _ _ hcw (by omega) hint names 0 (le_refl 0) (by omega)]
  rfl

theorem startsFrom_cells (cw : Int) (line : List Ev)
    (h : ∀ e ∈ line, (∃ col nm, e = Ev.cell col nm cw) ∧ (e.visible : Int) = cw) (s : Nat) :
    (startsFrom s line).map (fun p => (p.1, (p.2 : Int))) = offsetsFrom (s : Int) line := by
  induction line generalizing s with
  | nil => rfl
  | cons e es ih =>
    obtain ⟨⟨col, nm, rfl⟩, hv⟩ := h _ (List.mem_cons_self _ _)
    rw [startsFrom, offsetsFrom, List.map_cons,
      ih (fun e he => h e (List.mem_cons_of_mem _ he)), Nat.cast_add, hv]

theorem print_horizontal_line_cells (env : Env) (names : List CStr) (maxlen : Int)
    (basepath : CStr) (l : List Ev) (hl : l ∈ lines (print_horizontal env names maxlen basepath))
    (e : Ev) (he : e ∈ l) :
    ∃ nm ∈ names, e = gridCell env basepath (columnWidth maxlen) nm := by
  have hmem : e ∈ (lines (print_horizontal env names maxlen basepath)).flatten :=
    List.mem_flatten.2 ⟨l, hl, he⟩
  rw [flatten_lines, print_horizontal, List.filter_append, horizontal_loop_cells] at hmem
  rcases List.mem_append.1 hmem with h | h
  · obtain ⟨nm, hnm, rfl⟩ := List.mem_map.1 h
    exact ⟨nm, hnm, rfl⟩
  · simp [notNewline] at h

theorem starts_print_horizontal (env : Env) (names : List CStr) (maxlen : Int)
    (basepath : CStr) (hcw : 0 ≤ columnWidth maxlen)
    (hlen : ∀ nm ∈ names, (nm.length : Int) ≤ columnWidth maxlen) :
    (starts (print_horizontal env names maxlen basepath)).map
        (List.map fun p => (p.1, (p.2 : Int)))
      = placements (print_horizontal env names maxlen basepath) := by
  unfold starts placements
  rw [List.map_map]
  apply List.map_congr_left
  intro l hl
  have := startsFrom_cells (columnWidth maxlen) l (fun e he => by
    obtain ⟨nm, hnm, rfl⟩ := print_horizontal_line_cells env names maxlen basepath l hl e he
    exact ⟨⟨_, _, rfl⟩, visible_gridCell env basepath nm _ hcw (hlen nm hnm)⟩) 0
  simpa using this

theorem lines_after_cell_nonempty_int (env : Env) (basepath : CStr) (cw w : Int)
    (names : List CStr) (cur : Int) (e : Ev) (he : e.endsLine = false) :
    ∀ l ∈ lines (e :: (horizontal_loop_int env basepath cw w names cur ++ [Ev.newline])),
      l ≠ [] := by
  induction names generalizing cur e with
  | nil =>
    intro l hl
    have h0 : lines (e :: (horizontal_loop_int env basepath cw w [] cur ++ [Ev.newline]))
        = [[e]] := by
      show lines ([e] ++ Ev.newline :: []) = _
      rw [lines_row_append [e] [] (by simpa using he)]
      rfl
    rw [h0] at hl
    rw [List.mem_singleton.1 hl]
    simp
  | cons x rest ih =>
    rw [horizontal_loop_int_cons]
    have hx : (gridCell env basepath cw x).endsLine = false := rfl
    split_ifs with hwrap
    · intro l hl
      rw [List.cons_append, List.cons_append,
        show e :: Ev.newline :: gridCell env basepath cw x
            :: (horizontal_loop_int env basepath cw w rest (wrap_int (0 + cw)) ++ [Ev.newline])
          = [e] ++ Ev.newline :: (gridCell env basepath cw x
            :: (horizontal_loop_int env basepath cw w rest (wrap_int (0 + cw))
              ++ [Ev.newline])) from rfl,
        lines_row_append [e] _ (by simpa using he)] at hl
      rcases List.mem_cons.1 hl with h1 | h1
      · rw [h1]; simp
      · exact ih _ _ hx l h1
    · intro l hl
      rw [List.cons_append] at hl
      have hne := lines_ne_nil (gridCell env basepath cw x)
        (horizontal_loop_int env basepath cw w rest (wrap_int (cur + cw)) ++ [Ev.newline])
      obtain ⟨l0, ls, hls⟩ := List.exists_cons_of_ne_nil hne
      rw [lines_cons_of_lines_cons e he _ _ _ hls] at hl
      have hall := ih (wrap_int (cur + cw)) _ hx
      rw [hls] at hall
      rcases List.mem_cons.1 hl with h1 | h1
      · rw [h1]; simp
      · exact hall l (List.mem_cons_of_mem _ h1)

theorem cast_pair_injective :
    Function.Injective (fun p : CStr × Nat => (p.1, (p.2 : Int))) := by
  rintro ⟨a, m⟩ ⟨b, n⟩ h
  simp only [Prod.mk.injEq, Nat.cast_inj] at h
  rw [h.1, h.2]

/-- C6, amended: horizontal layout, with the sums of the loop kept in `int`.
For names no longer than the column width `maxlen + 2`, `maxlen >= 0`, and a
column width and terminal width whose sums stay within `INT_MAX`: every entry
is placed, in input order; when the column width fits the terminal, every
entry starts at a column `s` of its line with `s + columnWidth <= w`; when the
column width alone exceeds the terminal width, every entry is placed at
column 0 on a line by itself. -/
theorem print_horizontal_int_starts (env : Env) (names : List CStr) (maxlen : Int)
    (basepath : CStr) (hm : 0 ≤ maxlen)
    (hlen : ∀ nm ∈ names, (nm.length : Int) ≤ columnWidth maxlen)
    (hint : columnWidth maxlen + max (term_width env) (columnWidth maxlen) ≤ INT_MAX) :
    (starts (print_horizontal_int env names maxlen basepath)).flatten.map Prod.fst = names
    ∧ (columnWidth maxlen ≤ term_width env →
        ∀ p ∈ (starts (print_horizontal_int env names maxlen basepath)).flatten,
          (p.2 : Int) + columnWidth maxlen ≤ term_width env)
    ∧ (term_width env < columnWidth maxlen →
        starts (print_horizontal_int env names maxlen basepath)
          = [] :: names.map fun nm => [(nm, 0)]) := by
  have hw := term_width_pos env
  have hcw : 0 ≤ columnWidth maxlen := by unfold columnWidth; omega
  rw [print_horizontal_int_eq env names maxlen basepath hcw hint]
  have hsp := starts_print_horizontal env names maxlen basepath hcw hlen
  have hflat : (placements (print_horizontal env names maxlen basepath)).flatten
      = (starts (print_horizontal env names maxlen basepath)).flatten.map
          fun p => (p.1, (p.2 : Int)) := by
    rw [← hsp, List.map_flatten]
  refine ⟨?_, ?_, ?_⟩
  · have h := horizontal_names env basepath (columnWidth maxlen) (term_width env) names 0
    rw [← placements_eq] at h
    change (placements (print_horizontal env names maxlen basepath)).flatten.map Prod.fst
      = names at h
    rw [hflat, List.map_map] at h
    exact h
  · intro hfit p hp
    have h := horizontal_bound env basepath (columnWidth maxlen) (term_width env) hfit names 0
    rw [← placements_eq] at h
    change ∀ p ∈ (placements (print_horizontal env names maxlen basepath)).flatten, _ at h
    rw [hflat] at h
    exact h _ (List.mem_map_of_mem _ hp)
  · intro hnarrow
    have h := horizontal_narrow env basepath (columnWidth maxlen) (term_width env) (by omega)
      hnarrow names 0 (le_refl 0)
    rw [← placements_eq] at h
    change placements (print_horizontal env names maxlen basepath) = _ at h
    rw [← hsp] at h
    apply (List.map_injective_iff.2 (List.map_injective_iff.2 cast_pair_injective))
    rw [h]
    simp

theorem print_horizontal_int_starts_witness :
    (∀ p ∈ (starts (print_horizontal_int scenario
          ["a.txt".toList, "b.txt".toList, "sub".toList] 5 "d".toList)).flatten,
        (p.2 : Int) + columnWidth 5 ≤ term_width scenario)
    ∧ starts (print_horizontal_int (scenario_on 4)
          ["a.txt".toList, "b.txt".toList, "sub".toList] 5 "d".toList)
        = [] :: ["a.txt".toList, "b.txt".toList, "sub".toList].map fun nm => [(nm, 0)] :=
  ⟨(print_horizontal_int_starts scenario ["a.txt".toList, "b.txt".toList, "sub".toList] 5
      "d".toList (by decide) (by decide) (by decide)).2.1 (by decide),
    (print_horizontal_int_starts (scenario_on 4) ["a.txt".toList, "b.txt".toList, "sub".toList]
      5 "d".toList (by decide) (by decide) (by decide)).2.2 (by decide)⟩

/-- C6 as stated fails twice.  With a name longer than `maxlen` (names
`aaaaaaaaaa` and `b`, `maxlen = 0`, a terminal 4 columns wide) the column width
2 fits the terminal, both entries go on one line, and `b` starts at column 10,
beyond the terminal.  With `maxlen = 2 ^ 30` (two names, 80 columns) the column
width alone exceeds the terminal, yet the second test `current_width +
col_width > term_width` overflows `int` and both entries share a line. -/
theorem print_horizontal_int_misplaces :
    (columnWidth 0 ≤ term_width (scenario_on 4)
      ∧ starts (print_horizontal_int (scenario_on 4) ["aaaaaaaaaa".toList, "b".toList] 0
          "d".toList) = [[("aaaaaaaaaa".toList, 0), ("b".toList, 10)]]
      ∧ ¬ ∀ p ∈ (starts (print_horizontal_int (scenario_on 4)
            ["aaaaaaaaaa".toList, "b".toList] 0 "d".toList)).flatten,
          (p.2 : Int) + columnWidth 0 ≤ term_width (scenario_on 4))
    ∧ (term_width scenario < columnWidth 1073741824
      ∧ lineCounts (print_horizontal_int scenario ["a".toList, "b".toList] 1073741824
          "d".toList) = [0, 2]) := by
  decide

/-- C22, amended: with the sums of the loop kept in `int`, for at least one
name and a `maxlen` whose column width `maxlen + 2` is an `int`.  When the
column width exceeds the terminal width and twice the column width is at most
`INT_MAX`, `print_horizontal` writes a newline before the first entry: its
output starts with an empty line and has `n + 1` newlines for `n` entries.
When the column width is at most the terminal width, no output line is
empty. -/
theorem print_horizontal_int_empty_lines (env : Env) (names : List CStr) (maxlen : Int)
    (basepath : CStr) (hn : names ≠ []) (hmin : INT_MIN ≤ maxlen)
    (hmax : columnWidth maxlen ≤ INT_MAX) :
    (term_width env < columnWidth maxlen → 2 * columnWidth maxlen ≤ INT_MAX →
      (print_horizontal_int env names maxlen basepath).head? = some Ev.newline
      ∧ (stdout (print_horizontal_int env names maxlen basepath)).head? = some '\n'
      ∧ (lines (print_horizontal_int env names maxlen basepath)).head? = some []
      ∧ (print_horizontal_int env names maxlen basepath).count Ev.newline = names.length + 1)
    ∧ (columnWidth maxlen ≤ term_width env →
      (print_horizontal_int env names maxlen basepath).head? ≠ some Ev.newline
      ∧ ∀ l ∈ lines (print_horizontal_int env names maxlen basepath), l ≠ []) := by
  have hw := term_width_pos env
  obtain ⟨x, rest, rfl⟩ := List.exists_cons_of_ne_nil hn
  constructor
  · intro h h2
    have hcw : 0 ≤ columnWidth maxlen := by omega
    have hint : columnWidth maxlen + max (term_width env) (columnWidth maxlen) ≤ INT_MAX := by
      rw [max_eq_right (by omega)]
      omega
    have heq := horizontal_loop_narrow_eq env basepath (columnWidth maxlen) (term_width env)
      (by omega) h (x :: rest) 0 (le_refl 0)
    have hout : print_horizontal_int env (x :: rest) maxlen basepath
        = ((x :: rest).flatMap fun nm =>
            [Ev.newline, gridCell env basepath (columnWidth maxlen) nm]) ++ [Ev.newline] := by
      rw [print_horizontal_int_eq env _ maxlen basepath hcw hint, print_horizontal]
      exact congrArg (· ++ [Ev.newline]) heq
    refine ⟨?_, ?_, ?_, ?_⟩
    · rw [hout]; rfl
    · rw [hout]; rfl
    · rw [hout, List.flatMap_cons]
      simp [lines_cons_newline]
    · rw [hout, List.count_append, count_newline_narrow]
      rfl
  · intro h
    have hlo : INT_MIN ≤ columnWidth maxlen := by
      unfold columnWidth
      omega
    have hc : wrap_int (maxlen + 2) = columnWidth maxlen :=
      wrap_int_eq (columnWidth maxlen) hlo hmax
    have hout : print_horizontal_int env (x :: rest) maxlen basepath
        = gridCell env basepath (columnWidth maxlen) x
          :: (horizontal_loop_int env basepath (columnWidth maxlen) (term_width env) rest
              (wrap_int (0 + columnWidth maxlen)) ++ [Ev.newline]) := by
      unfold print_horizontal_int
      simp only [hc]
      rw [horizontal_loop_int_cons, if_neg (by
        rw [wrap_int_eq (0 + columnWidth maxlen) (by omega) (by omega)]
        omega)]
      rfl
    constructor
    · rw [hout]
      simp [gridCell]
    · rw [hout]
      exact lines_after_cell_nonempty_int env basepath _ _ rest _ _ rfl

theorem print_horizontal_int_empty_lines_witness :
    ((print_horizontal_int (scenario_on 4) ["a.txt".toList, "b.txt".toList] 5 "d".toList).head?
        = some Ev.newline
      ∧ (stdout (print_horizontal_int (scenario_on 4) ["a.txt".toList, "b.txt".toList] 5
          "d".toList)).head? = some '\n'
      ∧ (lines (print_horizontal_int (scenario_on 4) ["a.txt".toList, "b.txt".toList] 5
          "d".toList)).head? = some []
      ∧ (print_horizontal_int (scenario_on 4) ["a.txt".toList, "b.txt".toList] 5
          "d".toList).count Ev.newline = 2 + 1)
    ∧ ((print_horizontal_int scenario ["a.txt".toList, "b.txt".toList] 5 "d".toList).head?
        ≠ some Ev.newline
      ∧ ∀ l ∈ lines (print_horizontal_int scenario ["a.txt".toList, "b.txt".toList] 5
          "d".toList), l ≠ []) :=
  ⟨(print_horizontal_int_empty_lines (scenario_on 4) ["a.txt".toList, "b.txt".toList] 5
      "d".toList (by decide) (by decide) (by decide)).1 (by decide) (by decide),
    (print_horizontal_int_empty_lines scenario ["a.txt".toList, "b.txt".toList] 5 "d".toList
      (by decide) (by decide) (by decide)).2 (by decide)⟩

/-- C22 as stated fails where the sums leave `int`: with `maxlen = 2147483646`,
two names and 80 columns, the column width `maxlen + 2` exceeds the terminal
width, yet `col_width` overflows, no newline is written before the first
entry, both entries share the one line, and the output has one newline, not
three. -/
theorem print_horizontal_int_overflow :
    term_width scenario < columnWidth 2147483646
    ∧ (print_horizontal_int scenario ["a".toList, "b".toList] 2147483646 "d".toList).head?
        ≠ some Ev.newline
    ∧ (print_horizontal_int scenario ["a".toList, "b".toList] 2147483646 "d".toList).count
        Ev.newline = 1
    ∧ lineCounts (print_horizontal_int scenario ["a".toList, "b".toList] 2147483646
        "d".toList) = [2] := by
  decide

end Ls
